import Mathlib

/-! # The implicit-list allocator of `malloc/mm.c`

A shallow embedding of the allocator (CS:APP 3e, section 9.9 style) and the
properties of its natural-language specification.
-/

/-! ## The machine

* Memory is byte addressed: `Heap.mem` maps an address to a byte.  A word is
  32 bits (`unsigned int`), read and written little-endian by `read32` and
  `write32`; `PUT` stores its value modulo `2^32`.
* `size_t` is 64 bits: arithmetic on `size_t` values is taken modulo `2^64`.
* Addresses are natural numbers.  An access to a word that is not inside the
  heap region `[lo, brk)` handed out by the provider, or at the null address,
  is a fault; a function that faults returns `none`.
* The provider `mem_sbrk` and the macros `PRED` and `SUCC` are not part of
  `mm.c`; they are modelled from the specification.
-/

namespace MM

/-! ## Basic constants and macros -/

/-- Word and header/footer size (bytes). -/
def WSIZE : Nat := 4

/-- Double word size (bytes). -/
def DSIZE : Nat := 8

/-- Extend heap by this amount (bytes): `1 << 12`. -/
def CHUNKSIZE : Nat := 4096

/-- The macro `MAX(x, y)`. -/
def MAX (x y : Nat) : Nat := if x > y then x else y

/-- The macro `PACK(size, alloc)`: bitwise or. -/
def PACK (size alloc : Nat) : Nat := size ||| alloc

/-- Reduction of a `size_t` value to 64 bits. -/
def wrap64 (x : Nat) : Nat := x % 2 ^ 64

/-- Subtraction of two `size_t` values (modulo `2^64`). -/
def sub64 (x y : Nat) : Nat := (x % 2 ^ 64 + 2 ^ 64 - y % 2 ^ 64) % 2 ^ 64

/-- The value `(void *)-1`, which the provider returns on failure. -/
def SBRK_FAIL : Nat := 2 ^ 64 - 1

/-- The null pointer. -/
def NULL : Nat := 0

/-! ## Memory and the heap state -/

/-- Byte-addressed memory. -/
abbrev Mem := Nat → Nat

/-- Little-endian read of a 32-bit word. -/
def read32 (m : Mem) (a : Nat) : Nat :=
  m a % 256 + 256 * (m (a + 1) % 256) + 65536 * (m (a + 2) % 256)
    + 16777216 * (m (a + 3) % 256)

/-- Little-endian write of a 32-bit word (the value is truncated to 32 bits). -/
def write32 (m : Mem) (a v : Nat) : Mem := fun x =>
  if x = a then v % 256
  else if x = a + 1 then v / 256 % 256
  else if x = a + 2 then v / 65536 % 256
  else if x = a + 3 then v / 16777216 % 256
  else m x

/-- The state the allocator works on: the memory, the provider's region
`[lo, brk)` with its limit `cap`, the number of provider calls made so far,
and the file-scope variable `heap_listp`. -/
structure Heap where
  /-- Byte contents of the address space. -/
  mem : Mem
  /-- First byte of the heap region. -/
  lo : Nat
  /-- One past the last byte of the heap region (the provider's break). -/
  brk : Nat
  /-- The provider refuses to move the break beyond this address. -/
  cap : Nat
  /-- Number of calls made to the provider. -/
  calls : Nat
  /-- The file-scope variable `static char *heap_listp`. -/
  heap_listp : Nat

/-- A word access at `p` is legal when the word lies inside the heap region
and `p` is not null. -/
def inHeap (h : Heap) (p : Nat) : Prop := 0 < p ∧ h.lo ≤ p ∧ p + 4 ≤ h.brk

instance (h : Heap) (p : Nat) : Decidable (inHeap h p) := by
  unfold inHeap; exact inferInstance

/-- The macro `GET(p)`. -/
def GET (h : Heap) (p : Nat) : Option Nat :=
  if inHeap h p then some (read32 h.mem p) else none

/-- The macro `PUT(p, val)`. -/
def PUT (h : Heap) (p val : Nat) : Option Heap :=
  if inHeap h p then some { h with mem := write32 h.mem p val } else none

/-- The macro `GET_SIZE(p)`: `GET(p) & ~0x7` on an `unsigned int`. -/
def GET_SIZE (h : Heap) (p : Nat) : Option Nat :=
  (GET h p).map (fun w => w &&& 0xFFFFFFF8)

/-- The macro `GET_ALLOC(p)`: `GET(p) & 0x1`. -/
def GET_ALLOC (h : Heap) (p : Nat) : Option Nat :=
  (GET h p).map (fun w => w &&& 0x1)

/-- The macro `HDRP(bp)`. -/
def HDRP (bp : Nat) : Nat := bp - WSIZE

/-- The macro `FTRP(bp)`. -/
def FTRP (h : Heap) (bp : Nat) : Option Nat :=
  (GET_SIZE h (HDRP bp)).map (fun s => bp + s - DSIZE)

/-- The macro `NEXT_BLKP(bp)`. -/
def NEXT_BLKP (h : Heap) (bp : Nat) : Option Nat :=
  (GET_SIZE h (bp - WSIZE)).map (fun s => bp + s)

/-- The macro `PREV_BLKP(bp)`. -/
def PREV_BLKP (h : Heap) (bp : Nat) : Option Nat :=
  (GET_SIZE h (bp - DSIZE)).map (fun s => bp - s)

/-- Modelled from the spec: the macro `PRED(bp)`, whose definition is not in
`mm.c`.  The specification describes two vestigial free-list link words that
the source writes in every free block; a minimum block has room for exactly
two payload words, so the links are the first two payload words. -/
def PRED (bp : Nat) : Nat := bp

/-- Modelled from the spec: the macro `SUCC(bp)`, whose definition is not in
`mm.c`: the second vestigial link word of a free block (see `PRED`). -/
def SUCC (bp : Nat) : Nat := bp + WSIZE

/-- Modelled from the spec: the heap-region provider `mem_sbrk`, which is not
part of `mm.c`.  It extends the managed region by `incr` bytes and returns the
start of the new region, or the distinguished failure value `(void *)-1` when
the region cannot grow (here: beyond `cap`).  Every call is counted. -/
def mem_sbrk (h : Heap) (incr : Nat) : Heap × Nat :=
  if h.brk + incr ≤ h.cap then
    ({ h with brk := h.brk + incr, calls := h.calls + 1 }, h.brk)
  else
    ({ h with calls := h.calls + 1 }, SBRK_FAIL)

/-- The library function `memcpy(dst, src, n)` on non-overlapping ranges. -/
def memcpy (h : Heap) (dst src n : Nat) : Option Heap :=
  if n = 0 then some h
  else if 0 < dst ∧ h.lo ≤ dst ∧ dst + n ≤ h.brk ∧ 0 < src ∧ h.lo ≤ src ∧ src + n ≤ h.brk then
    some { h with mem := fun x => if dst ≤ x ∧ x < dst + n then h.mem (src + (x - dst)) else h.mem x }
  else none

/-- The library function `memset(dst, c, n)`. -/
def memset (h : Heap) (dst c n : Nat) : Option Heap :=
  if n = 0 then some h
  else if 0 < dst ∧ h.lo ≤ dst ∧ dst + n ≤ h.brk then
    some { h with mem := fun x => if dst ≤ x ∧ x < dst + n then c % 256 else h.mem x }
  else none

/-! ## The allocator -/

/-- Case 2 of `coalesce`: only the next block is free. -/
def coalesce_case2 (h : Heap) (bp next size : Nat) : Option (Heap × Nat) := do
  let nsize ← GET_SIZE h (HDRP next)
  let size := wrap64 (size + nsize)
  let h1 ← PUT h (HDRP bp) (PACK size 0)
  let f ← FTRP h1 bp
  let h2 ← PUT h1 f (PACK size 0)
  some (h2, bp)

/-- Case 3 of `coalesce`: only the previous block is free. -/
def coalesce_case3 (h : Heap) (bp prev size : Nat) : Option (Heap × Nat) := do
  let psize ← GET_SIZE h (HDRP prev)
  let size := wrap64 (size + psize)
  let f ← FTRP h bp
  let h1 ← PUT h f (PACK size 0)
  let prev1 ← PREV_BLKP h1 bp
  let h2 ← PUT h1 (HDRP prev1) (PACK size 0)
  let prev2 ← PREV_BLKP h2 bp
  some (h2, prev2)

/-- Case 4 of `coalesce`: both neighbours are free.  The two neighbour sizes
are `unsigned int` values, so their sum is formed modulo `2^32`. -/
def coalesce_case4 (h : Heap) (bp prev next size : Nat) : Option (Heap × Nat) := do
  let psize ← GET_SIZE h (HDRP prev)
  let nftr ← FTRP h next
  let nsize ← GET_SIZE h nftr
  let size := wrap64 (size + (psize + nsize) % 2 ^ 32)
  let h1 ← PUT h nftr (PACK size 0)
  let prev1 ← PREV_BLKP h1 bp
  let h2 ← PUT h1 (HDRP prev1) (PACK size 0)
  let prev2 ← PREV_BLKP h2 bp
  some (h2, prev2)

/-- The function `coalesce`: merge the free block `bp` with its free
neighbours.  The three merging branches are `coalesce_case2`,
`coalesce_case3` and `coalesce_case4`. -/
def coalesce (h : Heap) (bp : Nat) : Option (Heap × Nat) := do
  let prev ← PREV_BLKP h bp
  let pftr ← FTRP h prev
  let prev_alloc ← GET_ALLOC h pftr
  let next ← NEXT_BLKP h bp
  let next_alloc ← GET_ALLOC h (HDRP next)
  let size ← GET_SIZE h (HDRP bp)
  if prev_alloc ≠ 0 ∧ next_alloc ≠ 0 then some (h, bp)
  else if prev_alloc ≠ 0 ∧ ¬ next_alloc ≠ 0 then coalesce_case2 h bp next size
  else if ¬ prev_alloc ≠ 0 ∧ next_alloc ≠ 0 then coalesce_case3 h bp prev size
  else coalesce_case4 h bp prev next size

/-- The byte count that `extend_heap(words)` computes and asks the provider
for: `words` rounded up to an even number, times the word size. -/
def extendBytes (words : Nat) : Nat :=
  if words % 2 = 0 then wrap64 (words * WSIZE) else wrap64 ((words + 1) * WSIZE)

/-- The function `extend_heap`: extend the heap by `words` words and return
the new free block (after coalescing), or `NULL` when the provider refuses. -/
def extend_heap (h : Heap) (words : Nat) : Option (Heap × Nat) :=
  let size := extendBytes words
  let r := mem_sbrk h size
  let block := r.2
  if block = SBRK_FAIL then some (r.1, NULL)
  else do
    let h1 ← PUT r.1 (HDRP block) (PACK size 0)
    let f ← FTRP h1 block
    let h2 ← PUT h1 f (PACK size 0)
    let h3 ← PUT h2 (SUCC block) 0
    let h4 ← PUT h3 (PRED block) 0
    let next ← NEXT_BLKP h4 block
    let h5 ← PUT h4 (HDRP next) (PACK 0 1)
    coalesce h5 block

/-- The loop of `find_fit`, started at block pointer `p`.  Every iteration
that continues advances `p` by a non-zero block size read inside the heap, so
`fuel` iterations are never used up when `fuel` exceeds the heap size. -/
def find_fit_loop (h : Heap) (asize : Nat) : Nat → Nat → Option Nat
  | 0, _ => none
  | fuel + 1, p => do
    let sz ← GET_SIZE h (HDRP p)
    if sz > 0 then
      let al ← GET_ALLOC h (HDRP p)
      if al = 0 ∧ asize ≤ sz then some p
      else
        let next ← NEXT_BLKP h p
        find_fit_loop h asize fuel next
    else some NULL

/-- The function `find_fit`: first-fit search from `heap_listp`. -/
def find_fit (h : Heap) (asize : Nat) : Option Nat :=
  find_fit_loop h asize (h.brk + 1) h.heap_listp

/-- The function `place`: allocate `asize` bytes of the free block `bp`,
splitting off the remainder when it is at least 16 bytes. -/
def place (h : Heap) (bp asize : Nat) : Option Heap := do
  let total ← GET_SIZE h (HDRP bp)
  let now_size := sub64 total asize
  if now_size ≥ 16 then
    let h1 ← PUT h (HDRP bp) (PACK asize 1)
    let f ← FTRP h1 bp
    let h2 ← PUT h1 f (PACK asize 1)
    let bp ← NEXT_BLKP h2 bp
    let h3 ← PUT h2 (HDRP bp) (PACK now_size 0)
    let f ← FTRP h3 bp
    let h4 ← PUT h3 f (PACK now_size 0)
    let h5 ← PUT h4 (PRED bp) 0
    PUT h5 (SUCC bp) 0
  else
    let h1 ← PUT h (HDRP bp) (PACK total 1)
    let f ← FTRP h1 bp
    PUT h1 f (PACK total 1)

/-- The adjusted block size computed by `malloc` and `realloc`. -/
def adjust (size : Nat) : Nat :=
  if size ≤ DSIZE then 2 * DSIZE
  else wrap64 (DSIZE * (wrap64 (size + DSIZE + (DSIZE - 1)) / DSIZE))

/-- The function `malloc`. -/
def malloc (h : Heap) (size : Nat) : Option (Heap × Nat) :=
  if size = 0 then some (h, NULL)
  else
    let bias := adjust size
    match find_fit h bias with
    | none => none
    | some first =>
      if first ≠ NULL then
        (place h first bias).map (fun h1 => (h1, first))
      else
        let extend := MAX bias CHUNKSIZE
        match extend_heap h (extend / WSIZE) with
        | none => none
        | some (h1, first) =>
          if first = NULL then some (h1, NULL)
          else (place h1 first bias).map (fun h2 => (h2, first))

/-- The function `free`. -/
def free (h : Heap) (ptr : Nat) : Option Heap :=
  if ptr = 0 then some h
  else do
    let size ← GET_SIZE h (HDRP ptr)
    let h1 ← PUT h (HDRP ptr) (PACK size 0)
    let f ← FTRP h1 ptr
    let h2 ← PUT h1 f (PACK size 0)
    let h3 ← PUT h2 (SUCC ptr) 0
    let h4 ← PUT h3 (PRED ptr) 0
    let r ← coalesce h4 ptr
    some r.1

/-- The function `realloc`. -/
def realloc (h : Heap) (oldptr size : Nat) : Option (Heap × Nat) :=
  if size = 0 then (free h oldptr).map (fun h1 => (h1, NULL))
  else if oldptr = NULL then malloc h size
  else do
    let oldsize ← GET_SIZE h (HDRP oldptr)
    let asize := adjust size
    if oldsize ≥ asize then
      if sub64 oldsize asize ≥ 2 * DSIZE then
        let h1 ← PUT h (HDRP oldptr) (PACK asize 1)
        let f ← FTRP h1 oldptr
        let h2 ← PUT h1 f (PACK asize 1)
        let bp ← NEXT_BLKP h2 oldptr
        let h3 ← PUT h2 (HDRP bp) (PACK (sub64 oldsize asize) 0)
        let f ← FTRP h3 bp
        let h4 ← PUT h3 f (PACK (sub64 oldsize asize) 0)
        let r ← coalesce h4 bp
        some (r.1, oldptr)
      else some (h, oldptr)
    else
      let r ← malloc h size
      if r.2 = NULL then some (r.1, NULL)
      else
        let h2 ← memcpy r.1 r.2 oldptr (sub64 oldsize (2 * WSIZE))
        let h3 ← free h2 oldptr
        some (h3, r.2)

/-- The function `calloc`. -/
def calloc (h : Heap) (nmemb size : Nat) : Option (Heap × Nat) := do
  let bytes := wrap64 (nmemb * size)
  let r ← malloc h bytes
  if r.2 ≠ NULL then
    let h2 ← memset r.1 r.2 0 bytes
    some (h2, r.2)
  else some (r.1, r.2)

/-- The function `mm_checkheap`: `return (bool)lineno;`. -/
def mm_checkheap (lineno : Int) : Bool := decide (lineno ≠ 0)

/-- Conversion of an `int` (given by its 32-bit pattern) to a pointer: sign
extension to 64 bits. -/
def intToPtr (i : Nat) : Nat := if i < 2 ^ 31 then i else i + (2 ^ 64 - 2 ^ 32)

/-- The function `mm_init`.  Its `heap_listp` is a local `int` that shadows
the file-scope variable, which is therefore left as it was. -/
def mm_init (h : Heap) : Option (Heap × Int) :=
  let r := mem_sbrk h (4 * WSIZE)
  let heap_listp := r.2 % 2 ^ 32
  if intToPtr heap_listp = SBRK_FAIL then some (r.1, -1)
  else do
    let h1 ← PUT r.1 (intToPtr heap_listp) 0
    let h2 ← PUT h1 (intToPtr ((heap_listp + 1 * WSIZE) % 2 ^ 32)) (PACK DSIZE 1)
    let h3 ← PUT h2 (intToPtr ((heap_listp + 2 * WSIZE) % 2 ^ 32)) (PACK DSIZE 1)
    let h4 ← PUT h3 (intToPtr ((heap_listp + 3 * WSIZE) % 2 ^ 32)) (PACK 0 1)
    let r ← extend_heap h4 115
    if r.2 = NULL then some (r.1, -1) else some (r.1, 0)

/-! ## Specification vocabulary -/

/-- A block as the boundary tags describe it: total size in bytes and the
allocated flag. -/
structure Block where
  /-- Total size of the block in bytes, header and footer included. -/
  size : Nat
  /-- Whether the block is marked allocated. -/
  alloc : Bool
deriving DecidableEq

/-- The allocated bit of a boundary tag. -/
def tag (b : Bool) : Nat := if b then 1 else 0

/-- The boundary tag (header and footer word) of a block. -/
def Block.word (b : Block) : Nat := PACK b.size (tag b.alloc)

/-- Sum of the sizes of a list of blocks. -/
def total : List Block → Nat
  | [] => 0
  | b :: bs => b.size + total bs

/-- The memory `m` holds the blocks `bs` back to back, the first header at
address `a`, the last block ending just before address `e`.  Every block has
a size that is a multiple of 8 and at least 16, and a footer equal to its
header. -/
def Seg (m : Mem) : Nat → List Block → Nat → Prop
  | a, [], e => a = e
  | a, b :: bs, e =>
    b.size % 8 = 0 ∧ 16 ≤ b.size ∧ read32 m a = b.word ∧
      read32 m (a + b.size - 4) = b.word ∧ Seg m (a + b.size) bs e

/-- The abstract first-fit search: the block pointer of the first block of
`bs` that is free and has at least `asize` bytes, where `p` is the block
pointer of the first block of the list; `NULL` when there is none. -/
def firstFit (asize : Nat) : Nat → List Block → Nat
  | _, [] => NULL
  | p, b :: bs => if b.alloc = false ∧ asize ≤ b.size then p else firstFit asize (p + b.size) bs

/-- The heap of `h` is laid out as a well-formed heap that holds exactly the
blocks `bs` between prologue and epilogue: one padding word, the prologue
header and footer `PACK(8, 1)`, the blocks, and the epilogue header
`PACK(0, 1)` in the last word of the heap.  The heap is below `2^32` bytes in
total, so that every block size fits the 32-bit boundary tags, and the
provider's region lies in the 64-bit address space below `(void *)-1`. -/
structure HeapAt (h : Heap) (bs : List Block) : Prop where
  lo_pos : 0 < h.lo
  brk_cap : h.brk ≤ h.cap
  brk_lt : h.brk < h.lo + 2 ^ 32
  cap_addr : h.cap < 2 ^ 64 - 1
  room : h.lo + 16 ≤ h.brk
  pro_hdr : read32 h.mem (h.lo + 4) = PACK 8 1
  pro_ftr : read32 h.mem (h.lo + 8) = PACK 8 1
  seg : Seg h.mem (h.lo + 12) bs (h.brk - 4)
  epi : read32 h.mem (h.brk - 4) = PACK 0 1

/-- A well-formed heap on which the allocator can work for ever: the layout
of `HeapAt` for some list of blocks, with the scan of `find_fit` starting at
the prologue block, and a provider that never lets the heap reach `2^32`
bytes. -/
def WellFormed (h : Heap) : Prop :=
  (∃ bs, HeapAt h bs) ∧ h.heap_listp = h.lo + 8 ∧ h.cap < h.lo + 2 ^ 32

/-- The blocks that `place` leaves in the extent of a free block of `tot`
bytes when it allocates `asize` bytes there: the allocated block and the free
remainder when that has at least 16 bytes, otherwise the whole block. -/
def placed (asize tot : Nat) : List Block :=
  if 16 ≤ tot - asize then [⟨asize, true⟩, ⟨tot - asize, false⟩] else [⟨tot, true⟩]

/-- The last block of the list, if there is one, is allocated. -/
def lastAlloc (bs : List Block) : Bool :=
  match bs.getLast? with
  | some b => b.alloc
  | none => true

/-- The first block of the list, if there is one, is allocated. -/
def headAlloc (bs : List Block) : Bool :=
  match bs.head? with
  | some b => b.alloc
  | none => true

/-- The list `bs`, laid out from header address `base`, has the block `b`
with its header at address `a`. -/
def BlockAt : Nat → List Block → Nat → Block → Prop
  | _, [], _, _ => False
  | base, c :: bs, a, b => (a = base ∧ b = c) ∨ BlockAt (base + c.size) bs a b

instance BlockAt.decidable : ∀ (base : Nat) (bs : List Block) (a : Nat) (b : Block),
    Decidable (BlockAt base bs a b)
  | _, [], _, _ => isFalse (fun h => h)
  | base, c :: bs, a, b =>
    have := BlockAt.decidable (base + c.size) bs a b
    inferInstanceAs (Decidable ((a = base ∧ b = c) ∨ BlockAt (base + c.size) bs a b))

/-- The byte address `x` lies in the extent (header to footer) of a block of
`bs` whose allocated flag is `al`, the list being laid out from `base`. -/
def InBlock (base : Nat) (bs : List Block) (al : Bool) (x : Nat) : Prop :=
  ∃ a b, b.alloc = al ∧ BlockAt base bs a b ∧ a ≤ x ∧ x < a + b.size

/-- An example heap as initialisation is meant to leave it: prologue, one
free block of 464 bytes, epilogue, in the region `[4096, 4576)`. -/
def exHeap : Heap :=
  { mem := write32 (write32 (write32 (write32 (write32 (fun _ => 0) 4100 9) 4104 9) 4108 464)
      4568 464) 4572 1,
    lo := 4096, brk := 4576, cap := 1052672, calls := 2, heap_listp := 4104 }

/-- The pointer `p` is the payload address of a block of the heap that is
marked allocated: a valid argument for `free` and `realloc`. -/
def Allocated (h : Heap) (p : Nat) : Prop :=
  ∃ bs sz, HeapAt h bs ∧ h.lo + 16 ≤ p ∧ BlockAt (h.lo + 12) bs (p - 4) ⟨sz, true⟩

/-- One call of the allocator interface on valid arguments: sizes whose
adjusted size is formed without wrap-around, and pointers that are `NULL` or
designate an allocated block. -/
inductive Step : Heap → Heap → Prop
  | malloc (h h' : Heap) (size p : Nat) :
      size + 15 < 2 ^ 64 → malloc h size = some (h', p) → Step h h'
  | calloc (h h' : Heap) (nmemb size p : Nat) :
      wrap64 (nmemb * size) + 15 < 2 ^ 64 → calloc h nmemb size = some (h', p) → Step h h'
  | free (h h' : Heap) (p : Nat) :
      p = NULL ∨ Allocated h p → free h p = some h' → Step h h'
  | realloc (h h' : Heap) (p size q : Nat) :
      p = NULL ∨ Allocated h p → size + 15 < 2 ^ 64 → realloc h p size = some (h', q) →
      Step h h'

/-- Any sequence of calls of the allocator interface on valid arguments. -/
inductive Reach : Heap → Heap → Prop
  | refl (h : Heap) : Reach h h
  | step (h h1 h2 : Heap) : Reach h h1 → Step h1 h2 → Reach h h2

/-- The two heap states agree on everything but the memory contents: the
provider's region, its call count and `heap_listp`. -/
def SameRegion (h h' : Heap) : Prop :=
  h'.lo = h.lo ∧ h'.brk = h.brk ∧ h'.cap = h.cap ∧ h'.calls = h.calls ∧
    h'.heap_listp = h.heap_listp

/-- The alignment invariant: the provider's break and `heap_listp` are
multiples of 8. -/
def Aligned (h : Heap) : Prop := h.brk % 8 = 0 ∧ h.heap_listp % 8 = 0

/-- The states reachable from `h0` by calls of the allocator interface,
together with the list of pointers that `malloc`, `calloc` and `realloc` have
returned on the way; `free` and `realloc` are called on `NULL` or on a pointer
returned before. -/
inductive Returned (h0 : Heap) : Heap → List Nat → Prop
  | start : Returned h0 h0 []
  | malloc (h h' : Heap) (L : List Nat) (size p : Nat) :
      Returned h0 h L → malloc h size = some (h', p) → Returned h0 h' (p :: L)
  | calloc (h h' : Heap) (L : List Nat) (nmemb size p : Nat) :
      Returned h0 h L → calloc h nmemb size = some (h', p) → Returned h0 h' (p :: L)
  | free (h h' : Heap) (L : List Nat) (p : Nat) :
      Returned h0 h L → p = NULL ∨ p ∈ L → free h p = some h' → Returned h0 h' L
  | realloc (h h' : Heap) (L : List Nat) (p size q : Nat) :
      Returned h0 h L → p = NULL ∨ p ∈ L → realloc h p size = some (h', q) →
      Returned h0 h' (q :: L)

/-- An example heap with three allocated blocks of 32, 48 and 24 bytes
followed by a free block of 360 bytes, in the region `[4096, 4576)`. -/
def exHeap3 : Heap :=
  { mem := write32 (write32 (write32 (write32 (write32 (write32 (write32 (write32 (write32
      (write32 (write32 (fun _ => 0) 4100 9) 4104 9) 4108 33) 4136 33) 4140 49) 4184 49)
      4188 25) 4208 25) 4212 360) 4568 360) 4572 1,
    lo := 4096, brk := 4576, cap := 1052672, calls := 2, heap_listp := 4104 }

/-- The example heap `exHeap3` with a provider that has no room left. -/
def exFull : Heap := { exHeap3 with cap := 4576 }

/-- The provider refuses a request for `incr` more bytes: `mem_sbrk` then
returns `(void *)-1` and leaves the region as it is. -/
def Refuses (h : Heap) (incr : Nat) : Prop := h.cap < h.brk + incr

instance (h : Heap) (incr : Nat) : Decidable (Refuses h incr) := by
  unfold Refuses; exact inferInstance

/-- An example heap whose only block, of 464 bytes, is allocated, in the
region `[4096, 4576)`. -/
def exLast : Heap :=
  { mem := write32 (write32 (write32 (write32 (write32 (fun _ => 0) 4100 9) 4104 9) 4108 465)
      4568 465) 4572 1,
    lo := 4096, brk := 4576, cap := 1052672, calls := 2, heap_listp := 4104 }

/-- A fresh heap: an empty region at address 4096 that the provider can grow
by 1 MiB, nothing written yet, and `heap_listp` still null (the initial value
of a file-scope variable). -/
def exFresh : Heap :=
  { mem := fun _ => 0, lo := 4096, brk := 4096, cap := 1052672, calls := 0, heap_listp := 0 }

/-- A fresh heap whose region starts above 4 GiB, at `2^32 + 4096`. -/
def exHigh : Heap :=
  { mem := fun _ => 0, lo := 4294971392, brk := 4294971392, cap := 4296015872, calls := 0,
    heap_listp := 0 }

/-- The scenario of the specification, run from the heap `h`:
`A = malloc(24)`, `B = malloc(40)`, `C = malloc(16)`, `free(B)`,
`D = malloc(40)`, `free(A)`, `free(C)`, `free(D)`, `E = malloc(456)`.  The
result lists `A`, `B`, `C`, `D`, the provider call count after `D`, then,
after the three final calls of `free`, the header word of the first block
behind the prologue and the footer word in front of the epilogue, then `E`
and the provider call count and the break at the end. -/
def scenario (h : Heap) : Option (List Nat) := do
  let (h1, a) ← malloc h 24
  let (h2, b) ← malloc h1 40
  let (h3, c) ← malloc h2 16
  let h4 ← free h3 b
  let (h5, d) ← malloc h4 40
  let h6 ← free h5 a
  let h7 ← free h6 c
  let h8 ← free h7 d
  let w ← GET h8 (h8.lo + 12)
  let f ← GET h8 (h8.brk - 8)
  let (h9, e) ← malloc h8 456
  some [a, b, c, d, h5.calls, w, f, e, h9.calls, h9.brk]

/-- No two blocks that are next to each other in the list are both free. -/
def NoAdjFree : List Block → Prop
  | [] => True
  | [_] => True
  | b :: c :: bs => (b.alloc = true ∨ c.alloc = true) ∧ NoAdjFree (c :: bs)

instance NoAdjFree.decidable : ∀ (bs : List Block), Decidable (NoAdjFree bs)
  | [] => isTrue trivial
  | [_] => isTrue trivial
  | b :: c :: bs =>
    have := NoAdjFree.decidable (c :: bs)
    inferInstanceAs (Decidable ((b.alloc = true ∨ c.alloc = true) ∧ NoAdjFree (c :: bs)))

/-- The heap is laid out as a list of blocks of which no two neighbours are
both free. -/
def Tidy (h : Heap) : Prop := ∃ bs, HeapAt h bs ∧ NoAdjFree bs

/-- A fresh heap whose provider has room for exactly the 480 bytes that
`mm_init` takes, and refuses every request after that. -/
def exTight : Heap := { exFresh with cap := 4576 }

/-- The example heap `exHeap` with a provider that can grow it to 16 GiB. -/
def exBig : Heap := { exHeap with cap := 17179869184 }

/-- The example heap `exHeap3` with a provider that can grow it to 16 GiB. -/
def exBig3 : Heap := { exHeap3 with cap := 17179869184 }

theorem read32_lt (m : Mem) (a : Nat) : read32 m a < 2 ^ 32 := by
  unfold read32; omega

theorem read32_write32_same (m : Mem) (a v : Nat) :
    read32 (write32 m a v) a = v % 2 ^ 32 := by
  unfold read32 write32
  simp
  omega

theorem write32_outside (m : Mem) (a v x : Nat) (h : x < a ∨ a + 4 ≤ x) :
    write32 m a v x = m x := by
  unfold write32
  have h1 : x ≠ a := by omega
  have h2 : x ≠ a + 1 := by omega
  have h3 : x ≠ a + 2 := by omega
  have h4 : x ≠ a + 3 := by omega
  simp [h1, h2, h3, h4]

theorem read32_congr (m m' : Mem) (a : Nat)
    (h : ∀ x, a ≤ x → x < a + 4 → m' x = m x) : read32 m' a = read32 m a := by
  unfold read32
  rw [h a (by omega) (by omega), h (a + 1) (by omega) (by omega),
    h (a + 2) (by omega) (by omega), h (a + 3) (by omega) (by omega)]

theorem read32_write32_ne (m : Mem) (a v b : Nat) (h : a + 4 ≤ b ∨ b + 4 ≤ a) :
    read32 (write32 m a v) b = read32 m b := by
  apply read32_congr
  intro x h1 h2
  exact write32_outside m a v x (by omega)

theorem mask_size (w : Nat) (hw : w < 2 ^ 32) : w &&& 0xFFFFFFF8 = w / 8 * 8 := by
  apply Nat.eq_of_testBit_eq
  intro i
  have e1 : (4294967288 : Nat) = 2 ^ 3 * (2 ^ 29 - 1) := by norm_num
  have e2 : w / 8 * 8 = 2 ^ 3 * (w / 2 ^ 3) := by omega
  rw [Nat.testBit_and, e1, e2, Nat.testBit_mul_pow_two, Nat.testBit_mul_pow_two,
    Nat.testBit_two_pow_sub_one, ← Nat.shiftRight_eq_div_pow, Nat.testBit_shiftRight]
  by_cases h3 : i ≥ 3
  · have : 3 + (i - 3) = i := by omega
    rw [this]
    by_cases h32 : i - 3 < 29
    · simp [h3, h32]
    · have : w.testBit i = false := by
        apply Nat.testBit_lt_two_pow
        calc w < 2 ^ 32 := hw
          _ ≤ 2 ^ i := Nat.pow_le_pow_right (by decide) (by omega)
      simp [this]
  · simp [h3]

theorem PACK_zero (s : Nat) : PACK s 0 = s := by simp [PACK]

theorem PACK_one (s : Nat) (h : s % 2 = 0) : PACK s 1 = s + 1 := by
  unfold PACK
  have e : s = 2 ^ 1 * (s / 2) := by omega
  rw [e, ← Nat.mul_add_lt_is_or (by decide)]

theorem word_eq (b : Block) (h : b.size % 8 = 0) : b.word = b.size + tag b.alloc := by
  unfold Block.word tag
  by_cases hb : b.alloc = true
  · simp only [hb, if_true]; exact PACK_one _ (by omega)
  · simp only [hb]; exact PACK_zero _

theorem word_size (b : Block) (h : b.size % 8 = 0) (hlt : b.word < 2 ^ 32) :
    b.word &&& 0xFFFFFFF8 = b.size := by
  rw [mask_size _ hlt, word_eq b h]
  unfold tag
  split <;> omega

theorem word_alloc (b : Block) (h : b.size % 8 = 0) : b.word &&& 0x1 = tag b.alloc := by
  rw [Nat.and_one_is_mod, word_eq b h]
  unfold tag
  split <;> omega

theorem word_lt (b : Block) (h : b.size % 8 = 0) (hlt : b.word < 2 ^ 32) : b.size < 2 ^ 32 := by
  rw [word_eq b h] at hlt; omega

/-! ### Segments of blocks -/

theorem Seg_end (m : Mem) : ∀ (bs : List Block) (a e : Nat), Seg m a bs e → e = a + total bs
  | [], a, e, h => by simpa [Seg, total] using h.symm
  | b :: bs, a, e, h => by
    have := Seg_end m bs _ _ h.2.2.2.2
    simp only [total]; omega

theorem Seg_append (m : Mem) : ∀ (xs ys : List Block) (a e : Nat),
    Seg m a (xs ++ ys) e ↔ Seg m a xs (a + total xs) ∧ Seg m (a + total xs) ys e
  | [], ys, a, e => by simp [Seg, total]
  | b :: xs, ys, a, e => by
    have ih := Seg_append m xs ys (a + b.size) e
    have e1 : a + total (b :: xs) = a + b.size + total xs := by simp only [total]; omega
    rw [e1]
    show (_ ∧ _ ∧ _ ∧ _ ∧ Seg m (a + b.size) (xs ++ ys) e) ↔
      (_ ∧ _ ∧ _ ∧ _ ∧ Seg m (a + b.size) xs (a + b.size + total xs)) ∧ _
    rw [ih]
    tauto

theorem Seg_frame (m m' : Mem) : ∀ (bs : List Block) (a e : Nat), Seg m a bs e →
    (∀ x, a ≤ x → x < e → m' x = m x) → Seg m' a bs e
  | [], a, e, h, _ => h
  | b :: bs, a, e, h, hf => by
    obtain ⟨h8, h16, hh, hft, hrest⟩ := h
    have he := Seg_end m bs _ _ hrest
    refine ⟨h8, h16, ?_, ?_, Seg_frame m m' bs _ _ hrest (fun x h1 h2 => hf x (by omega) h2)⟩
    · rw [← hh]; exact read32_congr m m' a (fun x h1 h2 => hf x h1 (by omega))
    · rw [← hft]; exact read32_congr m m' _ (fun x h1 h2 => hf x (by omega) (by omega))

theorem Seg_replace (m m' : Mem) (pre mid mid' post : List Block) (a e : Nat)
    (h : Seg m a (pre ++ mid ++ post) e)
    (hmid : Seg m' (a + total pre) mid' (a + total pre + total mid))
    (hf : ∀ x, x < a + total pre ∨ a + total pre + total mid ≤ x → m' x = m x) :
    Seg m' a (pre ++ mid' ++ post) e := by
  rw [List.append_assoc, Seg_append] at h ⊢
  obtain ⟨h1, h2⟩ := h
  rw [Seg_append] at h2 ⊢
  obtain ⟨h2, h3⟩ := h2
  have e2 := Seg_end _ _ _ _ hmid
  have e3 := Seg_end _ _ _ _ h3
  refine ⟨Seg_frame m m' _ _ _ h1 (fun x _ hx => hf x (Or.inl hx)), ?_, ?_⟩
  · rw [← e2]; exact hmid
  · rw [← e2]; exact Seg_frame m m' _ _ _ h3 (fun x hx _ => hf x (Or.inr hx))

theorem Seg_size_lt (m : Mem) : ∀ (bs : List Block) (a e : Nat), Seg m a bs e →
    ∀ b ∈ bs, b.size < 2 ^ 32
  | [], _, _, _, b, hb => by simp at hb
  | c :: bs, a, e, h, b, hb => by
    rcases List.mem_cons.1 hb with rfl | hb
    · exact word_lt b h.1 (by rw [← h.2.2.1]; exact read32_lt _ _)
    · exact Seg_size_lt m bs _ _ h.2.2.2.2 b hb

/-! ### Word accesses on an explicit state -/

theorem GET_mk (m : Mem) (lo brk cap calls hl p : Nat) (h1 : 0 < p) (h2 : lo ≤ p)
    (h3 : p + 4 ≤ brk) : GET ⟨m, lo, brk, cap, calls, hl⟩ p = some (read32 m p) := by
  simp [GET, inHeap, h1, h2, h3]

theorem PUT_mk (m : Mem) (lo brk cap calls hl p v : Nat) (h1 : 0 < p) (h2 : lo ≤ p)
    (h3 : p + 4 ≤ brk) :
    PUT ⟨m, lo, brk, cap, calls, hl⟩ p v = some ⟨write32 m p v, lo, brk, cap, calls, hl⟩ := by
  simp [PUT, inHeap, h1, h2, h3]

theorem rw_eq (m : Mem) (a v b : Nat) (h : b = a) :
    read32 (write32 m a v) b = v % 4294967296 := by
  subst h; exact read32_write32_same m b v

theorem rw_ne (m : Mem) (a v b : Nat) (h : a + 4 ≤ b ∨ b + 4 ≤ a) :
    read32 (write32 m a v) b = read32 m b := read32_write32_ne m a v b h

theorem sub64_eq (x y : Nat) (h : y ≤ x) (hx : x < 2 ^ 64) : sub64 x y = x - y := by
  unfold sub64; omega

theorem wrap64_eq (x : Nat) (hx : x < 2 ^ 64) : wrap64 x = x := by
  unfold wrap64; omega

theorem P1 (s : Nat) (h : s % 8 = 0) : PACK s 1 = s + 1 := PACK_one s (by omega)

theorem size_tag0 (s : Nat) (h8 : s % 8 = 0) (hlt : s < 4294967296) :
    s % 4294967296 &&& 4294967288 = s := by
  rw [Nat.mod_eq_of_lt hlt, mask_size s hlt]; omega

theorem size_tag1 (s : Nat) (h8 : s % 8 = 0) (hlt : s < 4294967296) :
    (s + 1) % 4294967296 &&& 4294967288 = s := by
  have : s + 1 < 4294967296 := by omega
  rw [Nat.mod_eq_of_lt this, mask_size _ this]; omega

theorem alloc_tag0 (s : Nat) (h8 : s % 8 = 0) : s % 4294967296 &&& 1 = 0 := by
  rw [Nat.and_one_is_mod]; omega

theorem alloc_tag1 (s : Nat) (h8 : s % 8 = 0) : (s + 1) % 4294967296 &&& 1 = 1 := by
  rw [Nat.and_one_is_mod]; omega

theorem size_plain0 (s : Nat) (h8 : s % 8 = 0) (hlt : s < 4294967296) :
    s &&& 4294967288 = s := by
  rw [mask_size s hlt]; omega

theorem size_plain1 (s : Nat) (h8 : s % 8 = 0) (hlt : s < 4294967296) :
    (s + 1) &&& 4294967288 = s := by
  rw [mask_size _ (by omega)]; omega

theorem alloc_plain0 (s : Nat) (h8 : s % 8 = 0) : s &&& 1 = 0 := by
  rw [Nat.and_one_is_mod]; omega

theorem alloc_plain1 (s : Nat) (h8 : s % 8 = 0) : (s + 1) &&& 1 = 1 := by
  rw [Nat.and_one_is_mod]; omega

theorem word_mk_true (s : Nat) (h : s % 8 = 0) : Block.word ⟨s, true⟩ = s + 1 := by
  simp [Block.word, tag, PACK_one s (by omega)]

theorem word_mk_false (s : Nat) : Block.word ⟨s, false⟩ = s := by
  simp [Block.word, tag, PACK_zero]

/-! ### `place` -/

theorem place_split (m : Mem) (lo brk cap calls hl a asize tot : Nat)
    (ha : 0 < a) (hlo : lo ≤ a) (hbrk : a + tot + 4 ≤ brk)
    (hseg : Seg m a [⟨tot, false⟩] (a + tot))
    (h8 : asize % 8 = 0) (h16 : 16 ≤ asize) (hfit : asize + 16 ≤ tot) :
    ∃ m', place ⟨m, lo, brk, cap, calls, hl⟩ (a + 4) asize = some ⟨m', lo, brk, cap, calls, hl⟩ ∧
      Seg m' a [⟨asize, true⟩, ⟨tot - asize, false⟩] (a + tot) ∧
      ∀ x, x < a ∨ a + tot ≤ x → m' x = m x := by
  obtain ⟨t8, t16, hh, hf, -⟩ := hseg
  have tlt : tot < 4294967296 := word_lt ⟨tot, false⟩ t8 (by rw [← hh]; exact read32_lt _ _)
  simp only [word_mk_false] at hh hf t8 t16
  simp (disch := omega) only [place, Option.bind_eq_bind, Option.some_bind, sub64_eq,
    ge_iff_le, if_pos, PUT_mk, FTRP, NEXT_BLKP, GET_SIZE, HDRP, WSIZE, DSIZE, PRED, SUCC,
    Nat.add_sub_cancel, GET_mk, Option.map_some', rw_eq, rw_ne, P1, PACK_zero, size_tag0,
    size_tag1, hh, size_plain0, size_plain1, Nat.mod_eq_of_lt]
  refine ⟨_, rfl, ?_, ?_⟩
  · simp (disch := omega) only [Seg, word_mk_true, word_mk_false, rw_eq, rw_ne,
      Nat.mod_eq_of_lt, hh, hf, true_and, and_true]
    omega
  · intro x hx
    simp (disch := omega) only [write32_outside]

theorem place_whole (m : Mem) (lo brk cap calls hl a asize tot : Nat)
    (ha : 0 < a) (hlo : lo ≤ a) (hbrk : a + tot + 4 ≤ brk)
    (hseg : Seg m a [⟨tot, false⟩] (a + tot))
    (hfit : asize ≤ tot) (hsmall : tot < asize + 16) :
    ∃ m', place ⟨m, lo, brk, cap, calls, hl⟩ (a + 4) asize = some ⟨m', lo, brk, cap, calls, hl⟩ ∧
      Seg m' a [⟨tot, true⟩] (a + tot) ∧
      ∀ x, x < a ∨ a + tot ≤ x → m' x = m x := by
  obtain ⟨t8, t16, hh, hf, -⟩ := hseg
  have tlt : tot < 4294967296 := word_lt ⟨tot, false⟩ t8 (by rw [← hh]; exact read32_lt _ _)
  simp only [word_mk_false] at hh hf t8 t16
  simp (disch := omega) only [place, Option.bind_eq_bind, Option.some_bind, sub64_eq,
    ge_iff_le, if_neg, PUT_mk, FTRP, NEXT_BLKP, GET_SIZE, HDRP, WSIZE, DSIZE, PRED, SUCC,
    Nat.add_sub_cancel, GET_mk, Option.map_some', rw_eq, rw_ne, P1, PACK_zero, size_tag0,
    size_tag1, hh, size_plain0, size_plain1, Nat.mod_eq_of_lt]
  refine ⟨_, rfl, ?_, ?_⟩
  · simp (disch := omega) only [Seg, word_mk_true, word_mk_false, rw_eq, rw_ne,
      Nat.mod_eq_of_lt, hh, hf, true_and, and_true]
    omega
  · intro x hx
    simp (disch := omega) only [write32_outside]

theorem total_placed (asize tot : Nat) (h : asize ≤ tot) : total (placed asize tot) = tot := by
  unfold placed
  split <;> simp only [total] <;> omega

theorem place_spec (m : Mem) (lo brk cap calls hl a asize tot : Nat)
    (ha : 0 < a) (hlo : lo ≤ a) (hbrk : a + tot + 4 ≤ brk)
    (hseg : Seg m a [⟨tot, false⟩] (a + tot))
    (h8 : asize % 8 = 0) (h16 : 16 ≤ asize) (hfit : asize ≤ tot) :
    ∃ m', place ⟨m, lo, brk, cap, calls, hl⟩ (a + 4) asize = some ⟨m', lo, brk, cap, calls, hl⟩ ∧
      Seg m' a (placed asize tot) (a + tot) ∧
      ∀ x, x < a ∨ a + tot ≤ x → m' x = m x := by
  unfold placed
  by_cases hc : 16 ≤ tot - asize
  · rw [if_pos hc]
    exact place_split m lo brk cap calls hl a asize tot ha hlo hbrk hseg h8 h16 (by omega)
  · rw [if_neg hc]
    exact place_whole m lo brk cap calls hl a asize tot ha hlo hbrk hseg hfit (by omega)

/-! ### `coalesce` -/

theorem size_plainT (s t : Nat) (h8 : s % 8 = 0) (ht : t ≤ 1) (hlt : s < 4294967296) :
    (s + t) &&& 4294967288 = s := by
  rw [mask_size _ (by omega)]; omega

theorem alloc_plainT (s t : Nat) (h8 : s % 8 = 0) (ht : t ≤ 1) : (s + t) &&& 1 = t := by
  rw [Nat.and_one_is_mod]; omega

/-- The reads with which `coalesce` starts, on a block (header at `a`) of
`sz` bytes whose previous block has `psz` bytes and allocated bit `pt`, and
whose next block has a header with size `nsz` and allocated bit `nt`. -/
theorem coalesce_dispatch (m : Mem) (lo brk cap calls hl a sz psz nsz pt nt : Nat)
    (hlo : 0 < lo) (hpa : lo + psz ≤ a) (hbrk : a + sz + 4 ≤ brk)
    (hp8 : psz % 8 = 0) (hp : 8 ≤ psz) (hs8 : sz % 8 = 0) (hn8 : nsz % 8 = 0)
    (hpt : pt ≤ 1) (hnt : nt ≤ 1)
    (hpf : read32 m (a - 4) = psz + pt) (hph : read32 m (a - psz) = psz + pt)
    (hh : read32 m a = sz) (hn : read32 m (a + sz) = nsz + nt) :
    coalesce ⟨m, lo, brk, cap, calls, hl⟩ (a + 4) =
      if pt ≠ 0 ∧ nt ≠ 0 then some (⟨m, lo, brk, cap, calls, hl⟩, a + 4)
      else if pt ≠ 0 ∧ ¬ nt ≠ 0 then
        coalesce_case2 ⟨m, lo, brk, cap, calls, hl⟩ (a + 4) (a + 4 + sz) sz
      else if ¬ pt ≠ 0 ∧ nt ≠ 0 then
        coalesce_case3 ⟨m, lo, brk, cap, calls, hl⟩ (a + 4) (a + 4 - psz) sz
      else coalesce_case4 ⟨m, lo, brk, cap, calls, hl⟩ (a + 4) (a + 4 - psz) (a + 4 + sz) sz := by
  have e1 : a + 4 - 8 = a - 4 := by omega
  have e2 : a + 4 - psz - 4 = a - psz := by omega
  have e3 : a + 4 - psz + psz - 8 = a - 4 := by omega
  have e4 : a + 4 + sz - 4 = a + sz := by omega
  have l1 := read32_lt m (a - 4)
  have l2 := read32_lt m a
  have l3 := read32_lt m (a + sz)
  simp (disch := omega) only [coalesce, Option.bind_eq_bind, Option.some_bind, PREV_BLKP, FTRP,
    NEXT_BLKP, GET_SIZE, GET_ALLOC, HDRP, WSIZE, DSIZE, GET_mk, Option.map_some',
    Nat.add_sub_cancel, e1, e2, e3, e4, hpf, hph, hh, hn, size_plain0, size_plainT, alloc_plainT]

theorem coalesce_case2_eq (m : Mem) (lo brk cap calls hl a sz nsz : Nat)
    (hlo : 0 < lo) (hpa : lo ≤ a) (hbrk : a + sz + nsz + 4 ≤ brk)
    (hs8 : sz % 8 = 0) (hn8 : nsz % 8 = 0) (hs : 8 ≤ sz + nsz) (hlt : sz + nsz < 4294967296)
    (hn : read32 m (a + sz) = nsz) :
    coalesce_case2 ⟨m, lo, brk, cap, calls, hl⟩ (a + 4) (a + 4 + sz) sz =
      some (⟨write32 (write32 m a (sz + nsz)) (a + (sz + nsz) - 4) (sz + nsz),
        lo, brk, cap, calls, hl⟩, a + 4) := by
  have e4 : a + 4 + sz - 4 = a + sz := by omega
  have e5 : a + 4 + (sz + nsz) - 8 = a + (sz + nsz) - 4 := by omega
  simp (disch := omega) only [coalesce_case2, Option.bind_eq_bind, Option.some_bind, PREV_BLKP,
    FTRP, NEXT_BLKP, GET_SIZE, GET_ALLOC, HDRP, WSIZE, DSIZE, GET_mk, PUT_mk, Option.map_some',
    Nat.add_sub_cancel, e4, e5, hn, size_plain0, wrap64_eq, PACK_zero, rw_eq, rw_ne,
    Nat.mod_eq_of_lt]

theorem coalesce_case3_eq (m : Mem) (lo brk cap calls hl a sz psz : Nat)
    (hlo : 0 < lo) (hpa : lo + psz ≤ a) (hbrk : a + sz + 4 ≤ brk)
    (hs8 : sz % 8 = 0) (hp8 : psz % 8 = 0) (hs : 8 ≤ sz) (hp : 8 ≤ psz)
    (hlt : sz + psz < 4294967296)
    (hh : read32 m a = sz) (hpf : read32 m (a - 4) = psz) (hph : read32 m (a - psz) = psz) :
    coalesce_case3 ⟨m, lo, brk, cap, calls, hl⟩ (a + 4) (a + 4 - psz) sz =
      some (⟨write32 (write32 m (a + sz - 4) (sz + psz)) (a - psz) (sz + psz),
        lo, brk, cap, calls, hl⟩, a - psz + 4) := by
  have e1 : a + 4 - 8 = a - 4 := by omega
  have e2 : a + 4 - psz - 4 = a - psz := by omega
  have e5 : a + 4 + sz - 8 = a + sz - 4 := by omega
  have e6 : a + 4 - psz = a - psz + 4 := by omega
  simp (disch := omega) only [coalesce_case3, Option.bind_eq_bind, Option.some_bind, PREV_BLKP,
    FTRP, NEXT_BLKP, GET_SIZE, GET_ALLOC, HDRP, WSIZE, DSIZE, GET_mk, PUT_mk, Option.map_some',
    Nat.add_sub_cancel, e1, e2, e5, hh, hpf, hph, size_plain0, wrap64_eq, PACK_zero, rw_eq, rw_ne,
    Nat.mod_eq_of_lt, e6]

theorem coalesce_case4_eq (m : Mem) (lo brk cap calls hl a sz psz nsz : Nat)
    (hlo : 0 < lo) (hpa : lo + psz ≤ a) (hbrk : a + sz + nsz + 4 ≤ brk)
    (hs8 : sz % 8 = 0) (hp8 : psz % 8 = 0) (hn8 : nsz % 8 = 0)
    (hs : 8 ≤ sz) (hp : 8 ≤ psz) (hnn : 8 ≤ nsz)
    (hlt : sz + psz + nsz < 4294967296)
    (hpf : read32 m (a - 4) = psz) (hph : read32 m (a - psz) = psz)
    (hn : read32 m (a + sz) = nsz) (hnf : read32 m (a + sz + nsz - 4) = nsz) :
    coalesce_case4 ⟨m, lo, brk, cap, calls, hl⟩ (a + 4) (a + 4 - psz) (a + 4 + sz) sz =
      some (⟨write32 (write32 m (a + sz + nsz - 4) (sz + (psz + nsz))) (a - psz)
        (sz + (psz + nsz)), lo, brk, cap, calls, hl⟩, a - psz + 4) := by
  have e1 : a + 4 - 8 = a - 4 := by omega
  have e2 : a + 4 - psz - 4 = a - psz := by omega
  have e4 : a + 4 + sz - 4 = a + sz := by omega
  have e5 : a + 4 + sz + nsz - 8 = a + sz + nsz - 4 := by omega
  have e6 : a + 4 - psz = a - psz + 4 := by omega
  simp (disch := omega) only [coalesce_case4, Option.bind_eq_bind, Option.some_bind, PREV_BLKP,
    FTRP, NEXT_BLKP, GET_SIZE, GET_ALLOC, HDRP, WSIZE, DSIZE, GET_mk, PUT_mk, Option.map_some',
    Nat.add_sub_cancel, e1, e2, e4, e5, hpf, hph, hn, hnf, size_plain0, wrap64_eq, PACK_zero,
    rw_eq, rw_ne, Nat.mod_eq_of_lt, e6]

/-! ### Well-formed heaps -/

theorem total_append (xs ys : List Block) : total (xs ++ ys) = total xs + total ys := by
  induction xs with
  | nil => simp [total]
  | cons b xs ih =>
    show b.size + total (xs ++ ys) = b.size + total xs + total ys
    rw [ih]; omega

theorem total_single (b : Block) : total [b] = b.size := by simp [total]

theorem PACK_8_1 : PACK 8 1 = 9 := by decide

theorem PACK_0_1 : PACK 0 1 = 1 := by decide

theorem HeapAt_replace (m m' : Mem) (lo brk cap calls hl : Nat) (pre mid mid' post : List Block)
    (H : HeapAt ⟨m, lo, brk, cap, calls, hl⟩ (pre ++ mid ++ post))
    (hmid : Seg m' (lo + 12 + total pre) mid' (lo + 12 + total pre + total mid))
    (hf : ∀ x, x < lo + 12 + total pre ∨ lo + 12 + total pre + total mid ≤ x → m' x = m x) :
    HeapAt ⟨m', lo, brk, cap, calls, hl⟩ (pre ++ mid' ++ post) := by
  obtain ⟨h1, h2, h3, h4, h5, h7, h8, h9, h10⟩ := H
  dsimp only at *
  have he := Seg_end _ _ _ _ h9
  rw [total_append, total_append] at he
  refine ⟨h1, h2, h3, h4, h5, ?_, ?_, Seg_replace m m' pre mid mid' post _ _ h9 hmid hf, ?_⟩
  · show read32 m' (lo + 4) = _
    rw [← h7]; exact read32_congr m m' _ (fun x _ _ => hf x (by omega))
  · show read32 m' (lo + 8) = _
    rw [← h8]; exact read32_congr m m' _ (fun x _ _ => hf x (by omega))
  · show read32 m' (brk - 4) = _
    rw [← h10]; exact read32_congr m m' _ (fun x _ _ => hf x (by omega))

/-- The block in the middle of a well-formed heap: its boundary tags and its
place in the heap region. -/
theorem HeapAt_block (m : Mem) (lo brk cap calls hl : Nat) (pre post : List Block) (b : Block)
    (H : HeapAt ⟨m, lo, brk, cap, calls, hl⟩ (pre ++ b :: post)) :
    Seg m (lo + 12 + total pre) [b] (lo + 12 + total pre + b.size) ∧
      lo + 12 + total pre + b.size + total post + 4 = brk ∧
      b.size % 8 = 0 ∧ 16 ≤ b.size ∧ b.size < 4294967296 ∧
      read32 m (lo + 12 + total pre) = b.size + tag b.alloc ∧
      read32 m (lo + 12 + total pre + b.size - 4) = b.size + tag b.alloc := by
  have h9 := H.seg
  have h5 := H.room
  dsimp only at h9 h5
  have he := Seg_end _ _ _ _ h9
  rw [total_append] at he
  simp only [total] at he
  rw [Seg_append] at h9
  obtain ⟨-, h8, h16, hh, hf, -⟩ := h9
  have hlt := word_lt b h8 (by rw [← hh]; exact read32_lt _ _)
  rw [word_eq b h8] at hh hf
  refine ⟨⟨h8, h16, by rw [word_eq b h8]; exact hh, by rw [word_eq b h8]; exact hf, rfl⟩,
    by omega, h8, h16, hlt, hh, hf⟩

theorem tag_le (b : Bool) : tag b ≤ 1 := by unfold tag; split <;> omega

/-- The boundary tag in front of a block: the footer of the previous block,
or of the prologue. -/
theorem prev_tag (m : Mem) (lo brk cap calls hl : Nat) (pre post : List Block) (b : Block)
    (H : HeapAt ⟨m, lo, brk, cap, calls, hl⟩ (pre ++ b :: post)) :
    ∃ psz pt, pt ≤ 1 ∧ psz % 8 = 0 ∧ 8 ≤ psz ∧ lo + 4 + psz ≤ lo + 12 + total pre ∧
      read32 m (lo + 12 + total pre - 4) = psz + pt ∧
      read32 m (lo + 12 + total pre - psz) = psz + pt ∧
      (pt = 0 → ∃ pre', pre = pre' ++ [⟨psz, false⟩]) ∧
      (pt = 1 → lastAlloc pre = true) := by
  rcases List.eq_nil_or_concat pre with rfl | ⟨pre', pb, hpre⟩
  on_goal 2 => rw [List.concat_eq_append] at hpre; subst hpre
  · refine ⟨8, 1, by omega, by omega, by omega, by simp [total], ?_, ?_, by omega, fun _ => rfl⟩
    · have := H.pro_ftr
      simp only [total, PACK_8_1] at this ⊢
      exact this
    · have := H.pro_hdr
      simp only [total, PACK_8_1] at this ⊢
      exact this
  · have H' : HeapAt ⟨m, lo, brk, cap, calls, hl⟩ (pre' ++ pb :: ([] ++ b :: post)) := by
      simpa using H
    obtain ⟨-, -, h8, h16, hlt, hh, hf⟩ := HeapAt_block m lo brk cap calls hl pre' _ pb H'
    have et : total (pre' ++ [pb]) = total pre' + pb.size := by
      rw [total_append, total_single]
    refine ⟨pb.size, tag pb.alloc, tag_le _, h8, by omega, by omega, ?_, ?_, ?_, ?_⟩
    · rw [et, ← hf]; congr 1; omega
    · rw [et, ← hh]; congr 1; omega
    · intro ht
      refine ⟨pre', ?_⟩
      have : pb.alloc = false := by
        unfold tag at ht; split at ht <;> simp_all
      cases pb; simp_all
    · intro ht
      have : pb.alloc = true := by
        unfold tag at ht; split at ht <;> simp_all
      simp [lastAlloc, this]

/-- The boundary tag behind a block: the header of the next block, or the
epilogue header. -/
theorem next_tag (m : Mem) (lo brk cap calls hl : Nat) (pre post : List Block) (b : Block)
    (H : HeapAt ⟨m, lo, brk, cap, calls, hl⟩ (pre ++ b :: post)) :
    ∃ nsz nt, nt ≤ 1 ∧ nsz % 8 = 0 ∧
      read32 m (lo + 12 + total pre + b.size) = nsz + nt ∧
      (nt = 0 → ∃ post', post = ⟨nsz, false⟩ :: post') ∧
      (nt = 1 → headAlloc post = true) := by
  obtain ⟨-, hbrk, -⟩ := HeapAt_block m lo brk cap calls hl pre post b H
  cases post with
  | nil =>
    refine ⟨0, 1, by omega, by omega, ?_, by omega, fun _ => rfl⟩
    have := H.epi
    simp only [total, PACK_0_1] at this hbrk ⊢
    have e : lo + 12 + total pre + b.size = brk - 4 := by omega
    rw [e, this]
  | cons nb post' =>
    have H' : HeapAt ⟨m, lo, brk, cap, calls, hl⟩ ((pre ++ [b]) ++ nb :: post') := by
      simpa using H
    obtain ⟨-, -, h8, h16, hlt, hh, hf⟩ := HeapAt_block m lo brk cap calls hl _ _ nb H'
    rw [total_append, total_single, ← Nat.add_assoc] at hh
    refine ⟨nb.size, tag nb.alloc, tag_le _, h8, hh, ?_, ?_⟩
    · intro ht
      refine ⟨post', ?_⟩
      have : nb.alloc = false := by
        unfold tag at ht; split at ht <;> simp_all
      cases nb; simp_all
    · intro ht
      have : nb.alloc = true := by
        unfold tag at ht; split at ht <;> simp_all
      simp [headAlloc, this]

/-- The effect of `coalesce` on a well-formed heap: the free block is merged
with the free blocks next to it (`fp` before, `fn` after, each empty or one
free block), nothing outside the merged extent changes, and the heap stays
well formed. -/
theorem coalesce_heap (m : Mem) (lo brk cap calls hl : Nat) (pre post : List Block) (sz : Nat)
    (H : HeapAt ⟨m, lo, brk, cap, calls, hl⟩ (pre ++ ⟨sz, false⟩ :: post)) :
    ∃ m' pre' fp fn post',
      pre = pre' ++ fp ∧ post = fn ++ post' ∧
      (fp = [] ∧ lastAlloc pre = true ∨ ∃ s, fp = [⟨s, false⟩]) ∧
      (fn = [] ∧ headAlloc post = true ∨ ∃ s, fn = [⟨s, false⟩]) ∧
      coalesce ⟨m, lo, brk, cap, calls, hl⟩ (lo + 12 + total pre + 4) =
        some (⟨m', lo, brk, cap, calls, hl⟩, lo + 12 + total pre' + 4) ∧
      HeapAt ⟨m', lo, brk, cap, calls, hl⟩ (pre' ++ ⟨total fp + sz + total fn, false⟩ :: post') ∧
      (∀ x, x < lo + 12 + total pre' ∨ lo + 12 + total pre + sz + total fn ≤ x → m' x = m x) := by
  obtain ⟨psz, pt, hpt, hp8, hp, hpa, hpf, hph, hp0, hp1⟩ :=
    prev_tag m lo brk cap calls hl pre post _ H
  obtain ⟨nsz, nt, hnt, hn8, hn, hn0, hn1⟩ := next_tag m lo brk cap calls hl pre post _ H
  obtain ⟨hseg, hbrk, hs8, hs16, hslt, hh, hf⟩ := HeapAt_block m lo brk cap calls hl pre post _ H
  have hlo := H.lo_pos
  have hcap := H.brk_lt
  have hbc := H.brk_cap
  simp only [tag, Bool.false_eq_true, if_false, Nat.add_zero] at hh hf hs8 hs16 hslt hbrk hn hlo hcap hbc
  obtain ⟨a, ha⟩ : ∃ a, a = lo + 12 + total pre := ⟨_, rfl⟩
  rw [← ha] at hpf hph hh hf hn hpa hbrk hseg
  have hnlt := read32_lt m (a + sz)
  have hd := coalesce_dispatch m lo brk cap calls hl a sz psz nsz pt nt hlo (by omega) (by omega)
    hp8 hp hs8 hn8 hpt hnt hpf hph hh hn
  rw [← ha, hd]
  rcases Nat.le_one_iff_eq_zero_or_eq_one.1 hpt with rfl | rfl <;>
    rcases Nat.le_one_iff_eq_zero_or_eq_one.1 hnt with rfl | rfl
  · -- both neighbours free
    obtain ⟨pre0, rfl⟩ := hp0 rfl
    obtain ⟨post0, rfl⟩ := hn0 rfl
    rw [total_append, total_single] at ha
    simp only [total] at hbrk
    dsimp only at ha
    obtain ⟨-, -, -, hn16, -, -, hnf⟩ := HeapAt_block m lo brk cap calls hl
      (pre0 ++ [⟨psz, false⟩] ++ [⟨sz, false⟩]) post0 ⟨nsz, false⟩ (by simpa using H)
    simp only [total_append, total_single, tag, Bool.false_eq_true, if_false, Nat.add_zero]
      at hnf hn16
    have e1 : lo + 12 + (total pre0 + psz + sz) + nsz - 4 = a + sz + nsz - 4 := by omega
    rw [e1] at hnf
    rw [if_neg (by omega), if_neg (by omega), if_neg (by omega),
      coalesce_case4_eq m lo brk cap calls hl a sz psz nsz hlo (by omega) (by omega) hs8 hp8 hn8
        (by omega) hp (by omega) (by omega) hpf hph hn hnf]
    obtain ⟨m', hm'⟩ : ∃ m' : Mem, m' = write32 (write32 m (a + sz + nsz - 4) (sz + (psz + nsz))) (a - psz) (sz + (psz + nsz)) :=
      ⟨_, rfl⟩
    rw [← hm']
    refine ⟨m', pre0, [⟨psz, false⟩], [⟨nsz, false⟩], post0, rfl, rfl, Or.inr ⟨_, rfl⟩,
      Or.inr ⟨_, rfl⟩, ?_, ?_, ?_⟩
    · congr 2; omega
    · have := HeapAt_replace m m' lo brk cap calls hl pre0
        [⟨psz, false⟩, ⟨sz, false⟩, ⟨nsz, false⟩] [⟨psz + sz + nsz, false⟩] post0
        (by simpa using H) ?_ ?_
      · simpa [total] using this
      · rw [hm']
        simp (disch := omega) only [Seg, total, word_mk_false, rw_eq, rw_ne, Nat.mod_eq_of_lt,
          true_and, and_true]
        omega
      · intro x hx
        simp only [total] at hx
        rw [hm']
        simp (disch := omega) only [write32_outside]
    · intro x hx
      simp only [total] at hx
      rw [hm']
      simp (disch := omega) only [write32_outside]
  · -- only the previous block free
    obtain ⟨pre0, rfl⟩ := hp0 rfl
    rw [total_append, total_single] at ha
    dsimp only at ha
    rw [if_neg (by omega), if_neg (by omega), if_pos (by omega),
      coalesce_case3_eq m lo brk cap calls hl a sz psz hlo (by omega) (by omega) hs8 hp8
        (by omega) hp (by omega) hh hpf hph]
    obtain ⟨m', hm'⟩ : ∃ m' : Mem, m' = write32 (write32 m (a + sz - 4) (sz + psz)) (a - psz) (sz + psz) :=
      ⟨_, rfl⟩
    rw [← hm']
    refine ⟨m', pre0, [⟨psz, false⟩], [], post, rfl, by simp, Or.inr ⟨_, rfl⟩,
      Or.inl ⟨rfl, hn1 rfl⟩, ?_, ?_, ?_⟩
    · congr 2; omega
    · have := HeapAt_replace m m' lo brk cap calls hl pre0
        [⟨psz, false⟩, ⟨sz, false⟩] [⟨psz + sz, false⟩] post
        (by simpa using H) ?_ ?_
      · simpa [total] using this
      · rw [hm']
        simp (disch := omega) only [Seg, total, word_mk_false, rw_eq, rw_ne, Nat.mod_eq_of_lt,
          true_and, and_true]
        omega
      · intro x hx
        simp only [total] at hx
        rw [hm']
        simp (disch := omega) only [write32_outside]
    · intro x hx
      simp only [total] at hx
      rw [hm']
      simp (disch := omega) only [write32_outside]
  · -- only the next block free
    obtain ⟨post0, rfl⟩ := hn0 rfl
    simp only [total] at hbrk
    rw [if_neg (by omega), if_pos (by omega),
      coalesce_case2_eq m lo brk cap calls hl a sz nsz hlo (by omega) (by omega) hs8 hn8
        (by omega) (by omega) hn]
    obtain ⟨m', hm'⟩ : ∃ m' : Mem, m' = write32 (write32 m a (sz + nsz)) (a + (sz + nsz) - 4) (sz + nsz) :=
      ⟨_, rfl⟩
    rw [← hm']
    refine ⟨m', pre, [], [⟨nsz, false⟩], post0, by simp, rfl, Or.inl ⟨rfl, hp1 rfl⟩,
      Or.inr ⟨_, rfl⟩, ?_, ?_, ?_⟩
    · congr 2; omega
    · have := HeapAt_replace m m' lo brk cap calls hl pre
        [⟨sz, false⟩, ⟨nsz, false⟩] [⟨sz + nsz, false⟩] post0
        (by simpa using H) ?_ ?_
      · simpa [total] using this
      · rw [hm']
        simp (disch := omega) only [Seg, total, word_mk_false, rw_eq, rw_ne, Nat.mod_eq_of_lt,
          true_and, and_true]
        omega
      · intro x hx
        simp only [total] at hx
        rw [hm']
        simp (disch := omega) only [write32_outside]
    · intro x hx
      simp only [total] at hx
      rw [hm']
      simp (disch := omega) only [write32_outside]
  · -- both allocated
    refine ⟨m, pre, [], [], post, by simp, by simp, Or.inl ⟨rfl, hp1 rfl⟩, Or.inl ⟨rfl, hn1 rfl⟩,
      by simp [ha], by simpa [total] using H, fun _ _ => rfl⟩

/-! ### `find_fit` -/

theorem Seg_length (m : Mem) : ∀ (bs : List Block) (a e : Nat), Seg m a bs e →
    16 * bs.length ≤ total bs
  | [], _, _, _ => by simp [total]
  | b :: bs, a, e, h => by
    have := Seg_length m bs _ _ h.2.2.2.2
    have := h.2.1
    simp only [List.length_cons, total]; omega

theorem find_fit_loop_seg (m : Mem) (lo brk cap calls hl asize e : Nat) (hlo : 0 < lo)
    (hbrk : e + 4 ≤ brk) (hepi : read32 m e = 1) :
    ∀ (bs : List Block) (a fuel : Nat), lo ≤ a → Seg m a bs e → bs.length < fuel →
      find_fit_loop ⟨m, lo, brk, cap, calls, hl⟩ asize fuel (a + 4) =
        some (firstFit asize (a + 4) bs)
  | [], a, fuel, hla, hseg, hfuel => by
    obtain ⟨f, rfl⟩ : ∃ f, fuel = f + 1 := ⟨fuel - 1, by simp at hfuel; omega⟩
    have : a = e := hseg
    subst this
    simp (disch := omega) only [find_fit_loop, firstFit, Option.bind_eq_bind, GET_SIZE, HDRP,
      WSIZE, Nat.add_sub_cancel, GET_mk, hepi, Option.map_some', Option.some_bind]
    rfl
  | b :: bs, a, fuel, hla, hseg, hfuel => by
    obtain ⟨f, rfl⟩ : ∃ f, fuel = f + 1 := ⟨fuel - 1, by simp at hfuel; omega⟩
    obtain ⟨h8, h16, hh, hf, hrest⟩ := hseg
    have hlt := word_lt b h8 (by rw [← hh]; exact read32_lt _ _)
    have hend := Seg_end _ _ _ _ hrest
    rw [word_eq b h8] at hh
    have ih := find_fit_loop_seg m lo brk cap calls hl asize e hlo hbrk hepi bs (a + b.size) f
      (by omega) hrest (by simpa using hfuel)
    have e1 : a + 4 + b.size = a + b.size + 4 := by omega
    have ht := tag_le b.alloc
    simp (disch := omega) only [find_fit_loop, firstFit, Option.bind_eq_bind, GET_SIZE,
      GET_ALLOC, NEXT_BLKP, HDRP, WSIZE, Nat.add_sub_cancel, GET_mk, hh, Option.map_some',
      Option.some_bind, size_plainT, alloc_plainT, e1, ih, gt_iff_lt, if_pos]
    cases hb : b.alloc <;> simp [tag, hb]
    split <;> rfl

theorem find_fit_loop_succ (h : Heap) (asize fuel p : Nat) :
    find_fit_loop h asize (fuel + 1) p =
      (GET_SIZE h (HDRP p)).bind (fun sz =>
        if sz > 0 then
          (GET_ALLOC h (HDRP p)).bind (fun al =>
            if al = 0 ∧ asize ≤ sz then some p
            else (NEXT_BLKP h p).bind (fun next => find_fit_loop h asize fuel next))
        else some NULL) := rfl

theorem find_fit_heap (m : Mem) (lo brk cap calls : Nat) (bs : List Block) (asize : Nat)
    (H : HeapAt ⟨m, lo, brk, cap, calls, lo + 8⟩ bs) :
    find_fit ⟨m, lo, brk, cap, calls, lo + 8⟩ asize = some (firstFit asize (lo + 16) bs) := by
  obtain ⟨h1, h2, h3, h4, h5, h7, h8, h9, h10⟩ := H
  dsimp only at *
  have hend := Seg_end _ _ _ _ h9
  have hlen := Seg_length _ _ _ _ h9
  have ih := find_fit_loop_seg m lo brk cap calls (lo + 8) asize (brk - 4) h1 (by omega)
    (by rw [h10, PACK_0_1]) bs (lo + 12) brk (by omega) h9 (by omega)
  have e1 : lo + 8 - 4 = lo + 4 := by omega
  have e2 : lo + 8 + 8 = lo + 12 + 4 := by omega
  rw [PACK_8_1] at h7
  unfold find_fit
  dsimp only
  rw [find_fit_loop_succ]
  simp (disch := omega) only [GET_SIZE, GET_ALLOC, NEXT_BLKP, HDRP, WSIZE, e1, GET_mk, h7,
    Option.map_some', Option.some_bind, gt_iff_lt, e2]
  simp only [show (9 : Nat) &&& 4294967288 = 8 by decide, show (9 : Nat) &&& 1 = 1 by decide,
    show (0 : Nat) < 8 by decide, if_true, one_ne_zero, false_and, if_false, e2]
  exact ih

theorem firstFit_none (asize : Nat) : ∀ (bs : List Block) (p : Nat), 0 < p →
    firstFit asize p bs = NULL → ∀ b ∈ bs, b.alloc = true ∨ b.size < asize
  | [], _, _, _, b, hb => by simp at hb
  | c :: bs, p, hp, h, b, hb => by
    unfold firstFit at h
    split at h
    · exact absurd h (by unfold NULL; omega)
    · rename_i hc
      rcases List.mem_cons.1 hb with rfl | hb
      · cases hbb : b.alloc
        · right; simp [hbb] at hc; omega
        · left; rfl
      · exact firstFit_none asize bs _ (by omega) h b hb

theorem firstFit_some (asize : Nat) : ∀ (bs : List Block) (p : Nat),
    firstFit asize p bs ≠ NULL → ∃ pre tot post, bs = pre ++ ⟨tot, false⟩ :: post ∧
      asize ≤ tot ∧ firstFit asize p bs = p + total pre ∧
      ∀ b ∈ pre, b.alloc = true ∨ b.size < asize
  | [], _, h => by simp [firstFit] at h
  | c :: bs, p, h => by
    unfold firstFit at h ⊢
    split
    · rename_i hc
      refine ⟨[], c.size, bs, ?_, hc.2, by simp [total], by simp⟩
      cases c; simp_all
    · rename_i hc
      rw [if_neg hc] at h
      obtain ⟨pre, tot, post, rfl, h1, h2, h3⟩ := firstFit_some asize bs _ h
      refine ⟨c :: pre, tot, post, rfl, h1, by rw [h2]; simp only [total]; omega, ?_⟩
      intro b hb
      rcases List.mem_cons.1 hb with rfl | hb
      · cases hbb : b.alloc
        · right; simp [hbb] at hc; omega
        · left; rfl
      · exact h3 b hb

/-! ### `free` -/

/-- The writes of `free` before it coalesces: the boundary tags are rewritten
as free and the two link words of the payload are cleared. -/
theorem free_marks (m : Mem) (lo brk cap calls hl a sz t : Nat)
    (hlo : 0 < lo) (hla : lo ≤ a) (hbrk : a + sz + 4 ≤ brk)
    (h8 : sz % 8 = 0) (h16 : 16 ≤ sz) (hlt : sz < 4294967296) (ht : t ≤ 1)
    (hh : read32 m a = sz + t) :
    free ⟨m, lo, brk, cap, calls, hl⟩ (a + 4) =
      (coalesce ⟨write32 (write32 (write32 (write32 m a sz) (a + sz - 4) sz) (a + 8) 0) (a + 4) 0,
        lo, brk, cap, calls, hl⟩ (a + 4)).bind (fun r => some r.1) := by
  have e1 : a + 4 + sz - 8 = a + sz - 4 := by omega
  have e2 : a + 4 + 4 = a + 8 := by omega
  have e3 : ¬ (a + 4 = 0) := by omega
  simp (disch := omega) only [free, e3, if_false, Option.bind_eq_bind, Option.some_bind, PUT_mk,
    FTRP, GET_SIZE, HDRP, WSIZE, DSIZE, PRED, SUCC, Nat.add_sub_cancel, GET_mk, Option.map_some',
    rw_eq, rw_ne, PACK_zero, hh, size_plain0, size_plainT, Nat.mod_eq_of_lt, e1, e2]

/-- The effect of `free` on an allocated block of a well-formed heap. -/
theorem free_heap (m : Mem) (lo brk cap calls hl : Nat) (pre post : List Block) (sz : Nat)
    (H : HeapAt ⟨m, lo, brk, cap, calls, hl⟩ (pre ++ ⟨sz, true⟩ :: post)) :
    ∃ m' pre' fp fn post',
      pre = pre' ++ fp ∧ post = fn ++ post' ∧
      (fp = [] ∧ lastAlloc pre = true ∨ ∃ s, fp = [⟨s, false⟩]) ∧
      (fn = [] ∧ headAlloc post = true ∨ ∃ s, fn = [⟨s, false⟩]) ∧
      free ⟨m, lo, brk, cap, calls, hl⟩ (lo + 12 + total pre + 4) =
        some ⟨m', lo, brk, cap, calls, hl⟩ ∧
      HeapAt ⟨m', lo, brk, cap, calls, hl⟩ (pre' ++ ⟨total fp + sz + total fn, false⟩ :: post') ∧
      (∀ x, x < lo + 12 + total pre' ∨ lo + 12 + total pre + sz + total fn ≤ x → m' x = m x) := by
  obtain ⟨hseg, hbrk, hs8, hs16, hslt, hh, hf⟩ := HeapAt_block m lo brk cap calls hl pre post _ H
  have hlo := H.lo_pos
  dsimp only at hlo hs8 hs16 hslt hh hf hbrk
  obtain ⟨a, ha⟩ : ∃ a, a = lo + 12 + total pre := ⟨_, rfl⟩
  rw [← ha] at hh hf hbrk
  obtain ⟨m1, hm1⟩ : ∃ m1 : Mem,
      m1 = write32 (write32 (write32 (write32 m a sz) (a + sz - 4) sz) (a + 8) 0) (a + 4) 0 :=
    ⟨_, rfl⟩
  have hfr1 : ∀ x, x < a ∨ a + sz ≤ x → m1 x = m x := by
    intro x hx
    rw [hm1]
    simp (disch := omega) only [write32_outside]
  have H1 : HeapAt ⟨m1, lo, brk, cap, calls, hl⟩ (pre ++ ⟨sz, false⟩ :: post) := by
    have := HeapAt_replace m m1 lo brk cap calls hl pre [⟨sz, true⟩] [⟨sz, false⟩] post
      (by simpa using H) ?_ ?_
    · simpa using this
    · rw [hm1, ← ha]
      simp (disch := omega) only [Seg, total, word_mk_false, rw_eq, rw_ne, Nat.mod_eq_of_lt,
        true_and, and_true]
      omega
    · intro x hx
      simp only [total] at hx
      exact hfr1 x (by omega)
  obtain ⟨m', pre', fp, fn, post', e1, e2, h3, h4, hco, H', hfr⟩ :=
    coalesce_heap m1 lo brk cap calls hl pre post sz H1
  refine ⟨m', pre', fp, fn, post', e1, e2, h3, h4, ?_, H', ?_⟩
  · rw [← ha, free_marks m lo brk cap calls hl a sz (tag true) hlo (by omega) (by omega) hs8 hs16
      hslt (tag_le _) hh, ← hm1]
    rw [← ha] at hco
    rw [hco]
    rfl
  · intro x hx
    have et : total pre = total pre' + total fp := by rw [e1, total_append]
    rw [hfr x hx]
    exact hfr1 x (by omega)

/-! ### `extend_heap` -/

theorem extend_heap_fail (m : Mem) (lo brk cap calls hl words : Nat)
    (hfail : cap < brk + extendBytes words) :
    extend_heap ⟨m, lo, brk, cap, calls, hl⟩ words =
      some (⟨m, lo, brk, cap, calls + 1, hl⟩, NULL) := by
  have hc : ¬ (brk + extendBytes words ≤ cap) := by omega
  simp only [extend_heap, mem_sbrk, hc, if_false, if_true]

theorem extend_heap_writes (m : Mem) (lo brk cap calls hl words : Nat)
    (hlo : 0 < lo) (hlb : lo + 4 ≤ brk) (hca : cap < 2 ^ 64 - 1)
    (h16 : 16 ≤ extendBytes words) (hlt : extendBytes words < 4294967296)
    (hroom : brk + extendBytes words ≤ cap) :
    extend_heap ⟨m, lo, brk, cap, calls, hl⟩ words =
      coalesce ⟨write32 (write32 (write32 (write32 (write32 m (brk - 4) (extendBytes words))
        (brk + extendBytes words - 8) (extendBytes words)) (brk + 4) 0) brk 0)
        (brk + extendBytes words - 4) 1, lo, brk + extendBytes words, cap, calls + 1, hl⟩ brk := by
  have h8 : extendBytes words % 8 = 0 := by
    unfold extendBytes wrap64 WSIZE; split <;> omega
  have hne : ¬ (brk = SBRK_FAIL) := by unfold SBRK_FAIL; omega
  have e0 : extend_heap ⟨m, lo, brk, cap, calls, hl⟩ words =
      (PUT ⟨m, lo, brk + extendBytes words, cap, calls + 1, hl⟩ (HDRP brk)
        (PACK (extendBytes words) 0)).bind (fun h1 =>
      (FTRP h1 brk).bind (fun f =>
      (PUT h1 f (PACK (extendBytes words) 0)).bind (fun h2 =>
      (PUT h2 (SUCC brk) 0).bind (fun h3 =>
      (PUT h3 (PRED brk) 0).bind (fun h4 =>
      (NEXT_BLKP h4 brk).bind (fun next =>
      (PUT h4 (HDRP next) (PACK 0 1)).bind (fun h5 => coalesce h5 brk))))))) := by
    simp only [extend_heap, mem_sbrk, hroom, if_true, hne, if_false]
    rfl
  rw [e0]
  generalize extendBytes words = size at *
  simp (disch := omega) only [Option.some_bind, PUT_mk,
    FTRP, NEXT_BLKP, GET_SIZE, HDRP, WSIZE, DSIZE, PRED, SUCC, GET_mk, Option.map_some',
    rw_eq, rw_ne, PACK_zero, PACK_0_1, size_plain0, Nat.mod_eq_of_lt]

theorem extendBytes_mod (words : Nat) : extendBytes words % 8 = 0 := by
  unfold extendBytes wrap64 WSIZE; split <;> omega

/-- The effect of a successful `extend_heap` on a well-formed heap: the new
region becomes a free block, merged with the last block when that is free. -/
theorem extend_heap_heap (m : Mem) (lo brk cap calls hl : Nat) (bs : List Block) (words : Nat)
    (H : HeapAt ⟨m, lo, brk, cap, calls, hl⟩ bs)
    (h16 : 16 ≤ extendBytes words) (hroom : brk + extendBytes words ≤ cap)
    (hlt : brk + extendBytes words < lo + 2 ^ 32) :
    ∃ m' pre' fp, bs = pre' ++ fp ∧
      (fp = [] ∧ lastAlloc bs = true ∨ ∃ s, fp = [⟨s, false⟩]) ∧
      extend_heap ⟨m, lo, brk, cap, calls, hl⟩ words =
        some (⟨m', lo, brk + extendBytes words, cap, calls + 1, hl⟩, lo + 12 + total pre' + 4) ∧
      HeapAt ⟨m', lo, brk + extendBytes words, cap, calls + 1, hl⟩
        (pre' ++ [⟨total fp + extendBytes words, false⟩]) ∧
      (∀ x, x < lo + 12 + total pre' → m' x = m x) := by
  obtain ⟨h1, h2, h3, h4, h5, h7, h8, h9, h10⟩ := H
  dsimp only at *
  have hend := Seg_end _ _ _ _ h9
  have h8' := extendBytes_mod words
  rw [extend_heap_writes m lo brk cap calls hl words h1 (by omega) h4 h16 (by omega) hroom]
  generalize extendBytes words = size at *
  obtain ⟨m1, hm1⟩ : ∃ m1 : Mem, m1 = write32 (write32 (write32 (write32 (write32 m (brk - 4) size)
      (brk + size - 8) size) (brk + 4) 0) brk 0) (brk + size - 4) 1 := ⟨_, rfl⟩
  rw [← hm1]
  have hfr1 : ∀ x, x < brk - 4 → m1 x = m x := by
    intro x hx
    rw [hm1]
    simp (disch := omega) only [write32_outside]
  have H1 : HeapAt ⟨m1, lo, brk + size, cap, calls + 1, hl⟩ (bs ++ ⟨size, false⟩ :: []) := by
    refine ⟨h1, hroom, hlt, h4, by dsimp only; omega, ?_, ?_, ?_, ?_⟩
    · show read32 m1 (lo + 4) = _
      rw [← h7]; exact read32_congr m m1 _ (fun x _ _ => hfr1 x (by omega))
    · show read32 m1 (lo + 8) = _
      rw [← h8]; exact read32_congr m m1 _ (fun x _ _ => hfr1 x (by omega))
    · show Seg m1 (lo + 12) (bs ++ [⟨size, false⟩]) (brk + size - 4)
      rw [Seg_append]
      refine ⟨Seg_frame m m1 _ _ _ (by rw [← hend]; exact h9)
        (fun x _ hx => hfr1 x (by omega)), ?_⟩
      rw [hm1]
      simp (disch := omega) only [Seg, word_mk_false, rw_eq, rw_ne, Nat.mod_eq_of_lt,
        true_and, and_true]
      omega
    · show read32 m1 (brk + size - 4) = _
      rw [hm1, PACK_0_1]
      simp (disch := omega) only [rw_eq, Nat.mod_eq_of_lt]
  obtain ⟨m', pre', fp, fn, post', e1, e2, h3', h4', hco, H', hfr⟩ :=
    coalesce_heap m1 lo (brk + size) cap (calls + 1) hl bs [] size H1
  have hfn : fn = [] := by
    rcases h4' with ⟨h, -⟩ | ⟨s, h⟩
    · exact h
    · rw [h] at e2; simp at e2
  subst hfn
  have hpost : post' = [] := by simpa using e2.symm
  subst hpost
  have eb : lo + 12 + total bs + 4 = brk := by omega
  rw [eb] at hco
  refine ⟨m', pre', fp, e1, h3', hco, by simpa [total] using H', ?_⟩
  intro x hx
  have et : total bs = total pre' + total fp := by rw [e1, total_append]
  rw [hfr x (Or.inl hx)]
  exact hfr1 x (by omega)

/-! ### `malloc` -/

theorem adjust_spec (size : Nat) (hs : 0 < size) (hov : size + 15 < 2 ^ 64) :
    adjust size % 8 = 0 ∧ 16 ≤ adjust size ∧ size + 8 ≤ adjust size ∧ adjust size < size + 16 := by
  unfold adjust wrap64 DSIZE
  split <;> omega

theorem extendBytes_MAX (asize : Nat) (h8 : asize % 8 = 0) (hlt : asize < 2 ^ 64) :
    extendBytes (MAX asize CHUNKSIZE / WSIZE) = MAX asize CHUNKSIZE := by
  unfold extendBytes MAX CHUNKSIZE WSIZE wrap64
  split <;> split <;> omega

theorem MAX_spec (asize : Nat) : asize ≤ MAX asize CHUNKSIZE ∧ 4096 ≤ MAX asize CHUNKSIZE ∧
    (MAX asize CHUNKSIZE = asize ∨ MAX asize CHUNKSIZE = 4096) := by
  unfold MAX CHUNKSIZE
  split <;> omega

/-- The three outcomes of `malloc` on a well-formed heap: a fitting free block
is found and used; or none fits and the provider refuses; or none fits and the
heap is extended. -/
theorem malloc_spec (m : Mem) (lo brk cap calls : Nat) (bs : List Block) (size : Nat)
    (H : HeapAt ⟨m, lo, brk, cap, calls, lo + 8⟩ bs) (hs : 0 < size) (hov : size + 15 < 2 ^ 64)
    (hg : brk + MAX (adjust size) CHUNKSIZE ≤ cap →
      brk + MAX (adjust size) CHUNKSIZE < lo + 2 ^ 32) :
    (∃ m' pre tot post, bs = pre ++ ⟨tot, false⟩ :: post ∧ adjust size ≤ tot ∧
        (∀ b ∈ pre, b.alloc = true ∨ b.size < adjust size) ∧
        malloc ⟨m, lo, brk, cap, calls, lo + 8⟩ size =
          some (⟨m', lo, brk, cap, calls, lo + 8⟩, lo + 16 + total pre) ∧
        HeapAt ⟨m', lo, brk, cap, calls, lo + 8⟩ (pre ++ placed (adjust size) tot ++ post) ∧
        (∀ x, x < lo + 12 + total pre ∨ lo + 12 + total pre + tot ≤ x → m' x = m x)) ∨
    ((∀ b ∈ bs, b.alloc = true ∨ b.size < adjust size) ∧
        cap < brk + MAX (adjust size) CHUNKSIZE ∧
        malloc ⟨m, lo, brk, cap, calls, lo + 8⟩ size =
          some (⟨m, lo, brk, cap, calls + 1, lo + 8⟩, NULL)) ∨
    ((∀ b ∈ bs, b.alloc = true ∨ b.size < adjust size) ∧
        brk + MAX (adjust size) CHUNKSIZE ≤ cap ∧
        ∃ m' pre fp, bs = pre ++ fp ∧
          (fp = [] ∧ lastAlloc bs = true ∨ ∃ s, fp = [⟨s, false⟩]) ∧
          malloc ⟨m, lo, brk, cap, calls, lo + 8⟩ size =
            some (⟨m', lo, brk + MAX (adjust size) CHUNKSIZE, cap, calls + 1, lo + 8⟩,
              lo + 16 + total pre) ∧
          HeapAt ⟨m', lo, brk + MAX (adjust size) CHUNKSIZE, cap, calls + 1, lo + 8⟩
            (pre ++ placed (adjust size) (total fp + MAX (adjust size) CHUNKSIZE)) ∧
          (∀ x, x < lo + 12 + total pre → m' x = m x)) := by
  obtain ⟨a8, a16, age, alt⟩ := adjust_spec size hs hov
  obtain ⟨mx1, mx2, mx3⟩ := MAX_spec (adjust size)
  have hlo := H.lo_pos
  have hcap := H.brk_lt
  have hbc := H.brk_cap
  dsimp only at hlo hcap hbc
  have hff := find_fit_heap m lo brk cap calls bs (adjust size) H
  have hne : ¬ (size = 0) := by omega
  by_cases hfit : firstFit (adjust size) (lo + 16) bs = NULL
  · -- no fit
    have hnone := firstFit_none (adjust size) bs (lo + 16) (by omega) hfit
    rw [hfit] at hff
    have hext := extendBytes_MAX (adjust size) a8 (by omega)
    by_cases hroom : brk + MAX (adjust size) CHUNKSIZE ≤ cap
    · right; right
      refine ⟨hnone, hroom, ?_⟩
      have hg' := hg hroom
      obtain ⟨m1, pre, fp, e1, h3, hex, H1, hfr1⟩ := extend_heap_heap m lo brk cap calls (lo + 8)
        bs (MAX (adjust size) CHUNKSIZE / WSIZE) H (by omega) (by omega) (by omega)
      rw [hext] at hex H1
      have H1' : HeapAt ⟨m1, lo, brk + MAX (adjust size) CHUNKSIZE, cap, calls + 1, lo + 8⟩
          (pre ++ ⟨total fp + MAX (adjust size) CHUNKSIZE, false⟩ :: []) := H1
      obtain ⟨hseg, hbrk, -⟩ := HeapAt_block m1 lo _ cap (calls + 1) (lo + 8) pre [] _ H1'
      simp only [total] at hbrk
      dsimp only at hseg hbrk
      obtain ⟨m', hpl, hseg', hfr2⟩ := place_spec m1 lo (brk + MAX (adjust size) CHUNKSIZE) cap
        (calls + 1) (lo + 8) (lo + 12 + total pre) (adjust size)
        (total fp + MAX (adjust size) CHUNKSIZE) (by omega) (by omega) (by omega) hseg a8 a16
        (by omega)
      refine ⟨m', pre, fp, e1, h3, ?_, ?_, ?_⟩
      · simp only [malloc, hne, if_false, hff, hex]
        have e2 : lo + 12 + total pre + 4 = lo + 16 + total pre := by omega
        rw [e2] at hpl ⊢
        have e3 : ¬ (lo + 16 + total pre = NULL) := by unfold NULL; omega
        simp [NULL, e3, hpl]
      · have := HeapAt_replace m1 m' lo _ cap (calls + 1) (lo + 8) pre
          [⟨total fp + MAX (adjust size) CHUNKSIZE, false⟩]
          (placed (adjust size) (total fp + MAX (adjust size) CHUNKSIZE)) []
          (by simpa using H1) (by simpa [total] using hseg') (by simpa [total] using hfr2)
        simpa using this
      · intro x hx
        rw [hfr2 x (Or.inl hx)]
        exact hfr1 x hx
    · right; left
      refine ⟨hnone, by omega, ?_⟩
      have hex := extend_heap_fail m lo brk cap calls (lo + 8) (MAX (adjust size) CHUNKSIZE / WSIZE)
        (by rw [hext]; omega)
      simp [malloc, hne, hff, hex, NULL]
  · -- a fit is found
    left
    obtain ⟨pre, tot, post, rfl, htot, hfe, hpre⟩ := firstFit_some (adjust size) bs (lo + 16) hfit
    obtain ⟨hseg, hbrk, -⟩ := HeapAt_block m lo brk cap calls (lo + 8) pre post _ H
    dsimp only at hseg hbrk
    obtain ⟨m', hpl, hseg', hfr2⟩ := place_spec m lo brk cap calls (lo + 8) (lo + 12 + total pre)
      (adjust size) tot (by omega) (by omega) (by omega) hseg a8 a16 htot
    refine ⟨m', pre, tot, post, rfl, htot, hpre, ?_, ?_, hfr2⟩
    · rw [hfe] at hff hfit
      have e2 : lo + 12 + total pre + 4 = lo + 16 + total pre := by omega
      rw [e2] at hpl
      simp [malloc, hne, hff, hfit, hpl]
    · exact HeapAt_replace m m' lo brk cap calls (lo + 8) pre [⟨tot, false⟩]
        (placed (adjust size) tot) post (by simpa using H) (by simpa [total] using hseg')
        (by simpa [total] using hfr2)

/-! ### Blocks at addresses -/

theorem BlockAt_append : ∀ (xs ys : List Block) (base a : Nat) (b : Block),
    BlockAt base (xs ++ ys) a b ↔ BlockAt base xs a b ∨ BlockAt (base + total xs) ys a b
  | [], ys, base, a, b => by simp [BlockAt, total]
  | c :: xs, ys, base, a, b => by
    have ih := BlockAt_append xs ys (base + c.size) a b
    show ((a = base ∧ b = c) ∨ BlockAt (base + c.size) (xs ++ ys) a b) ↔
      ((a = base ∧ b = c) ∨ BlockAt (base + c.size) xs a b) ∨
        BlockAt (base + total (c :: xs)) ys a b
    have e : base + total (c :: xs) = base + c.size + total xs := by simp only [total]; omega
    rw [ih, e]
    tauto

theorem BlockAt_split : ∀ (bs : List Block) (base a : Nat) (b : Block),
    BlockAt base bs a b ↔ ∃ pre post, bs = pre ++ b :: post ∧ a = base + total pre
  | [], base, a, b => by simp [BlockAt]
  | c :: bs, base, a, b => by
    have ih := BlockAt_split bs (base + c.size) a b
    show ((a = base ∧ b = c) ∨ BlockAt (base + c.size) bs a b) ↔ _
    rw [ih]
    constructor
    · rintro (⟨rfl, rfl⟩ | ⟨pre, post, rfl, rfl⟩)
      · exact ⟨[], bs, rfl, by simp [total]⟩
      · exact ⟨c :: pre, post, rfl, by simp only [total]; omega⟩
    · rintro ⟨pre, post, e, rfl⟩
      cases pre with
      | nil =>
        simp at e
        left; exact ⟨by simp [total], e.1.symm⟩
      | cons d pre =>
        simp at e
        obtain ⟨rfl, rfl⟩ := e
        right; exact ⟨pre, post, rfl, by simp only [total]; omega⟩

theorem BlockAt_ge : ∀ (bs : List Block) (base a : Nat) (b : Block),
    BlockAt base bs a b → base ≤ a ∧ a + b.size ≤ base + total bs := by
  intro bs base a b h
  obtain ⟨pre, post, rfl, rfl⟩ := (BlockAt_split bs base a b).1 h
  rw [total_append]; simp only [total]; omega

/-- Replacing a stretch `mid` of the block list by another of the same total
size keeps every block that lies outside the stretch. -/
theorem BlockAt_replace (base : Nat) (pre mid mid' post : List Block) (a : Nat) (b : Block)
    (ht : total mid' = total mid) (h : BlockAt base (pre ++ mid ++ post) a b)
    (hout : ¬ BlockAt (base + total pre) mid a b) : BlockAt base (pre ++ mid' ++ post) a b := by
  rw [BlockAt_append, BlockAt_append] at h ⊢
  rw [total_append] at h ⊢
  rw [ht]
  tauto

/-- Two blocks of a well-formed layout are the same block or do not overlap. -/
theorem BlockAt_disjoint : ∀ (bs : List Block) (base a1 a2 : Nat) (b1 b2 : Block),
    (∀ b ∈ bs, 0 < b.size) → BlockAt base bs a1 b1 → BlockAt base bs a2 b2 →
    (a1 = a2 ∧ b1 = b2) ∨ a1 + b1.size ≤ a2 ∨ a2 + b2.size ≤ a1
  | [], _, _, _, _, _, _, h, _ => absurd h (by simp [BlockAt])
  | c :: bs, base, a1, a2, b1, b2, hpos, h1, h2 => by
    have hc := hpos c (List.mem_cons_self _ _)
    have hpos' : ∀ b ∈ bs, 0 < b.size := fun b hb => hpos b (List.mem_cons_of_mem _ hb)
    rcases h1 with ⟨rfl, rfl⟩ | h1 <;> rcases h2 with ⟨rfl, rfl⟩ | h2
    · left; exact ⟨rfl, rfl⟩
    · have := BlockAt_ge _ _ _ _ h2
      right; left; omega
    · have := BlockAt_ge _ _ _ _ h1
      right; right; omega
    · exact BlockAt_disjoint bs _ _ _ _ _ hpos' h1 h2

theorem Seg_pos (m : Mem) : ∀ (bs : List Block) (a e : Nat), Seg m a bs e →
    ∀ b ∈ bs, 0 < b.size
  | [], _, _, _, b, hb => by simp at hb
  | c :: bs, a, e, h, b, hb => by
    rcases List.mem_cons.1 hb with rfl | hb
    · have := h.2.1; omega
    · exact Seg_pos m bs _ _ h.2.2.2.2 b hb

theorem BlockAt_single (base a : Nat) (b c : Block) :
    BlockAt base [c] a b ↔ a = base ∧ b = c := by
  simp [BlockAt]

theorem BlockAt_placed (base asize tot : Nat) (hfit : asize ≤ tot) :
    ∃ bsz, asize ≤ bsz ∧ bsz ≤ tot ∧ BlockAt base (placed asize tot) base ⟨bsz, true⟩ := by
  unfold placed
  split
  · exact ⟨asize, le_refl _, hfit, Or.inl ⟨rfl, rfl⟩⟩
  · exact ⟨tot, hfit, le_refl _, Or.inl ⟨rfl, rfl⟩⟩

/-- Changing bytes inside the payload of one block keeps the layout. -/
theorem HeapAt_payload (m m' : Mem) (lo brk cap calls hl : Nat) (bs : List Block) (a : Nat)
    (b : Block) (H : HeapAt ⟨m, lo, brk, cap, calls, hl⟩ bs) (hb : BlockAt (lo + 12) bs a b)
    (hf : ∀ x, x < a + 4 ∨ a + b.size - 4 ≤ x → m' x = m x) :
    HeapAt ⟨m', lo, brk, cap, calls, hl⟩ bs := by
  obtain ⟨pre, post, rfl, rfl⟩ := (BlockAt_split _ _ _ _).1 hb
  obtain ⟨hseg, hbrk, h8, h16, hlt, hh, hft⟩ := HeapAt_block m lo brk cap calls hl pre post b H
  have := HeapAt_replace m m' lo brk cap calls hl pre [b] [b] post (by simpa using H) ?_ ?_
  · simpa using this
  · obtain ⟨-, -, hh, hft, -⟩ := hseg
    refine ⟨h8, h16, ?_, ?_, by simp [total, Seg]⟩
    · rw [← hh]; exact read32_congr m m' _ (fun x _ _ => hf x (by omega))
    · rw [← hft]; exact read32_congr m m' _ (fun x _ _ => hf x (by omega))
  · intro x hx
    simp only [total] at hx
    exact hf x (by omega)

/-- What a caller sees of `malloc` on a well-formed heap. -/
theorem malloc_blocks (m : Mem) (lo brk cap calls : Nat) (bs : List Block) (size : Nat)
    (H : HeapAt ⟨m, lo, brk, cap, calls, lo + 8⟩ bs) (hs : 0 < size) (hov : size + 15 < 2 ^ 64)
    (hg : brk + MAX (adjust size) CHUNKSIZE ≤ cap →
      brk + MAX (adjust size) CHUNKSIZE < lo + 2 ^ 32) :
    ∃ m' brk' calls' q,
      malloc ⟨m, lo, brk, cap, calls, lo + 8⟩ size =
        some (⟨m', lo, brk', cap, calls', lo + 8⟩, q) ∧
      (q = NULL → m' = m ∧ brk' = brk ∧ calls' = calls + 1 ∧
        (∀ b ∈ bs, b.alloc = true ∨ b.size < adjust size) ∧
        cap < brk + MAX (adjust size) CHUNKSIZE) ∧
      ((∃ b ∈ bs, b.alloc = false ∧ adjust size ≤ b.size) → q ≠ NULL ∧ calls' = calls ∧ brk' = brk) ∧
      (q ≠ NULL → ∃ bs' bsz, HeapAt ⟨m', lo, brk', cap, calls', lo + 8⟩ bs' ∧ lo + 16 ≤ q ∧
        BlockAt (lo + 12) bs' (q - 4) ⟨bsz, true⟩ ∧ adjust size ≤ bsz ∧
        (∀ a b, b.alloc = true → BlockAt (lo + 12) bs a b →
          BlockAt (lo + 12) bs' a b ∧ (a + b.size ≤ q - 4 ∨ q - 4 + bsz ≤ a)) ∧
        (∀ x, InBlock (lo + 12) bs true x → m' x = m x) ∧
        (∀ x, x < lo + 12 → m' x = m x) ∧
        (∀ x, q - 4 ≤ x → x < q - 4 + bsz → InBlock (lo + 12) bs false x ∨ brk - 4 ≤ x)) := by
  obtain ⟨a8, a16, age, alt⟩ := adjust_spec size hs hov
  obtain ⟨mx1, mx2, mx3⟩ := MAX_spec (adjust size)
  have hseg0 := H.seg
  have hroom0 := H.room
  dsimp only at hseg0 hroom0
  have hend0 := Seg_end _ _ _ _ hseg0
  rcases malloc_spec m lo brk cap calls bs size H hs hov hg with
    ⟨m', pre, tot, post, rfl, htot, hpre, hm, H', hfr⟩ | ⟨hnone, hcap, hm⟩ |
    ⟨hnone, hroom, m', pre, fp, rfl, hfp, hm, H', hfr⟩
  · -- a fitting block is used
    refine ⟨m', brk, calls, _, hm, fun h => absurd h (by unfold NULL; omega),
      fun _ => ⟨by unfold NULL; omega, rfl, rfl⟩, fun _ => ?_⟩
    obtain ⟨bsz, hb1, hb2, hb3⟩ := BlockAt_placed (lo + 12 + total pre) (adjust size) tot htot
    have hfree : BlockAt (lo + 12) (pre ++ ⟨tot, false⟩ :: post) (lo + 12 + total pre)
        ⟨tot, false⟩ := (BlockAt_split _ _ _ _).2 ⟨pre, post, rfl, rfl⟩
    have hpos := Seg_pos _ _ _ _ hseg0
    have eq4 : lo + 16 + total pre - 4 = lo + 12 + total pre := by omega
    refine ⟨_, bsz, H', by omega, ?_, hb1, ?_, ?_, ?_, ?_⟩
    · rw [eq4, BlockAt_append, BlockAt_append]
      left; right; exact hb3
    · intro a b hba hb
      have hd := BlockAt_disjoint _ _ _ _ _ _ hpos hb hfree
      refine ⟨?_, ?_⟩
      · refine BlockAt_replace (lo + 12) pre [⟨tot, false⟩] _ post a b
          (by rw [total_placed _ _ htot]; simp [total]) (by simpa using hb) ?_
        rw [BlockAt_single]
        rintro ⟨-, rfl⟩
        simp at hba
      · rcases hd with ⟨-, rfl⟩ | hd | hd
        · simp at hba
        · left; omega
        · right; dsimp only at hd; omega
    · rintro x ⟨a, b, hba, hb, hx1, hx2⟩
      have hd := BlockAt_disjoint _ _ _ _ _ _ hpos hb hfree
      rcases hd with ⟨-, rfl⟩ | hd | hd
      · simp at hba
      · exact hfr x (Or.inl (by omega))
      · exact hfr x (Or.inr (by dsimp only at hd; omega))
    · intro x hx
      exact hfr x (Or.inl (by omega))
    · intro x hx1 hx2
      left
      exact ⟨_, _, rfl, hfree, by omega, by dsimp only; omega⟩
  · -- the provider refuses
    refine ⟨m, brk, calls + 1, NULL, hm, fun _ => ⟨rfl, rfl, rfl, hnone, hcap⟩, ?_,
      fun h => absurd rfl h⟩
    rintro ⟨b, hb, hb1, hb2⟩
    rcases hnone b hb with h | h
    · rw [h] at hb1; simp at hb1
    · omega
  · -- the heap is extended
    refine ⟨m', _, calls + 1, _, hm, fun h => absurd h (by unfold NULL; omega), ?_, fun _ => ?_⟩
    · rintro ⟨b, hb, hb1, hb2⟩
      rcases hnone b hb with h | h
      · rw [h] at hb1; simp at hb1
      · omega
    obtain ⟨bsz, hb1, hb2, hb3⟩ := BlockAt_placed (lo + 12 + total pre) (adjust size)
      (total fp + MAX (adjust size) CHUNKSIZE) (by omega)
    have eq4 : lo + 16 + total pre - 4 = lo + 12 + total pre := by omega
    rw [total_append] at hend0
    have hfpa : ∀ a b, b.alloc = true → ¬ BlockAt (lo + 12 + total pre) fp a b := by
      intro a b hba hb
      rcases hfp with ⟨rfl, -⟩ | ⟨s, rfl⟩
      · simp [BlockAt] at hb
      · rw [BlockAt_single] at hb
        rw [hb.2] at hba; simp at hba
    refine ⟨_, bsz, H', by omega, ?_, hb1, ?_, ?_, ?_, ?_⟩
    · rw [eq4, BlockAt_append]
      right; exact hb3
    · intro a b hba hb
      rw [BlockAt_append] at hb ⊢
      rcases hb with hb | hb
      · have := BlockAt_ge _ _ _ _ hb
        exact ⟨Or.inl hb, Or.inl (by omega)⟩
      · exact absurd hb (hfpa a b hba)
    · rintro x ⟨a, b, hba, hb, hx1, hx2⟩
      rw [BlockAt_append] at hb
      rcases hb with hb | hb
      · have := BlockAt_ge _ _ _ _ hb
        exact hfr x (by omega)
      · exact absurd hb (hfpa a b hba)
    · intro x hx
      exact hfr x (by omega)
    · intro x hx1 hx2
      by_cases hx : brk - 4 ≤ x
      · right; exact hx
      · left
        rcases hfp with ⟨rfl, -⟩ | ⟨s, rfl⟩
        · simp only [total] at hend0; omega
        · refine ⟨lo + 12 + total pre, ⟨s, false⟩, rfl, ?_, by omega, ?_⟩
          · rw [BlockAt_append]; right; exact Or.inl ⟨rfl, rfl⟩
          · simp only [total] at hend0; dsimp only; omega

/-! ### Reading the tags of a block -/

theorem block_reads (m : Mem) (lo brk cap calls hl : Nat) (bs : List Block) (a : Nat) (b : Block)
    (H : HeapAt ⟨m, lo, brk, cap, calls, hl⟩ bs) (hb : BlockAt (lo + 12) bs a b) :
    lo + 12 ≤ a ∧ a + b.size + 4 ≤ brk ∧ b.size % 8 = 0 ∧ 16 ≤ b.size ∧
      b.word = b.size + tag b.alloc ∧
      GET ⟨m, lo, brk, cap, calls, hl⟩ a = some b.word ∧
      GET ⟨m, lo, brk, cap, calls, hl⟩ (a + b.size - 4) = some b.word ∧
      GET_SIZE ⟨m, lo, brk, cap, calls, hl⟩ a = some b.size ∧
      GET_ALLOC ⟨m, lo, brk, cap, calls, hl⟩ a = some (tag b.alloc) := by
  obtain ⟨pre, post, rfl, rfl⟩ := (BlockAt_split _ _ _ _).1 hb
  obtain ⟨hseg, hbrk, h8, h16, hlt, hh, hft⟩ := HeapAt_block m lo brk cap calls hl pre post b H
  have hlo := H.lo_pos
  dsimp only at hlo
  have ht := tag_le b.alloc
  have hw := word_eq b h8
  refine ⟨by omega, by omega, h8, h16, hw, ?_, ?_, ?_, ?_⟩
  · rw [GET_mk _ _ _ _ _ _ _ (by omega) (by omega) (by omega), hh, hw]
  · rw [GET_mk _ _ _ _ _ _ _ (by omega) (by omega) (by omega), hft, hw]
  · simp (disch := omega) only [GET_SIZE, GET_mk, hh, Option.map_some', size_plainT]
  · simp (disch := omega) only [GET_ALLOC, GET_mk, hh, Option.map_some', alloc_plainT]

theorem exHeap_layout : HeapAt exHeap [⟨464, false⟩] := by
  refine ⟨by decide, by decide, by decide, by decide, by decide, by decide, by decide, ?_,
    by decide⟩
  exact ⟨by decide, by decide, by decide, by decide, rfl⟩

theorem exHeap_wf : WellFormed exHeap := ⟨⟨_, exHeap_layout⟩, rfl, by decide⟩

/-! ### What a caller sees of `free` -/

theorem free_blocks (m : Mem) (lo brk cap calls hl : Nat) (bs : List Block) (p sz : Nat)
    (H : HeapAt ⟨m, lo, brk, cap, calls, hl⟩ bs) (hp : lo + 16 ≤ p)
    (hb : BlockAt (lo + 12) bs (p - 4) ⟨sz, true⟩) :
    ∃ m' bs' a' s', free ⟨m, lo, brk, cap, calls, hl⟩ p = some ⟨m', lo, brk, cap, calls, hl⟩ ∧
      HeapAt ⟨m', lo, brk, cap, calls, hl⟩ bs' ∧
      BlockAt (lo + 12) bs' a' ⟨s', false⟩ ∧ a' ≤ p - 4 ∧ p - 4 + sz ≤ a' + s' ∧
      (∀ a b, b.alloc = true → BlockAt (lo + 12) bs a b → a ≠ p - 4 →
        BlockAt (lo + 12) bs' a b ∧ (a + b.size ≤ a' ∨ a' + s' ≤ a)) ∧
      (∀ a b, b.alloc = true → BlockAt (lo + 12) bs' a b → BlockAt (lo + 12) bs a b) ∧
      (∀ x, x < a' ∨ a' + s' ≤ x → m' x = m x) := by
  obtain ⟨pre, post, rfl, hpa⟩ := (BlockAt_split _ _ _ _).1 hb
  have ep : p = lo + 12 + total pre + 4 := by omega
  subst ep
  obtain ⟨m', pre', fp, fn, post', rfl, rfl, hfp, hfn, hfree, H', hfr⟩ :=
    free_heap m lo brk cap calls hl pre post sz H
  have hfpa : ∀ a b, b.alloc = true → ¬ BlockAt (lo + 12 + total pre') fp a b := by
    intro a b hba hb
    rcases hfp with ⟨rfl, -⟩ | ⟨s, rfl⟩
    · simp [BlockAt] at hb
    · rw [BlockAt_single] at hb
      rw [hb.2] at hba; simp at hba
  have hfna : ∀ base a b, b.alloc = true → ¬ BlockAt base fn a b := by
    intro base a b hba hb
    rcases hfn with ⟨rfl, -⟩ | ⟨s, rfl⟩
    · simp [BlockAt] at hb
    · rw [BlockAt_single] at hb
      rw [hb.2] at hba; simp at hba
  have hnew : BlockAt (lo + 12) (pre' ++ ⟨total fp + sz + total fn, false⟩ :: post')
      (lo + 12 + total pre') ⟨total fp + sz + total fn, false⟩ :=
    (BlockAt_split _ _ _ _).2 ⟨pre', post', rfl, rfl⟩
  have hseg' := H'.seg
  dsimp only at hseg'
  have hpos' := Seg_pos _ _ _ _ hseg'
  have et : total (pre' ++ fp) = total pre' + total fp := total_append _ _
  have e4 : lo + 12 + total (pre' ++ fp) + 4 - 4 = lo + 12 + total pre' + total fp := by omega
  refine ⟨m', _, lo + 12 + total pre', total fp + sz + total fn, hfree, H', hnew, by omega,
    by omega, ?_, ?_, ?_⟩
  · intro a b hba hb hne
    have hb' : BlockAt (lo + 12) (pre' ++ [⟨total fp + sz + total fn, false⟩] ++ post') a b := by
      refine BlockAt_replace (lo + 12) pre' (fp ++ ⟨sz, true⟩ :: fn) _ post' a b
        (by rw [total_append]; simp only [total]; omega) (by simpa using hb) ?_
      rw [BlockAt_append]
      rintro (h | h)
      · exact hfpa a b hba h
      · rcases h with ⟨h1, -⟩ | h
        · omega
        · exact hfna _ a b hba h
    have hb'' : BlockAt (lo + 12) (pre' ++ ⟨total fp + sz + total fn, false⟩ :: post') a b := by
      simpa using hb'
    refine ⟨hb'', ?_⟩
    rcases BlockAt_disjoint _ _ _ _ _ _ hpos' hb'' hnew with ⟨-, rfl⟩ | hd | hd
    · simp at hba
    · left; exact hd
    · right; exact hd
  · intro a b hba hb
    have hb' : BlockAt (lo + 12) (pre' ++ [⟨total fp + sz + total fn, false⟩] ++ post') a b := by
      simpa using hb
    have := BlockAt_replace (lo + 12) pre' [⟨total fp + sz + total fn, false⟩]
      (fp ++ ⟨sz, true⟩ :: fn) post' a b
      (by rw [total_append]; simp only [total]; omega) hb' ?_
    · simpa using this
    · rw [BlockAt_single]
      rintro ⟨-, rfl⟩
      simp at hba
  · intro x hx
    exact hfr x (by omega)

/-! ### `realloc` -/

theorem realloc_start (m : Mem) (lo brk cap calls hl a oldsize size : Nat)
    (hlo : 0 < lo) (hla : lo ≤ a) (hbrk : a + oldsize + 4 ≤ brk)
    (hs : 0 < size) (o8 : oldsize % 8 = 0) (olt : oldsize < 4294967296)
    (hh : read32 m a = oldsize + 1) :
    realloc ⟨m, lo, brk, cap, calls, hl⟩ (a + 4) size =
      if oldsize ≥ adjust size then
        if sub64 oldsize (adjust size) ≥ 2 * DSIZE then
          (PUT ⟨m, lo, brk, cap, calls, hl⟩ (HDRP (a + 4)) (PACK (adjust size) 1)).bind (fun h1 =>
          (FTRP h1 (a + 4)).bind (fun f =>
          (PUT h1 f (PACK (adjust size) 1)).bind (fun h2 =>
          (NEXT_BLKP h2 (a + 4)).bind (fun bp =>
          (PUT h2 (HDRP bp) (PACK (sub64 oldsize (adjust size)) 0)).bind (fun h3 =>
          (FTRP h3 bp).bind (fun f =>
          (PUT h3 f (PACK (sub64 oldsize (adjust size)) 0)).bind (fun h4 =>
          (coalesce h4 bp).bind (fun r => some (r.1, a + 4)))))))))
        else some (⟨m, lo, brk, cap, calls, hl⟩, a + 4)
      else
        (malloc ⟨m, lo, brk, cap, calls, hl⟩ size).bind (fun r =>
          if r.2 = NULL then some (r.1, NULL)
          else (memcpy r.1 r.2 (a + 4) (sub64 oldsize (2 * WSIZE))).bind (fun h2 =>
            (free h2 (a + 4)).bind (fun h3 => some (h3, r.2)))) := by
  have e0 : ¬ (size = 0) := by omega
  have e3 : ¬ (a + 4 = NULL) := by unfold NULL; omega
  unfold realloc
  rw [if_neg e0, if_neg e3]
  have eg : GET_SIZE ⟨m, lo, brk, cap, calls, hl⟩ (HDRP (a + 4)) = some oldsize := by
    simp (disch := omega) only [GET_SIZE, HDRP, WSIZE, Nat.add_sub_cancel, GET_mk,
      Option.map_some', hh, size_plain1]
  rw [eg]
  rfl

theorem realloc_shrink_writes (m : Mem) (lo brk cap calls hl a oldsize size : Nat)
    (hlo : 0 < lo) (hla : lo ≤ a) (hbrk : a + oldsize + 4 ≤ brk)
    (hs : 0 < size) (h8 : adjust size % 8 = 0) (h16 : 16 ≤ adjust size)
    (hfit : adjust size + 16 ≤ oldsize) (o8 : oldsize % 8 = 0) (olt : oldsize < 4294967296)
    (hh : read32 m a = oldsize + 1) :
    realloc ⟨m, lo, brk, cap, calls, hl⟩ (a + 4) size =
      (coalesce ⟨write32 (write32 (write32 (write32 m a (adjust size + 1))
          (a + adjust size - 4) (adjust size + 1)) (a + adjust size) (oldsize - adjust size))
          (a + oldsize - 4) (oldsize - adjust size), lo, brk, cap, calls, hl⟩
        (a + adjust size + 4)).bind (fun r => some (r.1, a + 4)) := by
  rw [realloc_start m lo brk cap calls hl a oldsize size hlo hla hbrk hs o8 olt hh]
  generalize adjust size = asize at *
  have e1 : a + 4 + asize - 8 = a + asize - 4 := by omega
  have e2 : a + 4 + asize - 4 = a + asize := by omega
  have e4 : a + 4 + asize + (oldsize - asize) - 8 = a + oldsize - 4 := by omega
  have e5 : a + 4 + asize = a + asize + 4 := by omega
  have e6 : a + asize + 4 - 8 = a + asize - 4 := by omega
  have e7 : a + asize + 4 + (oldsize - asize) - 8 = a + oldsize - 4 := by omega
  rw [sub64_eq _ _ (by omega) (by omega), if_pos (by omega), if_pos (by unfold DSIZE; omega)]
  simp (disch := omega) only [Option.some_bind, PUT_mk,
    FTRP, NEXT_BLKP, GET_SIZE, HDRP, WSIZE, DSIZE, Nat.add_sub_cancel, GET_mk, Option.map_some',
    rw_eq, rw_ne, PACK_zero, P1, size_plain0, size_plain1, Nat.mod_eq_of_lt, e1, e2, e4, e5,
    e6, e7]

theorem realloc_keep (m : Mem) (lo brk cap calls hl a oldsize size : Nat)
    (hlo : 0 < lo) (hla : lo ≤ a) (hbrk : a + oldsize + 4 ≤ brk)
    (hs : 0 < size) (hfit : adjust size ≤ oldsize) (hsmall : oldsize < adjust size + 16)
    (o8 : oldsize % 8 = 0) (olt : oldsize < 4294967296)
    (hh : read32 m a = oldsize + 1) :
    realloc ⟨m, lo, brk, cap, calls, hl⟩ (a + 4) size =
      some (⟨m, lo, brk, cap, calls, hl⟩, a + 4) := by
  rw [realloc_start m lo brk cap calls hl a oldsize size hlo hla hbrk hs o8 olt hh]
  rw [sub64_eq _ _ (by omega) (by omega), if_pos (by omega), if_neg (by unfold DSIZE; omega)]

theorem realloc_grow_unfold (m : Mem) (lo brk cap calls hl a oldsize size : Nat)
    (hlo : 0 < lo) (hla : lo ≤ a) (hbrk : a + oldsize + 4 ≤ brk)
    (hs : 0 < size) (hbig : oldsize < adjust size)
    (o8 : oldsize % 8 = 0) (o16 : 16 ≤ oldsize) (olt : oldsize < 4294967296)
    (hh : read32 m a = oldsize + 1) :
    realloc ⟨m, lo, brk, cap, calls, hl⟩ (a + 4) size =
      (malloc ⟨m, lo, brk, cap, calls, hl⟩ size).bind (fun r =>
        if r.2 = NULL then some (r.1, NULL)
        else (memcpy r.1 r.2 (a + 4) (oldsize - 8)).bind (fun h2 =>
          (free h2 (a + 4)).bind (fun h3 => some (h3, r.2)))) := by
  rw [realloc_start m lo brk cap calls hl a oldsize size hlo hla hbrk hs o8 olt hh]
  rw [if_neg (by omega), sub64_eq _ _ (by unfold WSIZE; omega) (by omega)]
  rfl

theorem lastAlloc_concat (pre : List Block) (b : Block) : lastAlloc (pre ++ [b]) = b.alloc := by
  simp [lastAlloc]

/-- Shrinking in place with a split: the block keeps its address, the rest
becomes a free block that absorbs a free successor. -/
theorem realloc_shrink_heap (m : Mem) (lo brk cap calls hl : Nat) (pre post : List Block)
    (oldsize size : Nat)
    (H : HeapAt ⟨m, lo, brk, cap, calls, hl⟩ (pre ++ ⟨oldsize, true⟩ :: post))
    (hs : 0 < size) (hov : size + 15 < 2 ^ 64) (hfit : adjust size + 16 ≤ oldsize) :
    ∃ m' fn post', post = fn ++ post' ∧
      (fn = [] ∧ headAlloc post = true ∨ ∃ s, fn = [⟨s, false⟩]) ∧
      realloc ⟨m, lo, brk, cap, calls, hl⟩ (lo + 16 + total pre) size =
        some (⟨m', lo, brk, cap, calls, hl⟩, lo + 16 + total pre) ∧
      HeapAt ⟨m', lo, brk, cap, calls, hl⟩
        (pre ++ ⟨adjust size, true⟩ :: ⟨oldsize - adjust size + total fn, false⟩ :: post') ∧
      (∀ x, x < lo + 12 + total pre ∨
          (lo + 16 + total pre ≤ x ∧ x < lo + 16 + total pre + adjust size - 8) ∨
          lo + 12 + total pre + oldsize + total fn ≤ x → m' x = m x) := by
  obtain ⟨a8, a16, age, alt⟩ := adjust_spec size hs hov
  obtain ⟨hseg, hbrk, o8, o16, olt, hh, hf⟩ := HeapAt_block m lo brk cap calls hl pre post _ H
  have hlo := H.lo_pos
  dsimp only at hlo o8 o16 olt hh hf hbrk
  simp only [tag, if_true] at hh hf
  obtain ⟨a, ha⟩ : ∃ a, a = lo + 12 + total pre := ⟨_, rfl⟩
  rw [← ha] at hh hf hbrk
  have ep : lo + 16 + total pre = a + 4 := by omega
  rw [ep, realloc_shrink_writes m lo brk cap calls hl a oldsize size hlo (by omega) (by omega) hs
    a8 a16 hfit o8 olt hh]
  generalize adjust size = asize at *
  obtain ⟨m1, hm1⟩ : ∃ m1 : Mem, m1 = write32 (write32 (write32 (write32 m a (asize + 1))
      (a + asize - 4) (asize + 1)) (a + asize) (oldsize - asize))
      (a + oldsize - 4) (oldsize - asize) := ⟨_, rfl⟩
  rw [← hm1]
  have hfr1 : ∀ x, x < a ∨ (a + 4 ≤ x ∧ x < a + asize - 4) ∨ a + oldsize ≤ x → m1 x = m x := by
    intro x hx
    rw [hm1]
    simp (disch := omega) only [write32_outside]
  have H1 : HeapAt ⟨m1, lo, brk, cap, calls, hl⟩
      ((pre ++ [⟨asize, true⟩]) ++ ⟨oldsize - asize, false⟩ :: post) := by
    have := HeapAt_replace m m1 lo brk cap calls hl pre [⟨oldsize, true⟩]
      [⟨asize, true⟩, ⟨oldsize - asize, false⟩] post (by simpa using H) ?_ ?_
    · simpa using this
    · rw [hm1, ← ha]
      simp (disch := omega) only [Seg, total, word_mk_false, word_mk_true, rw_eq, rw_ne,
        Nat.mod_eq_of_lt, true_and, and_true]
      omega
    · intro x hx
      simp only [total] at hx
      exact hfr1 x (by omega)
  obtain ⟨m', pre', fp, fn, post', e1, e2, h3, h4, hco, H', hfr⟩ :=
    coalesce_heap m1 lo brk cap calls hl (pre ++ [⟨asize, true⟩]) post (oldsize - asize) H1
  have hfp : fp = [] := by
    rcases h3 with ⟨h, -⟩ | ⟨s, h⟩
    · exact h
    · subst h
      have h1 := congrArg lastAlloc e1
      rw [lastAlloc_concat, lastAlloc_concat] at h1
      simp at h1
  subst hfp
  have hpre' : pre' = pre ++ [⟨asize, true⟩] := by simpa using e1.symm
  subst hpre'
  have et : total (pre ++ [⟨asize, true⟩]) = total pre + asize := by
    rw [total_append, total_single]
  rw [et] at hco hfr
  have eb : lo + 12 + (total pre + asize) + 4 = a + asize + 4 := by omega
  rw [eb] at hco
  refine ⟨m', fn, post', e2, h4, ?_, ?_, ?_⟩
  · rw [hco]; rfl
  · simpa [total] using H'
  · intro x hx
    rw [hfr x (by omega)]
    exact hfr1 x (by omega)

theorem memcpy_mk (m : Mem) (lo brk cap calls hl dst src n : Nat) (hn : 0 < n)
    (hd : 0 < dst) (hdl : lo ≤ dst) (hdb : dst + n ≤ brk)
    (hs : 0 < src) (hsl : lo ≤ src) (hsb : src + n ≤ brk) :
    memcpy ⟨m, lo, brk, cap, calls, hl⟩ dst src n =
      some ⟨fun x => if dst ≤ x ∧ x < dst + n then m (src + (x - dst)) else m x,
        lo, brk, cap, calls, hl⟩ := by
  have h0 : ¬ (n = 0) := by omega
  simp [memcpy, h0, hd, hdl, hdb, hs, hsl, hsb]

theorem memset_mk (m : Mem) (lo brk cap calls hl dst c n : Nat) (hn : 0 < n)
    (hd : 0 < dst) (hdl : lo ≤ dst) (hdb : dst + n ≤ brk) :
    memset ⟨m, lo, brk, cap, calls, hl⟩ dst c n =
      some ⟨fun x => if dst ≤ x ∧ x < dst + n then c % 256 else m x,
        lo, brk, cap, calls, hl⟩ := by
  have h0 : ¬ (n = 0) := by omega
  simp [memset, h0, hd, hdl, hdb]

/-- The growing path of `realloc` on a well-formed heap. -/
theorem realloc_grow_heap (m : Mem) (lo brk cap calls : Nat) (bs : List Block)
    (p oldsize size : Nat)
    (H : HeapAt ⟨m, lo, brk, cap, calls, lo + 8⟩ bs) (hp : lo + 16 ≤ p)
    (hb : BlockAt (lo + 12) bs (p - 4) ⟨oldsize, true⟩)
    (hs : 0 < size) (hov : size + 15 < 2 ^ 64) (hbig : oldsize < adjust size)
    (hg : brk + MAX (adjust size) CHUNKSIZE ≤ cap →
      brk + MAX (adjust size) CHUNKSIZE < lo + 2 ^ 32) :
    ∃ m' brk' calls' q,
      realloc ⟨m, lo, brk, cap, calls, lo + 8⟩ p size =
        some (⟨m', lo, brk', cap, calls', lo + 8⟩, q) ∧
      (q = NULL → m' = m ∧ brk' = brk ∧ calls' = calls + 1 ∧
        (∀ b ∈ bs, b.alloc = true ∨ b.size < adjust size) ∧
        cap < brk + MAX (adjust size) CHUNKSIZE) ∧
      (q ≠ NULL → ∃ bs' bsz a' s', HeapAt ⟨m', lo, brk', cap, calls', lo + 8⟩ bs' ∧
        lo + 16 ≤ q ∧ q ≠ p ∧
        BlockAt (lo + 12) bs' (q - 4) ⟨bsz, true⟩ ∧ adjust size ≤ bsz ∧
        BlockAt (lo + 12) bs' a' ⟨s', false⟩ ∧ a' ≤ p - 4 ∧ p - 4 + oldsize ≤ a' + s' ∧
        (∀ i, i < oldsize - 8 → m' (q + i) = m (p + i)) ∧
        (∀ a b, b.alloc = true → BlockAt (lo + 12) bs a b → a ≠ p - 4 →
          BlockAt (lo + 12) bs' a b ∧ a ≠ q - 4 ∧
            ∀ x, a ≤ x → x < a + b.size → m' x = m x)) := by
  obtain ⟨a8, a16, age, alt⟩ := adjust_spec size hs hov
  obtain ⟨r1, r2, r3, r4, r5, -⟩ := block_reads m lo brk cap calls (lo + 8) bs (p - 4) _ H hb
  obtain ⟨pre0, post0, ebs, hpa⟩ := (BlockAt_split _ _ _ _).1 hb
  have H0 := H
  rw [ebs] at H0
  obtain ⟨-, -, -, -, olt, hh, -⟩ := HeapAt_block m lo brk cap calls (lo + 8) pre0 post0 _ H0
  have hlo := H.lo_pos
  dsimp only at r1 r2 r3 r4 hlo olt hh
  simp only [tag, if_true] at hh
  rw [← hpa] at hh
  have ep : p = p - 4 + 4 := by omega
  have hun := realloc_grow_unfold m lo brk cap calls (lo + 8) (p - 4) oldsize size hlo (by omega)
    (by omega) hs hbig r3 r4 olt hh
  rw [← ep] at hun
  rw [hun]
  obtain ⟨m1, brk1, calls1, q, hm, hq0, -, hq1⟩ :=
    malloc_blocks m lo brk cap calls bs size H hs hov hg
  rw [hm]
  by_cases hq : q = NULL
  · obtain ⟨e1, e2, e3, e4, e5⟩ := hq0 hq
    subst e1 e2 e3
    refine ⟨m1, brk1, calls + 1, q, ?_, fun _ => ⟨rfl, rfl, rfl, e4, e5⟩, fun h => absurd hq h⟩
    simp [hq]
  · obtain ⟨bs1, bsz, H1, hq16, hbq, hbsz, hkeep, hsame, -, -⟩ := hq1 hq
    obtain ⟨hbp1, hdis⟩ := hkeep (p - 4) _ rfl hb
    dsimp only at hdis
    obtain ⟨q1, q2, q3, q4, -⟩ := block_reads m1 lo brk1 cap calls1 (lo + 8) bs1 (q - 4) _ H1 hbq
    obtain ⟨p1, p2, -⟩ := block_reads m1 lo brk1 cap calls1 (lo + 8) bs1 (p - 4) _ H1 hbp1
    dsimp only at q1 q2 q3 q4 p1 p2
    have hcp := memcpy_mk m1 lo brk1 cap calls1 (lo + 8) q p (oldsize - 8) (by omega) (by omega)
      (by omega) (by omega) (by omega) (by omega) (by omega)
    obtain ⟨m2, hm2⟩ : ∃ m2 : Mem, m2 = fun x =>
        if q ≤ x ∧ x < q + (oldsize - 8) then m1 (p + (x - q)) else m1 x := ⟨_, rfl⟩
    rw [← hm2] at hcp
    have hfr2 : ∀ x, x < q ∨ q + (oldsize - 8) ≤ x → m2 x = m1 x := by
      intro x hx
      rw [hm2]
      have : ¬ (q ≤ x ∧ x < q + (oldsize - 8)) := by omega
      simp only [this, if_false]
    have H2 : HeapAt ⟨m2, lo, brk1, cap, calls1, lo + 8⟩ bs1 :=
      HeapAt_payload m1 m2 lo brk1 cap calls1 (lo + 8) bs1 (q - 4) _ H1 hbq
        (fun x hx => hfr2 x (by dsimp only at hx; omega))
    obtain ⟨m3, bs3, a', s', hfree, H3, hnew, ha1, ha2, hkeep3, -, hfr3⟩ :=
      free_blocks m2 lo brk1 cap calls1 (lo + 8) bs1 p oldsize H2 hp hbp1
    have hne : q - 4 ≠ p - 4 := by omega
    obtain ⟨hbq3, hdq⟩ := hkeep3 (q - 4) _ rfl hbq hne
    dsimp only at hdq
    refine ⟨m3, brk1, calls1, q, ?_, fun h => absurd h hq, fun _ => ?_⟩
    · simp [hq, hcp, hfree]
    refine ⟨bs3, bsz, a', s', H3, hq16, by omega, hbq3, hbsz, hnew, ha1, ha2, ?_, ?_⟩
    · intro i hi
      rw [hfr3 (q + i) (by omega), hm2]
      have hin : q ≤ q + i ∧ q + i < q + (oldsize - 8) := by omega
      simp only [hin, and_self, if_true]
      have e : p + (q + i - q) = p + i := by omega
      rw [e]
      exact hsame (p + i) ⟨p - 4, _, rfl, hb, by omega, by dsimp only; omega⟩
    · intro a b hba hbb hna
      obtain ⟨hb1, hd1⟩ := hkeep a b hba hbb
      obtain ⟨hb3, hd3⟩ := hkeep3 a b hba hb1 hna
      obtain ⟨-, -, -, s16, -⟩ := block_reads m lo brk cap calls (lo + 8) bs a b H hbb
      refine ⟨hb3, by omega, fun x hx1 hx2 => ?_⟩
      rw [hfr3 x (by omega), hfr2 x (by omega)]
      exact hsame x ⟨a, b, hba, hbb, hx1, hx2⟩

/-! ### `calloc` -/

theorem HeapAt_calls (m : Mem) (lo brk cap calls hl calls' hl' : Nat) (bs : List Block)
    (H : HeapAt ⟨m, lo, brk, cap, calls, hl⟩ bs) : HeapAt ⟨m, lo, brk, cap, calls', hl'⟩ bs :=
  ⟨H.lo_pos, H.brk_cap, H.brk_lt, H.cap_addr, H.room, H.pro_hdr, H.pro_ftr, H.seg, H.epi⟩

theorem SameRegion.refl (h : Heap) : SameRegion h h := ⟨rfl, rfl, rfl, rfl, rfl⟩

theorem SameRegion.trans {h1 h2 h3 : Heap} (a : SameRegion h1 h2) (b : SameRegion h2 h3) :
    SameRegion h1 h3 := by
  obtain ⟨a1, a2, a3, a4, a5⟩ := a
  obtain ⟨b1, b2, b3, b4, b5⟩ := b
  exact ⟨b1.trans a1, b2.trans a2, b3.trans a3, b4.trans a4, b5.trans a5⟩

theorem PUT_region (h h' : Heap) (p v : Nat) (e : PUT h p v = some h') : SameRegion h h' := by
  unfold PUT at e
  split at e
  · simp only [Option.some.injEq] at e
    subst e
    exact ⟨rfl, rfl, rfl, rfl, rfl⟩
  · simp at e

theorem GET_SIZE_mod (h : Heap) (p s : Nat) (e : GET_SIZE h p = some s) : s % 8 = 0 := by
  unfold GET_SIZE GET at e
  split at e
  · simp only [Option.map_some', Option.some.injEq] at e
    rw [← e, mask_size _ (read32_lt _ _)]
    omega
  · simp at e

theorem PREV_BLKP_mod (h : Heap) (bp r : Nat) (e : PREV_BLKP h bp = some r) (hb : bp % 8 = 0) :
    r % 8 = 0 := by
  unfold PREV_BLKP at e
  cases hs : GET_SIZE h (bp - DSIZE) with
  | none => rw [hs] at e; simp at e
  | some s =>
    rw [hs] at e
    simp only [Option.map_some', Option.some.injEq] at e
    have := GET_SIZE_mod h _ s hs
    omega

theorem NEXT_BLKP_mod (h : Heap) (bp r : Nat) (e : NEXT_BLKP h bp = some r) (hb : bp % 8 = 0) :
    r % 8 = 0 := by
  unfold NEXT_BLKP at e
  cases hs : GET_SIZE h (bp - WSIZE) with
  | none => rw [hs] at e; simp at e
  | some s =>
    rw [hs] at e
    simp only [Option.map_some', Option.some.injEq] at e
    have := GET_SIZE_mod h _ s hs
    omega

theorem coalesce_case2_region (h h' : Heap) (bp next size r : Nat)
    (e : coalesce_case2 h bp next size = some (h', r)) : SameRegion h h' ∧ r = bp := by
  simp only [coalesce_case2, Option.bind_eq_bind, Option.bind_eq_some, Option.some.injEq,
    Prod.mk.injEq] at e
  obtain ⟨_, _, h1, e1, _, _, h2, e2, rfl, rfl⟩ := e
  exact ⟨(PUT_region _ _ _ _ e1).trans (PUT_region _ _ _ _ e2), rfl⟩

theorem coalesce_case3_region (h h' : Heap) (bp prev size r : Nat)
    (e : coalesce_case3 h bp prev size = some (h', r)) (hb : bp % 8 = 0) :
    SameRegion h h' ∧ r % 8 = 0 := by
  simp only [coalesce_case3, Option.bind_eq_bind, Option.bind_eq_some, Option.some.injEq,
    Prod.mk.injEq] at e
  obtain ⟨_, _, _, _, h1, e1, _, _, h2, e2, p2, e3, rfl, rfl⟩ := e
  exact ⟨(PUT_region _ _ _ _ e1).trans (PUT_region _ _ _ _ e2), PREV_BLKP_mod _ _ _ e3 hb⟩

theorem coalesce_case4_region (h h' : Heap) (bp prev next size r : Nat)
    (e : coalesce_case4 h bp prev next size = some (h', r)) (hb : bp % 8 = 0) :
    SameRegion h h' ∧ r % 8 = 0 := by
  simp only [coalesce_case4, Option.bind_eq_bind, Option.bind_eq_some, Option.some.injEq,
    Prod.mk.injEq] at e
  obtain ⟨_, _, _, _, _, _, h1, e1, _, _, h2, e2, p2, e3, rfl, rfl⟩ := e
  exact ⟨(PUT_region _ _ _ _ e1).trans (PUT_region _ _ _ _ e2), PREV_BLKP_mod _ _ _ e3 hb⟩

theorem coalesce_region (h h' : Heap) (bp r : Nat) (e : coalesce h bp = some (h', r))
    (hb : bp % 8 = 0) : SameRegion h h' ∧ r % 8 = 0 := by
  simp only [coalesce, Option.bind_eq_bind, Option.bind_eq_some] at e
  obtain ⟨prev, _, _, _, pa, _, next, _, na, _, size, _, e⟩ := e
  split at e
  · simp only [Option.some.injEq, Prod.mk.injEq] at e
    obtain ⟨rfl, rfl⟩ := e
    exact ⟨SameRegion.refl _, hb⟩
  · split at e
    · obtain ⟨h1, rfl⟩ := coalesce_case2_region _ _ _ _ _ _ e
      exact ⟨h1, hb⟩
    · split at e
      · exact coalesce_case3_region _ _ _ _ _ _ e hb
      · exact coalesce_case4_region _ _ _ _ _ _ _ e hb

theorem place_region (h h' : Heap) (bp asize : Nat) (e : place h bp asize = some h') :
    SameRegion h h' := by
  simp only [place, Option.bind_eq_bind, Option.bind_eq_some] at e
  obtain ⟨total, _, e⟩ := e
  split at e
  · simp only [Option.bind_eq_some] at e
    obtain ⟨h1, e1, _, _, h2, e2, _, _, h3, e3, _, _, h4, e4, h5, e5, e6⟩ := e
    exact (PUT_region _ _ _ _ e1).trans ((PUT_region _ _ _ _ e2).trans
      ((PUT_region _ _ _ _ e3).trans ((PUT_region _ _ _ _ e4).trans
      ((PUT_region _ _ _ _ e5).trans (PUT_region _ _ _ _ e6)))))
  · simp only [Option.bind_eq_some] at e
    obtain ⟨h1, e1, _, _, e2⟩ := e
    exact (PUT_region _ _ _ _ e1).trans (PUT_region _ _ _ _ e2)

theorem extend_heap_aligned (h h' : Heap) (words r : Nat)
    (e : extend_heap h words = some (h', r)) (ha : Aligned h) : Aligned h' ∧ r % 8 = 0 := by
  obtain ⟨hb, hl⟩ := ha
  have h8 := extendBytes_mod words
  unfold extend_heap mem_sbrk at e
  dsimp only at e
  split at e
  · dsimp only at e
    split at e
    · simp only [Option.some.injEq, Prod.mk.injEq] at e
      obtain ⟨rfl, rfl⟩ := e
      exact ⟨⟨by dsimp only; omega, hl⟩, rfl⟩
    · simp only [Option.bind_eq_bind, Option.bind_eq_some] at e
      obtain ⟨h1, e1, _, _, h2, e2, h3, e3, h4, e4, _, _, h5, e5, e6⟩ := e
      have hr := (PUT_region _ _ _ _ e1).trans ((PUT_region _ _ _ _ e2).trans
        ((PUT_region _ _ _ _ e3).trans ((PUT_region _ _ _ _ e4).trans (PUT_region _ _ _ _ e5))))
      obtain ⟨hc, hrm⟩ := coalesce_region _ _ _ _ e6 hb
      obtain ⟨-, c2, -, -, c5⟩ := hr.trans hc
      dsimp only at c2 c5
      exact ⟨⟨by rw [c2]; omega, by rw [c5]; exact hl⟩, hrm⟩
  · dsimp only at e
    simp only [if_true, Option.some.injEq, Prod.mk.injEq] at e
    obtain ⟨rfl, rfl⟩ := e
    exact ⟨⟨hb, hl⟩, rfl⟩

theorem find_fit_loop_mod (h : Heap) (asize : Nat) : ∀ (fuel p r : Nat),
    find_fit_loop h asize fuel p = some r → p % 8 = 0 → r % 8 = 0
  | 0, _, _, e, _ => by simp [find_fit_loop] at e
  | fuel + 1, p, r, e, hp => by
    rw [find_fit_loop_succ] at e
    simp only [Option.bind_eq_some] at e
    obtain ⟨sz, _, e⟩ := e
    split at e
    · simp only [Option.bind_eq_some] at e
      obtain ⟨al, _, e⟩ := e
      split at e
      · simp only [Option.some.injEq] at e
        omega
      · simp only [Option.bind_eq_some] at e
        obtain ⟨next, en, e⟩ := e
        exact find_fit_loop_mod h asize fuel next r e (NEXT_BLKP_mod _ _ _ en hp)
    · simp only [Option.some.injEq] at e
      rw [← e]; rfl

theorem Aligned_of_region (h h' : Heap) (hr : SameRegion h h') (ha : Aligned h) : Aligned h' := by
  obtain ⟨-, c2, -, -, c5⟩ := hr
  exact ⟨by rw [c2]; exact ha.1, by rw [c5]; exact ha.2⟩

theorem malloc_aligned (h h' : Heap) (size p : Nat) (e : malloc h size = some (h', p))
    (ha : Aligned h) : Aligned h' ∧ p % 8 = 0 := by
  unfold malloc at e
  split at e
  · simp only [Option.some.injEq, Prod.mk.injEq] at e
    obtain ⟨rfl, rfl⟩ := e
    exact ⟨ha, rfl⟩
  · dsimp only at e
    split at e
    · simp at e
    · rename_i first hf
      have hfm := find_fit_loop_mod _ _ _ _ _ hf ha.2
      split at e
      · simp only [Option.map_eq_some'] at e
        obtain ⟨h1, e1, e2⟩ := e
        simp only [Prod.mk.injEq] at e2
        obtain ⟨rfl, rfl⟩ := e2
        exact ⟨Aligned_of_region _ _ (place_region _ _ _ _ e1) ha, hfm⟩
      · split at e
        · simp at e
        · rename_i h1 first1 hx
          obtain ⟨ha1, hr1⟩ := extend_heap_aligned _ _ _ _ hx ha
          split at e
          · simp only [Option.some.injEq, Prod.mk.injEq] at e
            obtain ⟨rfl, rfl⟩ := e
            exact ⟨ha1, rfl⟩
          · simp only [Option.map_eq_some'] at e
            obtain ⟨h2, e1, e2⟩ := e
            simp only [Prod.mk.injEq] at e2
            obtain ⟨rfl, rfl⟩ := e2
            exact ⟨Aligned_of_region _ _ (place_region _ _ _ _ e1) ha1, hr1⟩

theorem free_region (h h' : Heap) (p : Nat) (e : free h p = some h') : SameRegion h h' := by
  unfold free at e
  split at e
  · simp only [Option.some.injEq] at e
    subst e; exact SameRegion.refl _
  · simp only [Option.bind_eq_bind, Option.bind_eq_some, Option.some.injEq] at e
    obtain ⟨_, _, h1, e1, _, _, h2, e2, h3, e3, h4, e4, ⟨h5, r⟩, e5, rfl⟩ := e
    have hr := (PUT_region _ _ _ _ e1).trans ((PUT_region _ _ _ _ e2).trans
      ((PUT_region _ _ _ _ e3).trans (PUT_region _ _ _ _ e4)))
    -- `coalesce` keeps the region whatever the alignment of its argument
    simp only [coalesce, Option.bind_eq_bind, Option.bind_eq_some] at e5
    obtain ⟨prev, _, _, _, pa, _, next, _, na, _, size, _, e5⟩ := e5
    split at e5
    · simp only [Option.some.injEq, Prod.mk.injEq] at e5
      rw [← e5.1]; exact hr
    · split at e5
      · exact hr.trans (coalesce_case2_region _ _ _ _ _ _ e5).1
      · split at e5
        · simp only [coalesce_case3, Option.bind_eq_bind, Option.bind_eq_some, Option.some.injEq,
            Prod.mk.injEq] at e5
          obtain ⟨_, _, _, _, g1, f1, _, _, g2, f2, p2, f3, rfl, rfl⟩ := e5
          exact hr.trans ((PUT_region _ _ _ _ f1).trans (PUT_region _ _ _ _ f2))
        · simp only [coalesce_case4, Option.bind_eq_bind, Option.bind_eq_some, Option.some.injEq,
            Prod.mk.injEq] at e5
          obtain ⟨_, _, _, _, _, _, g1, f1, _, _, g2, f2, p2, f3, rfl, rfl⟩ := e5
          exact hr.trans ((PUT_region _ _ _ _ f1).trans (PUT_region _ _ _ _ f2))

theorem memcpy_region (h h' : Heap) (d s n : Nat) (e : memcpy h d s n = some h') :
    SameRegion h h' := by
  unfold memcpy at e
  split at e
  · simp only [Option.some.injEq] at e
    subst e; exact SameRegion.refl _
  · split at e
    · simp only [Option.some.injEq] at e
      subst e; exact ⟨rfl, rfl, rfl, rfl, rfl⟩
    · simp at e

theorem memset_region (h h' : Heap) (d c n : Nat) (e : memset h d c n = some h') :
    SameRegion h h' := by
  unfold memset at e
  split at e
  · simp only [Option.some.injEq] at e
    subst e; exact SameRegion.refl _
  · split at e
    · simp only [Option.some.injEq] at e
      subst e; exact ⟨rfl, rfl, rfl, rfl, rfl⟩
    · simp at e

theorem calloc_aligned (h h' : Heap) (nmemb size p : Nat)
    (e : calloc h nmemb size = some (h', p)) (ha : Aligned h) : Aligned h' ∧ p % 8 = 0 := by
  simp only [calloc, Option.bind_eq_bind, Option.bind_eq_some] at e
  obtain ⟨⟨h1, q⟩, e1, e⟩ := e
  obtain ⟨ha1, hq⟩ := malloc_aligned _ _ _ _ e1 ha
  dsimp only at e
  split at e
  · simp only [Option.bind_eq_some, Option.some.injEq, Prod.mk.injEq] at e
    obtain ⟨h2, e2, rfl, rfl⟩ := e
    exact ⟨Aligned_of_region _ _ (memset_region _ _ _ _ _ e2) ha1, hq⟩
  · simp only [Option.some.injEq, Prod.mk.injEq] at e
    obtain ⟨rfl, rfl⟩ := e
    exact ⟨ha1, hq⟩

theorem coalesce_same (h h' : Heap) (bp r : Nat) (e : coalesce h bp = some (h', r)) :
    SameRegion h h' := by
  simp only [coalesce, Option.bind_eq_bind, Option.bind_eq_some] at e
  obtain ⟨prev, _, _, _, pa, _, next, _, na, _, size, _, e⟩ := e
  split at e
  · simp only [Option.some.injEq, Prod.mk.injEq] at e
    rw [← e.1]; exact SameRegion.refl _
  · split at e
    · exact (coalesce_case2_region _ _ _ _ _ _ e).1
    · split at e
      · simp only [coalesce_case3, Option.bind_eq_bind, Option.bind_eq_some, Option.some.injEq,
          Prod.mk.injEq] at e
        obtain ⟨_, _, _, _, g1, f1, _, _, g2, f2, p2, f3, rfl, rfl⟩ := e
        exact (PUT_region _ _ _ _ f1).trans (PUT_region _ _ _ _ f2)
      · simp only [coalesce_case4, Option.bind_eq_bind, Option.bind_eq_some, Option.some.injEq,
          Prod.mk.injEq] at e
        obtain ⟨_, _, _, _, _, _, g1, f1, _, _, g2, f2, p2, f3, rfl, rfl⟩ := e
        exact (PUT_region _ _ _ _ f1).trans (PUT_region _ _ _ _ f2)

theorem realloc_aligned (h h' : Heap) (p size q : Nat)
    (e : realloc h p size = some (h', q)) (ha : Aligned h) (hp : p % 8 = 0) :
    Aligned h' ∧ q % 8 = 0 := by
  unfold realloc at e
  split at e
  · simp only [Option.map_eq_some', Prod.mk.injEq] at e
    obtain ⟨h1, e1, rfl, rfl⟩ := e
    exact ⟨Aligned_of_region _ _ (free_region _ _ _ e1) ha, rfl⟩
  · split at e
    · exact malloc_aligned _ _ _ _ e ha
    · simp only [Option.bind_eq_bind, Option.bind_eq_some] at e
      obtain ⟨oldsize, _, e⟩ := e
      split at e
      · split at e
        · simp only [Option.bind_eq_some, Option.some.injEq, Prod.mk.injEq] at e
          obtain ⟨h1, e1, _, _, h2, e2, _, _, h3, e3, _, _, h4, e4, ⟨h5, r⟩, e5, rfl, rfl⟩ := e
          have hr := (PUT_region _ _ _ _ e1).trans ((PUT_region _ _ _ _ e2).trans
            ((PUT_region _ _ _ _ e3).trans ((PUT_region _ _ _ _ e4).trans
            (coalesce_same _ _ _ _ e5))))
          exact ⟨Aligned_of_region _ _ hr ha, hp⟩
        · simp only [Option.some.injEq, Prod.mk.injEq] at e
          obtain ⟨rfl, rfl⟩ := e
          exact ⟨ha, hp⟩
      · simp only [Option.bind_eq_some] at e
        obtain ⟨⟨h1, q1⟩, e1, e⟩ := e
        obtain ⟨ha1, hq1⟩ := malloc_aligned _ _ _ _ e1 ha
        dsimp only at e
        split at e
        · simp only [Option.some.injEq, Prod.mk.injEq] at e
          obtain ⟨rfl, rfl⟩ := e
          exact ⟨ha1, rfl⟩
        · simp only [Option.bind_eq_some, Option.some.injEq, Prod.mk.injEq] at e
          obtain ⟨h2, e2, h3, e3, rfl, rfl⟩ := e
          exact ⟨Aligned_of_region _ _ ((memcpy_region _ _ _ _ _ e2).trans
            (free_region _ _ _ e3)) ha1, hq1⟩

theorem mm_init_aligned (h h' : Heap) (r : Int) (e : mm_init h = some (h', r))
    (hb : h.brk % 8 = 0) (hl : h.heap_listp % 8 = 0) :
    Aligned h' ∧ h'.heap_listp = h.heap_listp := by
  unfold mm_init mem_sbrk at e
  have e16 : 4 * WSIZE = 16 := rfl
  rw [e16] at e
  dsimp only at e
  split at e
  · dsimp only at e
    split at e
    · simp only [Option.some.injEq, Prod.mk.injEq] at e
      obtain ⟨rfl, rfl⟩ := e
      exact ⟨⟨by dsimp only; omega, hl⟩, rfl⟩
    · simp only [Option.bind_eq_bind, Option.bind_eq_some] at e
      obtain ⟨h1, e1, h2, e2, h3, e3, h4, e4, ⟨h5, q⟩, e5, e6⟩ := e
      have hr := (PUT_region _ _ _ _ e1).trans ((PUT_region _ _ _ _ e2).trans
        ((PUT_region _ _ _ _ e3).trans (PUT_region _ _ _ _ e4)))
      have ha4 : Aligned h4 := Aligned_of_region _ _ hr ⟨by dsimp only; omega, hl⟩
      obtain ⟨ha5, -⟩ := extend_heap_aligned _ _ _ _ e5 ha4
      have hl5 : h5.heap_listp = h.heap_listp := by
        have := hr.2.2.2.2
        dsimp only at this
        rw [← this]
        unfold extend_heap mem_sbrk at e5
        dsimp only at e5
        split at e5
        · dsimp only at e5
          split at e5
          · simp only [Option.some.injEq, Prod.mk.injEq] at e5
            rw [← e5.1]
          · simp only [Option.bind_eq_bind, Option.bind_eq_some] at e5
            obtain ⟨g1, f1, _, _, g2, f2, g3, f3, g4, f4, _, _, g5, f5, f6⟩ := e5
            have hr' := (PUT_region _ _ _ _ f1).trans ((PUT_region _ _ _ _ f2).trans
              ((PUT_region _ _ _ _ f3).trans ((PUT_region _ _ _ _ f4).trans
              ((PUT_region _ _ _ _ f5).trans (coalesce_same _ _ _ _ f6)))))
            exact hr'.2.2.2.2
        · dsimp only at e5
          simp only [if_true, Option.some.injEq, Prod.mk.injEq] at e5
          rw [← e5.1]
      dsimp only at e6
      split at e6
      · simp only [Option.some.injEq, Prod.mk.injEq] at e6
        rw [← e6.1]; exact ⟨ha5, hl5⟩
      · simp only [Option.some.injEq, Prod.mk.injEq] at e6
        rw [← e6.1]; exact ⟨ha5, hl5⟩
  · dsimp only at e
    have : intToPtr (SBRK_FAIL % 2 ^ 32) = SBRK_FAIL := by decide
    simp only [this, if_true, Option.some.injEq, Prod.mk.injEq] at e
    rw [← e.1]
    exact ⟨⟨hb, hl⟩, rfl⟩

theorem Returned_aligned (h1 h : Heap) (L : List Nat) (ha : Aligned h1)
    (hr : Returned h1 h L) : Aligned h ∧ ∀ p ∈ L, p % 8 = 0 := by
  induction hr with
  | start => exact ⟨ha, by simp⟩
  | malloc h h' L size p _ e ih =>
    obtain ⟨a1, a2⟩ := malloc_aligned _ _ _ _ e ih.1
    refine ⟨a1, fun x hx => ?_⟩
    rcases List.mem_cons.1 hx with rfl | hx
    · exact a2
    · exact ih.2 x hx
  | calloc h h' L nmemb size p _ e ih =>
    obtain ⟨a1, a2⟩ := calloc_aligned _ _ _ _ _ e ih.1
    refine ⟨a1, fun x hx => ?_⟩
    rcases List.mem_cons.1 hx with rfl | hx
    · exact a2
    · exact ih.2 x hx
  | free h h' L p _ _ e ih =>
    exact ⟨Aligned_of_region _ _ (free_region _ _ _ e) ih.1, ih.2⟩
  | realloc h h' L p size q _ hp e ih =>
    have hp8 : p % 8 = 0 := by
      rcases hp with rfl | hp
      · rfl
      · exact ih.2 p hp
    obtain ⟨a1, a2⟩ := realloc_aligned _ _ _ _ _ e ih.1 hp8
    refine ⟨a1, fun x hx => ?_⟩
    rcases List.mem_cons.1 hx with rfl | hx
    · exact a2
    · exact ih.2 x hx

/-- C3. Alignment.  When the provider's first region starts at a multiple of
8 (`h0.brk`), a successful `mm_init` leaves the break and `heap_listp`
multiples of 8, and in every state reachable from there by `malloc`,
`calloc`, `free` and `realloc` (the latter two on `NULL` or on pointers
returned before) every pointer that `malloc`, `realloc` or `calloc` has
returned is a multiple of 8.  The second part holds from every start state
that satisfies the alignment invariant. -/
theorem C3_alignment :
    (∀ h0 h1 h L, h0.brk % 8 = 0 → h0.heap_listp = NULL → mm_init h0 = some (h1, 0) →
      Returned h1 h L → ∀ p ∈ L, p % DSIZE = 0) ∧
    (∀ h1 h L, Aligned h1 → Returned h1 h L → Aligned h ∧ ∀ p ∈ L, p % DSIZE = 0) := by
  refine ⟨fun h0 h1 h L hb hn hi hr => ?_, fun h1 h L ha hr => Returned_aligned h1 h L ha hr⟩
  have ha := (mm_init_aligned h0 h1 0 hi hb (by rw [hn]; rfl)).1
  exact (Returned_aligned h1 h L ha hr).2

/-! ### Freeing two adjacent blocks in either order -/

theorem exHeap3_layout :
    HeapAt exHeap3 [⟨32, true⟩, ⟨48, true⟩, ⟨24, true⟩, ⟨360, false⟩] := by
  have hseg : Seg exHeap3.mem (exHeap3.lo + 12)
      [⟨32, true⟩, ⟨48, true⟩, ⟨24, true⟩, ⟨360, false⟩] (exHeap3.brk - 4) := by
    refine ⟨?_, ?_, ?_, ?_, ?_⟩ <;> try decide
    refine ⟨?_, ?_, ?_, ?_, ?_⟩ <;> try decide
    refine ⟨?_, ?_, ?_, ?_, ?_⟩ <;> try decide
    refine ⟨?_, ?_, ?_, ?_, ?_⟩ <;> try decide
    rfl
  constructor <;> first | exact hseg | decide

theorem C3_witness : Aligned exHeap ∧
    ∃ h' p, malloc exHeap 24 = some (h', p) ∧ p ≠ NULL ∧ p % DSIZE = 0 := by
  have ha : Aligned exHeap := ⟨by decide, by decide⟩
  obtain ⟨m', brk', calls', q, hm, -, hq, -⟩ :=
    malloc_blocks _ 4096 4576 1052672 2 _ 24 exHeap_layout (by decide) (by decide)
      (fun _ => by decide)
  obtain ⟨hq1, -⟩ := hq ⟨⟨464, false⟩, by simp, rfl, by decide⟩
  refine ⟨ha, _, q, hm, hq1, ?_⟩
  exact (C3_alignment.2 exHeap _ [q] ha
    (Returned.malloc exHeap _ [] 24 q Returned.start hm)).2 q (List.mem_singleton.2 rfl)

theorem mem_sbrk_refuses (h : Heap) (incr : Nat) (hr : Refuses h incr) :
    mem_sbrk h incr = ({ h with calls := h.calls + 1 }, SBRK_FAIL) := by
  unfold Refuses at hr
  unfold mem_sbrk
  rw [if_neg (by omega)]

/-- C8. Zero-size and null semantics.  In every heap state, `malloc(0)`
returns `NULL` and `free(NULL)` returns, each leaving the whole state (memory,
region and provider call count) as it was; `realloc(p, 0)` does what `free(p)`
does and returns `NULL`, and for a valid allocated pointer `p` both return;
and `realloc(NULL, size)` returns the same pointer and state as
`malloc(size)`, for every size. -/
theorem C8_zero_size_and_null (h : Heap) :
    malloc h 0 = some (h, NULL) ∧
    free h NULL = some h ∧
    (∀ p, realloc h p 0 = (free h p).map (fun h' => (h', NULL))) ∧
    (∀ p, Allocated h p → ∃ h', free h p = some h' ∧ realloc h p 0 = some (h', NULL)) ∧
    (∀ size, realloc h NULL size = malloc h size) := by
  have h3 : ∀ p, realloc h p 0 = (free h p).map (fun h' => (h', NULL)) := by
    intro p
    simp [realloc]
  refine ⟨by simp [malloc], by simp [free, NULL], h3, ?_, ?_⟩
  · rintro p ⟨bs, sz, H, hp16, hb⟩
    obtain ⟨m, lo, brk, cap, calls, hl⟩ := h
    obtain ⟨m', bs', a', s', hfree, -⟩ := free_blocks m lo brk cap calls hl bs p sz H hp16 hb
    exact ⟨_, hfree, by rw [h3, hfree]; rfl⟩
  · intro size
    by_cases hs : size = 0
    · subst hs
      rw [h3]
      simp [free, malloc, NULL]
    · simp [realloc, hs]

/-- C9 (as amended).  `mm_checkheap(lineno)` returns `(bool)lineno`: it
reports healthy (true) exactly for the non-zero arguments, and false for
`lineno = 0`. -/
theorem C9_checkheap_nonzero (lineno : Int) : mm_checkheap lineno = true ↔ lineno ≠ 0 := by
  simp [mm_checkheap]

/-- C9, counterexample to the claim as stated: for `lineno = 0` the probe
does not report healthy. -/
theorem C9_counterexample : ¬ (mm_checkheap 0 = true) := by
  decide

/-! ### The adjusted size -/

/-- C14 (as amended).  For every request size with `1 ≤ size` whose rounding
`size + 15` does not wrap around in a 64-bit `size_t` (that is
`size ≤ 2^64 - 16`), the adjusted size computed by `malloc` and `realloc` is
16 when `size ≤ 8`, and when `size > 8` it is the smallest multiple of 8 that
is at least `size + 8`; it is always a multiple of 8, at least 16 and at least
`size + 8`. -/
theorem C14_adjusted_size (size : Nat) (hs : 1 ≤ size) (hov : size + 15 < 2 ^ 64) :
    (size ≤ 8 → adjust size = 16) ∧
    (8 < size → adjust size % 8 = 0 ∧ size + 8 ≤ adjust size ∧
      ∀ k, k % 8 = 0 → size + 8 ≤ k → adjust size ≤ k) ∧
    adjust size % 8 = 0 ∧ 16 ≤ adjust size ∧ size + 8 ≤ adjust size := by
  obtain ⟨a8, a16, age, alt⟩ := adjust_spec size hs hov
  refine ⟨fun h => ?_, fun _ => ⟨a8, age, fun k k8 hk => by omega⟩, a8, a16, age⟩
  simp [adjust, DSIZE, h]

theorem C14_witness :
    1 ≤ 24 ∧ 24 + 15 < 2 ^ 64 ∧ adjust 24 = 32 ∧ adjust 8 = 16 := by
  have h := C14_adjusted_size 24 (by decide) (by decide)
  have h8 := C14_adjusted_size 8 (by decide) (by decide)
  refine ⟨by decide, by decide, ?_, h8.1 (by decide)⟩
  obtain ⟨-, h2, -⟩ := h
  obtain ⟨m8, ge, least⟩ := h2 (by decide)
  have := least 32 (by decide) (by decide)
  omega

/-- C14, counterexample to the claim as stated: the size `2^64 - 1` is
representable in a 64-bit `size_t`, yet its adjusted size is 8, which is
neither at least 16 nor at least `size + 8`. -/
theorem C14_counterexample :
    2 ^ 64 - 1 < 2 ^ 64 ∧ adjust (2 ^ 64 - 1) = 8 ∧
      ¬ (16 ≤ adjust (2 ^ 64 - 1) ∧ 2 ^ 64 - 1 + 8 ≤ adjust (2 ^ 64 - 1)) := by
  decide

/-! ### First fit -/

theorem BlockAt_mem : ∀ (bs : List Block) (base a : Nat) (b : Block),
    BlockAt base bs a b → b ∈ bs
  | [], _, _, _, h => h.elim
  | c :: bs, base, a, b, h => by
    rcases h with ⟨-, rfl⟩ | h
    · exact List.mem_cons_self _ _
    · exact List.mem_cons_of_mem _ (BlockAt_mem bs _ a b h)

/-- C15. First fit.  On a well-formed heap with blocks `bs` whose scan start
is the prologue block, `find_fit(asize)` returns for every `asize` (the scan
terminates).  When the result `p` is not `NULL` it is the payload address of a
block of `bs` that is free and has size `≥ asize`, and every block that is
free and has size `≥ asize` lies at the same or a higher address.  The result
is `NULL` exactly when no block of `bs` is both free and of size `≥ asize`.
`find_fit` only reads the heap: it returns a pointer and no new state. -/
theorem C15_find_fit_first_fit (h : Heap) (bs : List Block) (asize : Nat)
    (hl : HeapAt h bs) (hp : h.heap_listp = h.lo + 8) :
    ∃ p, find_fit h asize = some p ∧
      (p ≠ NULL → ∃ tot, BlockAt (h.lo + 12) bs (HDRP p) ⟨tot, false⟩ ∧ asize ≤ tot ∧
        h.lo + 16 ≤ p ∧
        ∀ a b, BlockAt (h.lo + 12) bs a b → b.alloc = false → asize ≤ b.size → HDRP p ≤ a) ∧
      (p = NULL ↔ ∀ b ∈ bs, ¬ (b.alloc = false ∧ asize ≤ b.size)) := by
  obtain ⟨m, lo, brk, cap, calls, hlp⟩ := h
  dsimp only at hp ⊢
  subst hp
  refine ⟨_, find_fit_heap m lo brk cap calls bs asize hl, ?_, ?_⟩
  · intro hne
    obtain ⟨pre, tot, post, rfl, hfit, hpos, hpre⟩ := firstFit_some asize bs (lo + 16) hne
    rw [hpos]
    have e : HDRP (lo + 16 + total pre) = lo + 12 + total pre := by
      simp only [HDRP, WSIZE]; omega
    rw [e]
    refine ⟨tot, ?_, hfit, by omega, ?_⟩
    · exact (BlockAt_split _ _ _ _).2 ⟨pre, post, rfl, rfl⟩
    · intro a b hb hfree hsz
      rcases (BlockAt_append pre _ _ a b).1 hb with h1 | h1
      · rcases hpre b (BlockAt_mem _ _ _ _ h1) with h2 | h2
        · rw [h2] at hfree; cases hfree
        · omega
      · exact (BlockAt_ge _ _ _ _ h1).1
  · constructor
    · intro hnull b hb hc
      rcases firstFit_none asize bs (lo + 16) (by omega) hnull b hb with h1 | h1
      · rw [h1] at hc; cases hc.1
      · omega
    · intro hall
      by_contra hne
      obtain ⟨pre, tot, post, rfl, hfit, -, -⟩ := firstFit_some asize bs (lo + 16) hne
      exact hall ⟨tot, false⟩ (by simp) ⟨rfl, hfit⟩

theorem C15_witness :
    HeapAt exHeap3 [⟨32, true⟩, ⟨48, true⟩, ⟨24, true⟩, ⟨360, false⟩] ∧
    exHeap3.heap_listp = exHeap3.lo + 8 ∧
    find_fit exHeap3 48 = some 4216 ∧ find_fit exHeap3 368 = some NULL := by
  refine ⟨exHeap3_layout, rfl, ?_, ?_⟩
  · obtain ⟨p, h1, h2, h3⟩ := C15_find_fit_first_fit exHeap3 _ 48 exHeap3_layout rfl
    have hne : p ≠ NULL := fun e => (h3.1 e) ⟨360, false⟩ (by simp) ⟨rfl, by decide⟩
    obtain ⟨tot, hb, hfit, -, -⟩ := h2 hne
    have hb2 : BlockAt 4108 [⟨32, true⟩, ⟨48, true⟩, ⟨24, true⟩, ⟨360, false⟩] (HDRP p)
      ⟨tot, false⟩ := hb
    simp [BlockAt, HDRP, WSIZE] at hb2
    have hp4 : 4 ≤ p := by
      by_contra hc
      have : p - 4 = 0 := by omega
      omega
    rw [h1]
    congr 1
    omega
  · obtain ⟨p, h1, -, h3⟩ := C15_find_fit_first_fit exHeap3 _ 368 exHeap3_layout rfl
    rw [h1, h3.2]
    intro b hb
    simp at hb
    rcases hb with rfl | rfl | rfl | rfl <;> decide

/-! ### Placement -/

/-- C16. Placement.  Let a free block of `tot` bytes have its header at `a`
(so `bp = a + 4`), with footer equal to header, inside the heap and followed
by one more word of the heap (the next header), and let `asize` be a multiple
of 8 with `16 ≤ asize ≤ tot`.  Then `place(bp, asize)`
returns.  When `tot - asize ≥ 16` it leaves an allocated block of exactly
`asize` bytes at `bp`, immediately followed by a free block of exactly
`tot - asize` bytes, each with footer equal to header, and the two sizes sum
to `tot`; when `tot - asize < 16` it leaves one allocated block of `tot`
bytes.  In both cases no byte outside `[a, a + tot)` is changed, nor is the
provider's region. -/
theorem C16_place_splits_or_fills (h : Heap) (a asize tot : Nat)
    (ha : 0 < a) (hlo : h.lo ≤ a) (hbrk : a + tot + 4 ≤ h.brk)
    (hblk : Seg h.mem a [⟨tot, false⟩] (a + tot))
    (h8 : asize % 8 = 0) (h16 : 16 ≤ asize) (hfit : asize ≤ tot) :
    ∃ h', place h (a + 4) asize = some h' ∧ SameRegion h h' ∧
      (16 ≤ tot - asize →
        Seg h'.mem a [⟨asize, true⟩, ⟨tot - asize, false⟩] (a + tot) ∧
        asize + (tot - asize) = tot) ∧
      (tot - asize < 16 → Seg h'.mem a [⟨tot, true⟩] (a + tot)) ∧
      (∀ x, x < a ∨ a + tot ≤ x → h'.mem x = h.mem x) := by
  obtain ⟨m, lo, brk, cap, calls, hlp⟩ := h
  dsimp only at hlo hbrk hblk ⊢
  obtain ⟨m', hpl, hseg, hfr⟩ := place_spec m lo brk cap calls hlp a asize tot ha hlo hbrk hblk
    h8 h16 hfit
  refine ⟨_, hpl, ⟨rfl, rfl, rfl, rfl, rfl⟩, ?_, ?_, hfr⟩
  · intro hsplit
    rw [placed, if_pos hsplit] at hseg
    exact ⟨hseg, by omega⟩
  · intro hwhole
    rw [placed, if_neg (by omega)] at hseg
    exact hseg

theorem C16_witness :
    (0 < 4108 ∧ exHeap.lo ≤ 4108 ∧ 4108 + 464 + 4 ≤ exHeap.brk ∧
      Seg exHeap.mem 4108 [⟨464, false⟩] (4108 + 464) ∧ 32 % 8 = 0 ∧ 16 ≤ 32 ∧ 32 ≤ 464) ∧
    ∃ h', place exHeap (4108 + 4) 32 = some h' ∧
      Seg h'.mem 4108 [⟨32, true⟩, ⟨464 - 32, false⟩] (4108 + 464) := by
  have hseg : Seg exHeap.mem 4108 [⟨464, false⟩] (4108 + 464) := exHeap_layout.seg
  refine ⟨⟨by decide, by decide, by decide, hseg, by decide, by decide, by decide⟩, ?_⟩
  obtain ⟨h', e1, -, e3, -⟩ := C16_place_splits_or_fills exHeap 4108 32 464 (by decide)
    (by decide) (by decide) hseg (by decide) (by decide) (by decide)
  exact ⟨h', e1, (e3 (by decide)).1⟩

/-! ### Coalescing -/

theorem exLast_layout : HeapAt exLast [⟨464, true⟩] := by
  have hseg : Seg exLast.mem (exLast.lo + 12) [⟨464, true⟩] (exLast.brk - 4) := by
    refine ⟨?_, ?_, ?_, ?_, ?_⟩ <;> try decide
    rfl
  constructor <;> first | exact hseg | decide

/-! ### Initialisation -/

theorem extend_heap_listp (h h' : Heap) (words r : Nat)
    (e : extend_heap h words = some (h', r)) : h'.heap_listp = h.heap_listp := by
  unfold extend_heap mem_sbrk at e
  dsimp only at e
  split at e
  · dsimp only at e
    split at e
    · simp only [Option.some.injEq, Prod.mk.injEq] at e
      rw [← e.1]
    · simp only [Option.bind_eq_bind, Option.bind_eq_some] at e
      obtain ⟨g1, f1, _, _, g2, f2, g3, f3, g4, f4, _, _, g5, f5, f6⟩ := e
      have hr := (PUT_region _ _ _ _ f1).trans ((PUT_region _ _ _ _ f2).trans
        ((PUT_region _ _ _ _ f3).trans ((PUT_region _ _ _ _ f4).trans
        ((PUT_region _ _ _ _ f5).trans (coalesce_same _ _ _ _ f6)))))
      exact hr.2.2.2.2
  · dsimp only at e
    simp only [if_true, Option.some.injEq, Prod.mk.injEq] at e
    rw [← e.1]

/-- Whatever `mm_init` returns, the file-scope variable `heap_listp` is what
it was before the call: the function only assigns its local `heap_listp`. -/
theorem mm_init_listp (h h' : Heap) (r : Int) (e : mm_init h = some (h', r)) :
    h'.heap_listp = h.heap_listp := by
  unfold mm_init mem_sbrk at e
  have e16 : 4 * WSIZE = 16 := rfl
  rw [e16] at e
  dsimp only at e
  split at e
  · dsimp only at e
    split at e
    · simp only [Option.some.injEq, Prod.mk.injEq] at e
      rw [← e.1]
    · simp only [Option.bind_eq_bind, Option.bind_eq_some] at e
      obtain ⟨h1, e1, h2, e2, h3, e3, h4, e4, ⟨h5, q⟩, e5, e6⟩ := e
      have hr := (PUT_region _ _ _ _ e1).trans ((PUT_region _ _ _ _ e2).trans
        ((PUT_region _ _ _ _ e3).trans (PUT_region _ _ _ _ e4)))
      have hl5 := extend_heap_listp _ _ _ _ e5
      have hl4 := hr.2.2.2.2
      dsimp only at hl4 e6
      split at e6
      · simp only [Option.some.injEq, Prod.mk.injEq] at e6
        rw [← e6.1, hl5, hl4]
      · simp only [Option.some.injEq, Prod.mk.injEq] at e6
        rw [← e6.1, hl5, hl4]
  · dsimp only at e
    have : intToPtr (SBRK_FAIL % 2 ^ 32) = SBRK_FAIL := by decide
    simp only [this, if_true, Option.some.injEq, Prod.mk.injEq] at e
    rw [← e.1]

/-- The first request of `mm_init` refused: it returns `-1`. -/
theorem mm_init_refused (m : Mem) (lo brk cap calls hl : Nat) (hr : cap < brk + 16) :
    mm_init ⟨m, lo, brk, cap, calls, hl⟩ = some (⟨m, lo, brk, cap, calls + 1, hl⟩, -1) := by
  unfold mm_init mem_sbrk
  have e16 : 4 * WSIZE = 16 := rfl
  rw [e16]
  dsimp only
  have hn : ¬ (brk + 16 ≤ cap) := by omega
  rw [if_neg hn]
  dsimp only
  have : intToPtr (SBRK_FAIL % 2 ^ 32) = SBRK_FAIL := by decide
  rw [if_pos this]

/-- The four words that `mm_init` writes on a fresh heap, when the values of
its local `int heap_listp` convert back to the addresses they came from. -/
theorem mm_init_steps (m : Mem) (lo cap calls hl : Nat) (hlo : 0 < lo) (h16 : lo + 16 ≤ cap)
    (hc : cap < 2 ^ 64 - 1)
    (p0 : intToPtr (lo % 2 ^ 32) = lo)
    (p1 : intToPtr ((lo % 2 ^ 32 + 1 * WSIZE) % 2 ^ 32) = lo + 4)
    (p2 : intToPtr ((lo % 2 ^ 32 + 2 * WSIZE) % 2 ^ 32) = lo + 8)
    (p3 : intToPtr ((lo % 2 ^ 32 + 3 * WSIZE) % 2 ^ 32) = lo + 12) :
    mm_init ⟨m, lo, lo, cap, calls, hl⟩ =
      (extend_heap ⟨write32 (write32 (write32 (write32 m lo 0) (lo + 4) 9) (lo + 8) 9) (lo + 12) 1,
        lo, lo + 16, cap, calls + 1, hl⟩ 115).bind
        (fun r => if r.2 = NULL then some (r.1, -1) else some (r.1, 0)) := by
  unfold mm_init mem_sbrk
  have e16 : 4 * WSIZE = 16 := rfl
  have e9 : PACK DSIZE 1 = 9 := by decide
  rw [e16]
  dsimp only
  rw [if_pos h16]
  dsimp only
  have hne : ¬ lo = SBRK_FAIL := by unfold SBRK_FAIL; omega
  rw [p0, p1, p2, p3, if_neg hne, e9, PACK_0_1]
  simp (disch := omega) only [PUT_mk, Option.bind_eq_bind, Option.some_bind]

/-- The pointers that `mm_init` forms from its local `int heap_listp` are the
right addresses when the region lies below `2^31`. -/
theorem mm_init_ptrs_low (lo : Nat) (h : lo + 16 ≤ 2 ^ 31) :
    intToPtr (lo % 2 ^ 32) = lo ∧
    intToPtr ((lo % 2 ^ 32 + 1 * WSIZE) % 2 ^ 32) = lo + 4 ∧
    intToPtr ((lo % 2 ^ 32 + 2 * WSIZE) % 2 ^ 32) = lo + 8 ∧
    intToPtr ((lo % 2 ^ 32 + 3 * WSIZE) % 2 ^ 32) = lo + 12 := by
  unfold intToPtr WSIZE
  refine ⟨?_, ?_, ?_, ?_⟩ <;> split <;> omega

theorem heap0_layout (m : Mem) (lo cap calls hl : Nat) (hlo : 0 < lo) (h16 : lo + 16 ≤ cap)
    (hc2 : cap < 2 ^ 64 - 1) :
    HeapAt ⟨write32 (write32 (write32 (write32 m lo 0) (lo + 4) 9) (lo + 8) 9) (lo + 12) 1,
      lo, lo + 16, cap, calls, hl⟩ [] := by
  refine ⟨hlo, h16, by dsimp only; omega, hc2, by dsimp only; omega, ?_, ?_, ?_, ?_⟩
  · dsimp only
    simp (disch := omega) only [rw_eq, rw_ne, PACK_8_1]
  · dsimp only
    simp (disch := omega) only [rw_eq, rw_ne, PACK_8_1]
  · show lo + 12 = lo + 16 - 4
    omega
  · dsimp only
    simp (disch := omega) only [rw_eq, rw_ne, PACK_0_1, Nat.add_sub_cancel]

/-- What `mm_init` does on a fresh heap, given the pointer conversions of
`mm_init_steps`: it returns `-1` when the provider refuses the 464 bytes of
`extend_heap(115)`, and otherwise returns 0 and leaves the padding word, the
prologue, one free block of 464 bytes and the epilogue. -/
theorem mm_init_result (m : Mem) (lo cap calls hl : Nat) (hlo : 0 < lo) (h16 : lo + 16 ≤ cap)
    (hc2 : cap < 2 ^ 64 - 1)
    (p0 : intToPtr (lo % 2 ^ 32) = lo)
    (p1 : intToPtr ((lo % 2 ^ 32 + 1 * WSIZE) % 2 ^ 32) = lo + 4)
    (p2 : intToPtr ((lo % 2 ^ 32 + 2 * WSIZE) % 2 ^ 32) = lo + 8)
    (p3 : intToPtr ((lo % 2 ^ 32 + 3 * WSIZE) % 2 ^ 32) = lo + 12) :
    (cap < lo + 480 → ∃ m', mm_init ⟨m, lo, lo, cap, calls, hl⟩ =
      some (⟨m', lo, lo + 16, cap, calls + 2, hl⟩, -1)) ∧
    (lo + 480 ≤ cap → ∃ m', mm_init ⟨m, lo, lo, cap, calls, hl⟩ =
        some (⟨m', lo, lo + 480, cap, calls + 2, hl⟩, 0) ∧
      HeapAt ⟨m', lo, lo + 480, cap, calls + 2, hl⟩ [⟨464, false⟩] ∧ read32 m' lo = 0) := by
  have hst := mm_init_steps m lo cap calls hl hlo h16 hc2 p0 p1 p2 p3
  have hb : extendBytes 115 = 464 := by decide
  constructor
  · intro hsmall
    refine ⟨write32 (write32 (write32 (write32 m lo 0) (lo + 4) 9) (lo + 8) 9) (lo + 12) 1, ?_⟩
    rw [hst, extend_heap_fail _ lo (lo + 16) cap (calls + 1) hl 115 (by rw [hb]; omega)]
    rfl
  · intro hbig
    have H0 := heap0_layout m lo cap (calls + 1) hl hlo h16 hc2
    obtain ⟨m', pre', fp, e1, hfp, hex, H', hfr⟩ :=
      extend_heap_heap _ lo (lo + 16) cap (calls + 1) hl [] 115 H0 (by rw [hb]; omega)
        (by rw [hb]; omega) (by rw [hb]; omega)
    obtain ⟨rfl, rfl⟩ := List.append_eq_nil.1 e1.symm
    rw [hb] at hex H'
    simp only [total, List.nil_append, Nat.zero_add, Nat.add_zero] at hex H' hfr
    refine ⟨m', ?_, H', ?_⟩
    · rw [hst, hex]
      have : ¬ (lo + 12 + 4 = NULL) := by unfold NULL; omega
      simp only [Option.some_bind, this, if_false]
    · have := read32_congr _ m' lo (fun x hx1 hx2 => hfr x (by omega))
      rw [this]
      simp (disch := omega) only [rw_eq, rw_ne]

/-- With `heap_listp` null, `find_fit` reads the header of the null block
pointer: every `malloc` of a non-zero size is a fault. -/
theorem malloc_null_listp (h : Heap) (size : Nat) (hl : h.heap_listp = NULL) (hs : size ≠ 0) :
    malloc h size = none := by
  have hf : find_fit h (adjust size) = none := by
    unfold find_fit
    rw [hl, find_fit_loop_succ]
    simp [GET_SIZE, GET, inHeap, HDRP, NULL]
  unfold malloc
  rw [if_neg hs]
  dsimp only
  rw [hf]

/-- C11, on the code: a successful `mm_init` on the fresh heap `exFresh`
(two provider calls, break at 4576) leaves the file-scope `heap_listp` null,
so that the first call of the scenario, `malloc(24)`, is a fault in `find_fit`
and returns nothing.  From the same heap with `heap_listp` advanced to the
prologue block, as the specification describes, the scenario runs as claimed:
`A`, `B`, `C` are 4112, 4144, 4192 (non-null, distinct, their payloads of 24,
40 and 16 bytes disjoint), `D` is `B` and no provider call was made; after the
three final calls of `free` the first block is free with size 464, which is
the whole extent between prologue and epilogue, and `malloc(456)` is served at
`A` with no further provider call and the break where it was. -/
theorem C11_scenario_after_init :
    (mm_init exFresh).map (fun r => (r.2, r.1.heap_listp, r.1.calls, r.1.brk)) =
      some (0, NULL, 2, 4576) ∧
    (mm_init exFresh).bind (fun r => malloc r.1 24) = none ∧
    (mm_init exFresh).bind (fun r => scenario r.1) = none ∧
    (mm_init exFresh).bind (fun r => scenario { r.1 with heap_listp := r.1.lo + 2 * WSIZE }) =
      some [4112, 4144, 4192, 4144, 2, PACK 464 0, PACK 464 0, 4112, 2, 4576] := by
  refine ⟨by decide, by rfl, by rfl, by decide⟩

/-- C13, on the code: whatever `mm_init` returns, the file-scope variable
`heap_listp`, from which `find_fit` starts its scan, is what it was before the
call, because `mm_init` declares and advances a local `int heap_listp`.  After
a successful `mm_init` it is therefore still null, not the address two words
past the start of the heap. -/
theorem C13_init_leaves_heap_listp (h h1 : Heap) (r : Int) (e : mm_init h = some (h1, r)) :
    h1.heap_listp = h.heap_listp :=
  mm_init_listp h h1 r e

theorem C13_witness :
    ∃ h1, mm_init exFresh = some (h1, 0) ∧ h1.heap_listp = NULL ∧
      h1.heap_listp ≠ exFresh.lo + 2 * WSIZE := by
  obtain ⟨p0, p1, p2, p3⟩ := mm_init_ptrs_low 4096 (by decide)
  obtain ⟨-, hB⟩ := mm_init_result (fun _ => 0) 4096 1052672 0 0 (by decide) (by decide)
    (by decide) p0 p1 p2 p3
  obtain ⟨m', hm, -⟩ := hB (by decide)
  have e : mm_init exFresh = some (⟨m', 4096, 4096 + 480, 1052672, 0 + 2, 0⟩, 0) := hm
  have h := C13_init_leaves_heap_listp exFresh _ 0 e
  exact ⟨_, e, h, by rw [h]; decide⟩

/-- C12, on the code.  For a fresh heap whose region starts above 4 GiB
(`exHigh`) the provider grants both requests, yet `mm_init` neither returns 0
nor `-1`: the pointer, kept in the local `int heap_listp`, is truncated, and
the first write goes to an address outside the heap, a fault.  On every fresh
heap whose region lies below `2^31`, `mm_init` does as claimed: it returns
`-1` when the provider refuses the initial 16 bytes or the 464 bytes of
`extend_heap(115)`, and otherwise returns 0 and leaves, in address order, a
padding word 0, prologue header and footer `PACK(8, 1)`, exactly one free
block of 464 bytes with header equal to footer, and the epilogue header
`PACK(0, 1)` in the last word of the heap. -/
theorem C12_mm_init_fresh :
    (¬ Refuses exHigh 16 ∧ ¬ Refuses { exHigh with brk := exHigh.brk + 16 } 464 ∧
      mm_init exHigh = none) ∧
    (∀ h : Heap, h.brk = h.lo → 0 < h.lo → h.cap ≤ 2 ^ 31 →
      (Refuses h 16 → mm_init h = some ({ h with calls := h.calls + 1 }, -1)) ∧
      (¬ Refuses h 16 → Refuses { h with brk := h.brk + 16 } 464 →
        ∃ h', mm_init h = some (h', -1)) ∧
      (¬ Refuses h 16 → ¬ Refuses { h with brk := h.brk + 16 } 464 →
        ∃ h', mm_init h = some (h', 0) ∧ h'.lo = h.lo ∧ h'.brk = h.lo + 480 ∧
          h'.cap = h.cap ∧ HeapAt h' [⟨464, false⟩] ∧
          GET h' h.lo = some 0 ∧
          GET h' (h.lo + 4) = some (PACK 8 1) ∧ GET h' (h.lo + 8) = some (PACK 8 1) ∧
          GET h' (h.lo + 12) = some (PACK 464 0) ∧ GET h' (h.lo + 472) = some (PACK 464 0) ∧
          GET h' (h.lo + 476) = some (PACK 0 1))) := by
  refine ⟨⟨by decide, by decide, by rfl⟩, ?_⟩
  intro h hfresh hlo hint
  obtain ⟨m, lo, brk, cap, calls, hl⟩ := h
  dsimp only at hfresh hlo hint
  subst hfresh
  unfold Refuses
  dsimp only
  refine ⟨fun hr => mm_init_refused m brk brk cap calls hl hr, ?_, ?_⟩
  · intro h1 h2
    obtain ⟨p0, p1, p2, p3⟩ := mm_init_ptrs_low brk (by omega)
    obtain ⟨hA, -⟩ := mm_init_result m brk cap calls hl hlo (by omega) (by omega)
      p0 p1 p2 p3
    obtain ⟨m', hm⟩ := hA (by omega)
    exact ⟨_, hm⟩
  · intro h1 h2
    obtain ⟨p0, p1, p2, p3⟩ := mm_init_ptrs_low brk (by omega)
    obtain ⟨-, hB⟩ := mm_init_result m brk cap calls hl hlo (by omega) (by omega)
      p0 p1 p2 p3
    obtain ⟨m', hm, H', hpad⟩ := hB (by omega)
    have r1 := H'.pro_hdr
    have r2 := H'.pro_ftr
    have r3 := H'.epi
    obtain ⟨-, -, r4, r5, -⟩ := H'.seg
    dsimp only at r1 r2 r3 r4 r5
    have ew : Block.word ⟨464, false⟩ = PACK 464 0 := rfl
    rw [ew] at r4 r5
    have e5 : brk + 12 + 464 - 4 = brk + 472 := by omega
    have e3 : brk + 480 - 4 = brk + 476 := by omega
    rw [e5] at r5
    rw [e3] at r3
    refine ⟨⟨m', brk, brk + 480, cap, calls + 2, hl⟩, hm, rfl, rfl, rfl, H', ?_, ?_, ?_, ?_, ?_,
      ?_⟩
    · rw [GET_mk _ _ _ _ _ _ _ (by omega) (by omega) (by omega), hpad]
    · rw [GET_mk _ _ _ _ _ _ _ (by omega) (by omega) (by omega), r1]
    · rw [GET_mk _ _ _ _ _ _ _ (by omega) (by omega) (by omega), r2]
    · rw [GET_mk _ _ _ _ _ _ _ (by omega) (by omega) (by omega), r4]
    · rw [GET_mk _ _ _ _ _ _ _ (by omega) (by omega) (by omega), r5]
    · rw [GET_mk _ _ _ _ _ _ _ (by omega) (by omega) (by omega), r3]

theorem C12_witness :
    exFresh.brk = exFresh.lo ∧ 0 < exFresh.lo ∧ exFresh.cap ≤ 2 ^ 31 ∧
    ¬ Refuses exFresh 16 ∧ ¬ Refuses { exFresh with brk := exFresh.brk + 16 } 464 ∧
    ∃ h', mm_init exFresh = some (h', 0) ∧ h'.brk = exFresh.lo + 480 ∧
      HeapAt h' [⟨464, false⟩] := by
  refine ⟨rfl, by decide, by decide, by decide, by decide, ?_⟩
  obtain ⟨h', e1, -, e3, -, e4, -⟩ :=
    (C12_mm_init_fresh.2 exFresh rfl (by decide) (by decide)).2.2 (by decide) (by decide)
  exact ⟨h', e1, e3, e4⟩

/-! ### The block list of a heap is determined by its memory -/

theorem word_inj (b c : Block) (hb : b.size % 8 = 0) (hc : c.size % 8 = 0)
    (h : b.word = c.word) : b = c := by
  rw [word_eq b hb, word_eq c hc] at h
  have h1 := tag_le b.alloc
  have h2 := tag_le c.alloc
  have hs : b.size = c.size := by omega
  have ht : tag b.alloc = tag c.alloc := by omega
  obtain ⟨bs, ba⟩ := b
  obtain ⟨cs, ca⟩ := c
  dsimp only at hs ht
  subst hs
  cases ba <;> cases ca <;> simp_all [tag]

theorem Seg_unique (m : Mem) : ∀ (bs bs' : List Block) (a e : Nat),
    Seg m a bs e → Seg m a bs' e → bs = bs'
  | [], [], _, _, _, _ => rfl
  | [], c :: bs', a, e, h, h' => by
    have h1 : a = e := h
    have h2 := Seg_end m _ _ _ h'
    have h3 := h'.2.1
    simp only [total] at h2
    omega
  | b :: bs, [], a, e, h, h' => by
    have h1 : a = e := h'
    have h2 := Seg_end m _ _ _ h
    have h3 := h.2.1
    simp only [total] at h2
    omega
  | b :: bs, c :: bs', a, e, h, h' => by
    obtain ⟨b8, -, bh, -, brest⟩ := h
    obtain ⟨c8, -, ch, -, crest⟩ := h'
    have hbc : b = c := word_inj b c b8 c8 (by rw [← bh, ← ch])
    subst hbc
    rw [Seg_unique m bs bs' _ _ brest crest]

theorem HeapAt_unique (h : Heap) (bs bs' : List Block) (H : HeapAt h bs) (H' : HeapAt h bs') :
    bs = bs' :=
  Seg_unique h.mem bs bs' _ _ H.seg H'.seg

/-! ### Lists without two free neighbours -/

theorem NoAdjFree_chain : ∀ (bs : List Block),
    NoAdjFree bs ↔ List.Chain' (fun b c => b.alloc = true ∨ c.alloc = true) bs
  | [] => by simp [NoAdjFree]
  | [_] => by simp [NoAdjFree]
  | b :: c :: bs => by
    have ih := NoAdjFree_chain (c :: bs)
    rw [List.chain'_cons, ← ih]
    rfl

theorem NoAdjFree_mid (pre post : List Block) (b : Block) :
    NoAdjFree (pre ++ b :: post) ↔
      NoAdjFree pre ∧ NoAdjFree post ∧ (lastAlloc pre = true ∨ b.alloc = true) ∧
        (b.alloc = true ∨ headAlloc post = true) := by
  rw [NoAdjFree_chain, NoAdjFree_chain, NoAdjFree_chain]
  unfold lastAlloc headAlloc
  rw [List.chain'_append, List.chain'_cons']
  simp only [List.head?_cons, Option.mem_def, Option.some.injEq, forall_eq']
  cases pre.getLast? <;> cases post.head? <;> simp <;> tauto

theorem NoAdjFree_nil : NoAdjFree [] := trivial

theorem NoAdjFree_concat (pre : List Block) (b : Block) (h : NoAdjFree pre)
    (hb : lastAlloc pre = true ∨ b.alloc = true) : NoAdjFree (pre ++ [b]) :=
  (NoAdjFree_mid pre [] b).2 ⟨h, NoAdjFree_nil, hb, Or.inr rfl⟩

/-- The part of the list in front of a freed block that remains after the
merge ends in an allocated block. -/
theorem NoAdjFree_merge_prev (pre pre' fp : List Block) (h : NoAdjFree pre)
    (e : pre = pre' ++ fp) (hfp : fp = [] ∧ lastAlloc pre = true ∨ ∃ s, fp = [⟨s, false⟩]) :
    NoAdjFree pre' ∧ lastAlloc pre' = true := by
  rcases hfp with ⟨rfl, hla⟩ | ⟨s, rfl⟩
  · simp only [List.append_nil] at e
    subst e
    exact ⟨h, hla⟩
  · subst e
    obtain ⟨h1, -, h3, -⟩ := (NoAdjFree_mid pre' [] _).1 h
    exact ⟨h1, by simpa using h3⟩

/-- The part of the list behind a freed block that remains after the merge
starts with an allocated block. -/
theorem NoAdjFree_merge_next (post post' fn : List Block) (h : NoAdjFree post)
    (e : post = fn ++ post') (hfn : fn = [] ∧ headAlloc post = true ∨ ∃ s, fn = [⟨s, false⟩]) :
    NoAdjFree post' ∧ headAlloc post' = true := by
  rcases hfn with ⟨rfl, hha⟩ | ⟨s, rfl⟩
  · simp only [List.nil_append] at e
    subst e
    exact ⟨h, hha⟩
  · subst e
    obtain ⟨-, h2, -, h4⟩ := (NoAdjFree_mid [] post' _).1 h
    exact ⟨h2, by simpa using h4⟩

theorem tidy_free (m : Mem) (lo brk cap calls hl : Nat) (bs : List Block) (p sz : Nat)
    (H : HeapAt ⟨m, lo, brk, cap, calls, hl⟩ bs) (hn : NoAdjFree bs)
    (hb : BlockAt (lo + 12) bs (p - 4) ⟨sz, true⟩) :
    ∃ m' bs', free ⟨m, lo, brk, cap, calls, hl⟩ p = some ⟨m', lo, brk, cap, calls, hl⟩ ∧
      HeapAt ⟨m', lo, brk, cap, calls, hl⟩ bs' ∧ NoAdjFree bs' := by
  obtain ⟨pre, post, rfl, hpa⟩ := (BlockAt_split _ _ _ _).1 hb
  obtain ⟨m', pre', fp, fn, post', e1, e2, hfp, hfn, hfree, H', -⟩ :=
    free_heap m lo brk cap calls hl pre post sz H
  have ep : p = lo + 12 + total pre + 4 := by omega
  obtain ⟨n1, n2, -, -⟩ := (NoAdjFree_mid pre post _).1 hn
  obtain ⟨a1, a2⟩ := NoAdjFree_merge_prev pre pre' fp n1 e1 hfp
  obtain ⟨b1, b2⟩ := NoAdjFree_merge_next post post' fn n2 e2 hfn
  exact ⟨m', _, by rw [ep]; exact hfree, H',
    (NoAdjFree_mid pre' post' _).2 ⟨a1, b1, Or.inl a2, Or.inr b2⟩⟩

theorem tidy_shrink (m : Mem) (lo brk cap calls hl : Nat) (pre post : List Block)
    (oldsize size : Nat)
    (H : HeapAt ⟨m, lo, brk, cap, calls, hl⟩ (pre ++ ⟨oldsize, true⟩ :: post))
    (hn : NoAdjFree (pre ++ ⟨oldsize, true⟩ :: post))
    (hs : 0 < size) (hov : size + 15 < 2 ^ 64) (hfit : adjust size + 16 ≤ oldsize) :
    ∃ m' bs', realloc ⟨m, lo, brk, cap, calls, hl⟩ (lo + 16 + total pre) size =
        some (⟨m', lo, brk, cap, calls, hl⟩, lo + 16 + total pre) ∧
      HeapAt ⟨m', lo, brk, cap, calls, hl⟩ bs' ∧ NoAdjFree bs' := by
  obtain ⟨m', fn, post', e2, hfn, hre, H', -⟩ :=
    realloc_shrink_heap m lo brk cap calls hl pre post oldsize size H hs hov hfit
  obtain ⟨n1, n2, -, -⟩ := (NoAdjFree_mid pre post _).1 hn
  obtain ⟨b1, b2⟩ := NoAdjFree_merge_next post post' fn n2 e2 hfn
  have := (NoAdjFree_mid (pre ++ [⟨adjust size, true⟩]) post'
    ⟨oldsize - adjust size + total fn, false⟩).2
    ⟨NoAdjFree_concat pre _ n1 (Or.inr rfl), b1, Or.inl (lastAlloc_concat _ _), Or.inr b2⟩
  exact ⟨m', _, hre, H', by simpa using this⟩

/-- A call of `free` on `NULL` or on an allocated block keeps the heap tidy
and leaves `heap_listp` as it is, wherever `heap_listp` points. -/
theorem tidy_free_step (h h' : Heap) (p : Nat) (ht : Tidy h) (hp : p = NULL ∨ Allocated h p)
    (hm : free h p = some h') : Tidy h' ∧ h'.heap_listp = h.heap_listp := by
  rcases hp with rfl | ⟨bs2, sz, H2, hp16, hb⟩
  · simp [free, NULL] at hm
    rw [← hm]; exact ⟨ht, rfl⟩
  · obtain ⟨bs, H, hn⟩ := ht
    have := HeapAt_unique h bs2 bs H2 H
    subst this
    obtain ⟨m, lo, brk, cap, calls, hl⟩ := h
    dsimp only at hp16 hb
    obtain ⟨m', bs', hfree, H', hn'⟩ := tidy_free m lo brk cap calls hl bs2 p sz H hn hb
    rw [hfree] at hm
    simp only [Option.some.injEq] at hm
    subst hm
    exact ⟨⟨bs', H', hn'⟩, rfl⟩

/-- A call of `realloc` that does not have to grow the block (the adjusted
size is at most the block size) keeps the heap tidy and leaves `heap_listp` as
it is, wherever `heap_listp` points. -/
theorem tidy_realloc_inplace (h h' : Heap) (bs : List Block) (p sz size q : Nat)
    (H : HeapAt h bs) (hn : NoAdjFree bs) (hp16 : h.lo + 16 ≤ p)
    (hb : BlockAt (h.lo + 12) bs (p - 4) ⟨sz, true⟩)
    (hs : 0 < size) (hov : size + 15 < 2 ^ 64) (hfit : ¬ sz < adjust size)
    (hm : realloc h p size = some (h', q)) : Tidy h' ∧ h'.heap_listp = h.heap_listp := by
  obtain ⟨m, lo, brk, cap, calls, hl⟩ := h
  dsimp only at hp16 hb ⊢
  obtain ⟨pre, post, rfl, hpa⟩ := (BlockAt_split _ _ _ _).1 hb
  have ep : p = lo + 16 + total pre := by omega
  subst ep
  by_cases hsplit : adjust size + 16 ≤ sz
  · obtain ⟨m', bs', hre, H', hn'⟩ :=
      tidy_shrink m lo brk cap calls hl pre post sz size H hn hs hov hsplit
    rw [hre] at hm
    simp only [Option.some.injEq, Prod.mk.injEq] at hm
    rw [← hm.1]
    exact ⟨⟨bs', H', hn'⟩, rfl⟩
  · obtain ⟨-, hbrk, o8, o16, olt, hh, -⟩ :=
      HeapAt_block m lo brk cap calls hl pre post _ H
    dsimp only at hbrk o8 o16 olt hh
    simp only [tag, if_true] at hh
    have e4 : lo + 16 + total pre = lo + 12 + total pre + 4 := by omega
    rw [e4, realloc_keep m lo brk cap calls hl (lo + 12 + total pre) sz size
      H.lo_pos (by omega) (by omega) (by omega) (by omega) (by omega) o8 olt hh] at hm
    simp only [Option.some.injEq, Prod.mk.injEq] at hm
    rw [← hm.1]
    exact ⟨⟨_, H, hn⟩, rfl⟩

theorem Step_null (h h' : Heap) (hl : h.heap_listp = NULL) (ht : Tidy h) (hs : Step h h') :
    Tidy h' ∧ h'.heap_listp = NULL := by
  cases hs with
  | malloc size p hov hm =>
    by_cases h0 : size = 0
    · simp [malloc, h0] at hm
      rw [← hm.1]; exact ⟨ht, hl⟩
    · rw [malloc_null_listp h size hl h0] at hm
      cases hm
  | calloc nmemb size p hov hm =>
    have hc : calloc h nmemb size =
        (malloc h (wrap64 (nmemb * size))).bind (fun r =>
          if r.2 ≠ NULL then
            (memset r.1 r.2 0 (wrap64 (nmemb * size))).bind (fun h2 => some (h2, r.2))
          else some (r.1, r.2)) := rfl
    rw [hc] at hm
    by_cases hb0 : wrap64 (nmemb * size) = 0
    · rw [hb0] at hm
      simp [malloc, NULL] at hm
      rw [← hm.1]
      exact ⟨ht, hl⟩
    · rw [malloc_null_listp h _ hl hb0] at hm
      cases hm
  | free p hp hm =>
    obtain ⟨h1, h2⟩ := tidy_free_step h h' p ht hp hm
    exact ⟨h1, by rw [h2, hl]⟩
  | realloc p size q hp hov hm =>
    by_cases hs : size = 0
    · subst hs
      have hr : realloc h p 0 = (free h p).map (fun h1 => (h1, NULL)) := by
        simp [realloc]
      rw [hr] at hm
      cases hf : free h p with
      | none => rw [hf] at hm; simp at hm
      | some h1 =>
        rw [hf] at hm
        simp only [Option.map_some', Option.some.injEq, Prod.mk.injEq] at hm
        rw [← hm.1]
        obtain ⟨a1, a2⟩ := tidy_free_step h h1 p ht hp hf
        exact ⟨a1, by rw [a2, hl]⟩
    · rcases hp with rfl | ⟨bs2, sz, H2, hp16, hb⟩
      · have hr : realloc h NULL size = malloc h size := by
          simp [realloc, hs]
        rw [hr, malloc_null_listp h size hl hs] at hm
        cases hm
      · obtain ⟨bs, H, hn⟩ := ht
        have := HeapAt_unique h bs2 bs H2 H
        subst this
        by_cases hbig : sz < adjust size
        · exfalso
          obtain ⟨m, lo, brk, cap, calls, hlp⟩ := h
          dsimp only at hl hp16 hb
          obtain ⟨r1, r2, r3, r4, r5, -⟩ := block_reads m lo brk cap calls hlp bs2 (p - 4) _ H hb
          obtain ⟨pre0, post0, ebs, hpa⟩ := (BlockAt_split _ _ _ _).1 hb
          have H0 := H
          rw [ebs] at H0
          obtain ⟨-, -, -, -, olt, hh, -⟩ := HeapAt_block m lo brk cap calls hlp pre0 post0 _ H0
          have hlo := H.lo_pos
          dsimp only at r1 r2 r3 r4 hlo olt hh
          simp only [tag, if_true] at hh
          rw [← hpa] at hh
          have ep : p = p - 4 + 4 := by omega
          have hun := realloc_grow_unfold m lo brk cap calls hlp (p - 4) sz size hlo (by omega)
            (by omega) (by omega) hbig r3 r4 olt hh
          rw [← ep] at hun
          rw [hun, malloc_null_listp _ size hl hs] at hm
          cases hm
        · obtain ⟨a1, a2⟩ :=
            tidy_realloc_inplace h h' bs2 p sz size q H hn hp16 hb (by omega) hov hbig hm
          exact ⟨a1, by rw [a2, hl]⟩

theorem Reach_null (h h' : Heap) (hl : h.heap_listp = NULL) (ht : Tidy h) (hr : Reach h h') :
    Tidy h' ∧ h'.heap_listp = NULL := by
  induction hr with
  | refl => exact ⟨ht, hl⟩
  | step h1 h2 _ hs ih => exact Step_null h1 h2 ih.2 ih.1 hs

/-! ### The invariants -/

theorem PUT_some (m : Mem) (lo brk cap calls hl p v : Nat) (h' : Heap)
    (e : PUT ⟨m, lo, brk, cap, calls, hl⟩ p v = some h') :
    (0 < p ∧ lo ≤ p ∧ p + 4 ≤ brk) ∧ h' = ⟨write32 m p v, lo, brk, cap, calls, hl⟩ := by
  unfold PUT at e
  split at e
  · rename_i hin
    simp only [Option.some.injEq] at e
    exact ⟨hin, e.symm⟩
  · simp at e

theorem GET_some (m : Mem) (lo brk cap calls hl p w : Nat)
    (e : GET ⟨m, lo, brk, cap, calls, hl⟩ p = some w) :
    (0 < p ∧ lo ≤ p ∧ p + 4 ≤ brk) ∧ w = read32 m p := by
  unfold GET at e
  split at e
  · rename_i hin
    simp only [Option.some.injEq] at e
    exact ⟨hin, e.symm⟩
  · simp at e

theorem GET_SIZE_some (m : Mem) (lo brk cap calls hl p s : Nat)
    (e : GET_SIZE ⟨m, lo, brk, cap, calls, hl⟩ p = some s) :
    (0 < p ∧ lo ≤ p ∧ p + 4 ≤ brk) ∧ s = read32 m p / 8 * 8 := by
  simp only [GET_SIZE, Option.map_eq_some'] at e
  obtain ⟨w, eg, rfl⟩ := e
  obtain ⟨hin, rfl⟩ := GET_some _ _ _ _ _ _ _ _ eg
  exact ⟨hin, mask_size _ (read32_lt _ _)⟩

/-- Whenever `place(bp, asize)` returns, in whatever state it was called, the
word in front of `bp` and the word at `FTRP(bp)` both hold `PACK(bsz, 1)` for
one size `bsz ≥ asize`, provided `asize` is a multiple of 8 with
`16 ≤ asize < 2^32`. -/
theorem place_tags (h h' : Heap) (bp asize : Nat) (h8 : asize % 8 = 0) (h16 : 16 ≤ asize)
    (hlt : asize < 2 ^ 32) (e : place h bp asize = some h') :
    ∃ bsz, asize ≤ bsz ∧ bsz % 8 = 0 ∧ bsz < 2 ^ 32 ∧ 4 < bp ∧ h.lo + 4 ≤ bp ∧
      bp + bsz ≤ h.brk + 4 ∧ SameRegion h h' ∧
      read32 h'.mem (bp - 4) = bsz + 1 ∧ read32 h'.mem (bp + bsz - 8) = bsz + 1 := by
  obtain ⟨m, lo, brk, cap, calls, hl⟩ := h
  unfold place at e
  simp only [Option.bind_eq_bind, Option.bind_eq_some] at e
  obtain ⟨T, eT, e⟩ := e
  simp only [HDRP, WSIZE] at eT e
  obtain ⟨⟨g1, g2, g3⟩, hT⟩ := GET_SIZE_some _ _ _ _ _ _ _ _ eT
  obtain ⟨a, rfl⟩ : ∃ a, bp = a + 4 := ⟨bp - 4, by omega⟩
  simp only [Nat.add_sub_cancel] at e g1 g2 g3 hT ⊢
  have hTlt : T < 2 ^ 32 := by have := read32_lt m a; omega
  have hT8 : T % 8 = 0 := by omega
  split at e
  · -- the block is split
    rename_i hsplit
    simp only [Option.bind_eq_some] at e
    obtain ⟨h1, e1, f, ef, h2, e2, bp', eb, h3, e3, f', ef', h4, e4, h5, e5, e6⟩ := e
    rw [P1 asize h8] at e1 e2
    obtain ⟨-, rfl⟩ := PUT_some _ _ _ _ _ _ _ _ _ e1
    simp only [FTRP, HDRP, WSIZE, DSIZE, Nat.add_sub_cancel, Option.map_eq_some'] at ef
    obtain ⟨s1, es1, rfl⟩ := ef
    obtain ⟨-, hs1⟩ := GET_SIZE_some _ _ _ _ _ _ _ _ es1
    rw [rw_eq _ _ _ _ rfl] at hs1
    have hs1' : s1 = asize := by omega
    subst hs1'
    obtain ⟨⟨f1, f2, f3⟩, rfl⟩ := PUT_some _ _ _ _ _ _ _ _ _ e2
    simp only [NEXT_BLKP, WSIZE, Nat.add_sub_cancel, Option.map_eq_some'] at eb
    obtain ⟨s2, es2, rfl⟩ := eb
    obtain ⟨-, hs2⟩ := GET_SIZE_some _ _ _ _ _ _ _ _ es2
    rw [rw_ne _ _ _ _ (by omega), rw_eq _ _ _ _ rfl] at hs2
    have hs2' : s2 = s1 := by omega
    subst hs2'
    simp only [HDRP, WSIZE, PACK_zero] at e3
    obtain ⟨⟨k1, k2, k3⟩, rfl⟩ := PUT_some _ _ _ _ _ _ _ _ _ e3
    simp only [FTRP, HDRP, WSIZE, DSIZE, Option.map_eq_some'] at ef'
    obtain ⟨s3, es3, rfl⟩ := ef'
    obtain ⟨-, hs3⟩ := GET_SIZE_some _ _ _ _ _ _ _ _ es3
    rw [rw_eq _ _ _ _ rfl] at hs3
    have hs3' : 8 ≤ s3 := by
      unfold sub64 at hs3 hsplit
      omega
    simp only [PACK_zero] at e4
    obtain ⟨⟨l1, l2, l3⟩, rfl⟩ := PUT_some _ _ _ _ _ _ _ _ _ e4
    simp only [PRED, SUCC, WSIZE] at e5 e6
    obtain ⟨-, rfl⟩ := PUT_some _ _ _ _ _ _ _ _ _ e5
    obtain ⟨-, rfl⟩ := PUT_some _ _ _ _ _ _ _ _ _ e6
    refine ⟨s2, le_refl _, h8, hlt, by omega, by omega, by omega,
      ⟨rfl, rfl, rfl, rfl, rfl⟩, ?_, ?_⟩
    · dsimp only
      rw [rw_ne _ _ _ _ (by omega), rw_ne _ _ _ _ (by omega), rw_ne _ _ _ _ (by omega),
        rw_ne _ _ _ _ (by omega), rw_ne _ _ _ _ (by omega), rw_eq _ _ _ _ rfl]
      omega
    · dsimp only
      rw [rw_ne _ _ _ _ (by omega), rw_ne _ _ _ _ (by omega), rw_ne _ _ _ _ (by omega),
        rw_ne _ _ _ _ (by omega), rw_eq _ _ _ _ (by omega)]
      omega
  · -- the whole block is taken
    rename_i hwhole
    have hge : asize ≤ T := by
      unfold sub64 at hwhole
      omega
    simp only [Option.bind_eq_some] at e
    obtain ⟨h1, e1, f, ef, e2⟩ := e
    rw [P1 T hT8] at e1 e2
    obtain ⟨-, rfl⟩ := PUT_some _ _ _ _ _ _ _ _ _ e1
    simp only [FTRP, HDRP, WSIZE, DSIZE, Nat.add_sub_cancel, Option.map_eq_some'] at ef
    obtain ⟨s1, es1, rfl⟩ := ef
    obtain ⟨-, hs1⟩ := GET_SIZE_some _ _ _ _ _ _ _ _ es1
    rw [rw_eq _ _ _ _ rfl] at hs1
    have hs1' : s1 = T := by omega
    subst hs1'
    obtain ⟨⟨f1, f2, f3⟩, rfl⟩ := PUT_some _ _ _ _ _ _ _ _ _ e2
    refine ⟨s1, hge, hT8, hTlt, by omega, by omega, by omega,
      ⟨rfl, rfl, rfl, rfl, rfl⟩, ?_, ?_⟩
    · dsimp only
      rw [rw_ne _ _ _ _ (by omega), rw_eq _ _ _ _ rfl]
      omega
    · dsimp only
      rw [rw_eq _ _ _ _ (by omega)]
      omega

/-- Whatever `extend_heap` returns, the start of the provider's region, its
limit and `heap_listp` are what they were, and the break has not moved down. -/
theorem extend_heap_frame (h h' : Heap) (words r : Nat)
    (e : extend_heap h words = some (h', r)) :
    h'.lo = h.lo ∧ h'.cap = h.cap ∧ h'.heap_listp = h.heap_listp ∧ h.brk ≤ h'.brk := by
  unfold extend_heap mem_sbrk at e
  dsimp only at e
  split at e
  · dsimp only at e
    split at e
    · simp only [Option.some.injEq, Prod.mk.injEq] at e
      rw [← e.1]
      exact ⟨rfl, rfl, rfl, Nat.le_add_right _ _⟩
    · simp only [Option.bind_eq_bind, Option.bind_eq_some] at e
      obtain ⟨g1, f1, _, _, g2, f2, g3, f3, g4, f4, _, _, g5, f5, f6⟩ := e
      have hr := (PUT_region _ _ _ _ f1).trans ((PUT_region _ _ _ _ f2).trans
        ((PUT_region _ _ _ _ f3).trans ((PUT_region _ _ _ _ f4).trans
        ((PUT_region _ _ _ _ f5).trans (coalesce_same _ _ _ _ f6)))))
      obtain ⟨r1, r2, r3, -, r5⟩ := hr
      dsimp only at r1 r2 r3 r5
      exact ⟨r1, r3, r5, by omega⟩
  · dsimp only at e
    simp only [if_true, Option.some.injEq, Prod.mk.injEq] at e
    rw [← e.1]
    exact ⟨rfl, rfl, rfl, le_refl _⟩

/-- Whenever `malloc(size)` returns a pointer other than `NULL`, in whatever
state it was called: the word in front of the pointer and the word at its
`FTRP` both hold `PACK(bsz, 1)` for one size `bsz` that is at least the
adjusted size, and both words lie in the heap. -/
theorem malloc_tags (h h' : Heap) (size p : Nat) (hs : 0 < size) (hov : size + 15 < 2 ^ 64)
    (ha : adjust size < 2 ^ 32) (e : malloc h size = some (h', p)) (hp : p ≠ NULL) :
    ∃ bsz, adjust size ≤ bsz ∧ bsz % 8 = 0 ∧ bsz < 2 ^ 32 ∧ 4 < p ∧ h.lo + 4 ≤ p ∧
      p + bsz ≤ h'.brk + 4 ∧ h'.lo = h.lo ∧ h'.cap = h.cap ∧ h'.heap_listp = h.heap_listp ∧
      read32 h'.mem (p - 4) = bsz + 1 ∧ read32 h'.mem (p + bsz - 8) = bsz + 1 := by
  obtain ⟨a8, a16, -, -⟩ := adjust_spec size hs hov
  unfold malloc at e
  rw [if_neg (by omega)] at e
  dsimp only at e
  split at e
  · simp at e
  · rename_i first ef
    split at e
    · simp only [Option.map_eq_some', Prod.mk.injEq] at e
      obtain ⟨h1, e1, rfl, rfl⟩ := e
      obtain ⟨bsz, b1, b2, b3, b4, b5, b6, ⟨r1, r2, r3, -, r5⟩, b7, b8⟩ :=
        place_tags h h1 first (adjust size) a8 a16 ha e1
      exact ⟨bsz, b1, b2, b3, b4, b5, by omega, r1, r3, r5, b7, b8⟩
    · split at e
      · simp at e
      · rename_i h1 q ee
        obtain ⟨x1, x2, x3, x4⟩ := extend_heap_frame _ _ _ _ ee
        split at e
        · simp only [Option.some.injEq, Prod.mk.injEq] at e
          exact absurd e.2.symm hp
        · simp only [Option.map_eq_some', Prod.mk.injEq] at e
          obtain ⟨h2, e1, rfl, rfl⟩ := e
          obtain ⟨bsz, b1, b2, b3, b4, b5, b6, ⟨r1, r2, r3, -, r5⟩, b7, b8⟩ :=
            place_tags h1 h2 q (adjust size) a8 a16 ha e1
          exact ⟨bsz, b1, b2, b3, b4, by omega, by omega, by omega, by omega, by omega, b7, b8⟩

/-- The three reads of a caller at the block that `malloc` returned. -/
theorem tags_reads (h : Heap) (p bsz : Nat) (b2 : bsz % 8 = 0) (b3 : bsz < 2 ^ 32)
    (b16 : 16 ≤ bsz) (b4 : 4 < p) (b5 : h.lo + 4 ≤ p) (b6 : p + bsz ≤ h.brk + 4)
    (b7 : read32 h.mem (p - 4) = bsz + 1) (b8 : read32 h.mem (p + bsz - 8) = bsz + 1) :
    GET h (HDRP p) = some (PACK bsz 1) ∧ FTRP h p = some (p + bsz - DSIZE) ∧
      GET h (p + bsz - DSIZE) = some (PACK bsz 1) := by
  obtain ⟨m, lo, brk, cap, calls, hl⟩ := h
  dsimp only at b5 b6 b7 b8
  have g1 : GET ⟨m, lo, brk, cap, calls, hl⟩ (p - 4) = some (bsz + 1) := by
    rw [GET_mk _ _ _ _ _ _ _ (by omega) (by omega) (by omega), b7]
  have g2 : GET ⟨m, lo, brk, cap, calls, hl⟩ (p + bsz - 8) = some (bsz + 1) := by
    rw [GET_mk _ _ _ _ _ _ _ (by omega) (by omega) (by omega), b8]
  have hsz : (bsz + 1) &&& 4294967288 = bsz := by
    rw [mask_size _ (by omega)]
    omega
  refine ⟨?_, ?_, ?_⟩
  · simp only [HDRP, WSIZE, P1 bsz b2, g1]
  · simp only [FTRP, GET_SIZE, HDRP, WSIZE, DSIZE, g1, Option.map_some', hsz]
  · simp only [DSIZE, P1 bsz b2, g2]

/-- How `calloc` follows `malloc`, in any state: it faults when `malloc`
faults, returns `NULL` with the state of `malloc` when `malloc` returns
`NULL`, and otherwise clears the first `bytes` payload bytes, which lie
between the header and the footer of the block that `malloc` has tagged. -/
theorem calloc_tags (h h1 : Heap) (nmemb size q : Nat)
    (hb : 0 < wrap64 (nmemb * size)) (hr : wrap64 (nmemb * size) + 15 < 2 ^ 64)
    (ha : adjust (wrap64 (nmemb * size)) < 2 ^ 32)
    (e : malloc h (wrap64 (nmemb * size)) = some (h1, q)) (hq : q ≠ NULL) :
    ∃ bsz, wrap64 (nmemb * size) + 8 ≤ bsz ∧ bsz % 8 = 0 ∧ bsz < 2 ^ 32 ∧ 4 < q ∧
      h1.lo + 4 ≤ q ∧ q + bsz ≤ h1.brk + 4 ∧
      read32 h1.mem (q - 4) = bsz + 1 ∧ read32 h1.mem (q + bsz - 8) = bsz + 1 ∧
      calloc h nmemb size =
        some ({ h1 with mem := fun x =>
          if q ≤ x ∧ x < q + wrap64 (nmemb * size) then 0 else h1.mem x }, q) := by
  obtain ⟨a8, a16, age, alt⟩ := adjust_spec _ hb hr
  obtain ⟨bsz, b1, b2, b3, b4, b5, b6, b7, -, -, b8, b9⟩ :=
    malloc_tags h h1 _ q hb hr ha e hq
  rw [← b7] at b5
  refine ⟨bsz, by omega, b2, b3, b4, b5, b6, b8, b9, ?_⟩
  obtain ⟨m1, lo1, brk1, cap1, calls1, hl1⟩ := h1
  dsimp only at b5 b6
  simp only [calloc, e, Option.bind_eq_bind, Option.some_bind, ne_eq, hq, not_false_eq_true,
    if_true]
  rw [memset_mk _ _ _ _ _ _ _ _ _ hb (by omega) (by omega) (by omega)]
  rfl

/-- C10. Zero-allocate.  Let `bytes = nmemb * size` (as a `size_t`) be
non-zero with an adjusted size that overflows neither the `size_t` arithmetic
that forms it nor the 32-bit size field of a header.  In every state of the
heap, `calloc(nmemb, size)` follows `malloc(bytes)` on the same heap.  When
`malloc` faults, so does `calloc`.  When `malloc` returns the pointer `q`,
`calloc` returns the same `q`, with the same region and provider call count;
for `q = NULL` the two resulting states are equal; for `q ≠ NULL` the words at
`HDRP(q)` and `FTRP(q)` both hold `PACK(bsz, 1)` in the heap `calloc` leaves,
the cleared range ends at or before the footer (`q + bytes ≤ FTRP(q)`), every
one of the first `bytes` payload bytes is 0, no byte outside `[q, q + bytes)`
differs from what `malloc` leaves, and whenever the heap that `malloc` leaves
is a block list `bs'` with a block at `q`, the heap that `calloc` leaves is
the same block list: all headers and footers are the same.  On a well-formed
heap scanned from the prologue `malloc` does return, with such a list. -/
theorem C10_calloc_zeroes (h : Heap) (nmemb size : Nat)
    (hb : 0 < wrap64 (nmemb * size)) (hr : wrap64 (nmemb * size) + 15 < 2 ^ 64)
    (ha : adjust (wrap64 (nmemb * size)) < 2 ^ 32) :
    (malloc h (wrap64 (nmemb * size)) = none → calloc h nmemb size = none) ∧
    (∀ h1 q, malloc h (wrap64 (nmemb * size)) = some (h1, q) →
      ∃ h', calloc h nmemb size = some (h', q) ∧ SameRegion h1 h' ∧
        (q = NULL → h' = h1) ∧
        (q ≠ NULL → ∃ bsz,
          GET h' (HDRP q) = some (PACK bsz 1) ∧
          FTRP h' q = some (q + bsz - DSIZE) ∧
          GET h' (q + bsz - DSIZE) = some (PACK bsz 1) ∧
          q + wrap64 (nmemb * size) ≤ q + bsz - DSIZE ∧
          (∀ x, q ≤ x → x < q + wrap64 (nmemb * size) → h'.mem x = 0) ∧
          (∀ x, x < q ∨ q + wrap64 (nmemb * size) ≤ x → h'.mem x = h1.mem x) ∧
          (∀ bs' b, HeapAt h1 bs' → BlockAt (h1.lo + 12) bs' (HDRP q) b → HeapAt h' bs'))) ∧
    (∀ bs, HeapAt h bs → h.heap_listp = h.lo + 8 →
      (h.brk + MAX (adjust (wrap64 (nmemb * size))) CHUNKSIZE ≤ h.cap →
        h.brk + MAX (adjust (wrap64 (nmemb * size))) CHUNKSIZE < h.lo + 2 ^ 32) →
      ∃ h1 q, malloc h (wrap64 (nmemb * size)) = some (h1, q) ∧
        (q ≠ NULL → ∃ bs' b, HeapAt h1 bs' ∧ BlockAt (h1.lo + 12) bs' (HDRP q) b)) := by
  refine ⟨fun e => ?_, fun h1 q e => ?_, fun bs H hl hg => ?_⟩
  · simp only [calloc, e, Option.bind_eq_bind, Option.none_bind]
  · by_cases hq : q = NULL
    · refine ⟨h1, ?_, SameRegion.refl _, fun _ => rfl, fun hn => absurd hq hn⟩
      simp only [calloc, e, Option.bind_eq_bind, Option.some_bind, ne_eq, hq, not_true_eq_false,
        if_false]
    · obtain ⟨bsz, b1, b2, b3, b4, b5, b6, b8, b9, hc⟩ :=
        calloc_tags h h1 nmemb size q hb hr ha e hq
      refine ⟨_, hc, ⟨rfl, rfl, rfl, rfl, rfl⟩, fun h0 => absurd h0 hq, fun _ => ?_⟩
      have hout : ∀ x, x < q ∨ q + wrap64 (nmemb * size) ≤ x →
          (if q ≤ x ∧ x < q + wrap64 (nmemb * size) then 0 else h1.mem x) = h1.mem x := by
        intro x hx
        rw [if_neg (by omega)]
      have r1 : read32 (fun x => if q ≤ x ∧ x < q + wrap64 (nmemb * size) then 0 else h1.mem x)
          (q - 4) = bsz + 1 := by
        rw [← b8]
        exact read32_congr _ _ _ (fun x _ _ => hout x (by omega))
      have r2 : read32 (fun x => if q ≤ x ∧ x < q + wrap64 (nmemb * size) then 0 else h1.mem x)
          (q + bsz - 8) = bsz + 1 := by
        rw [← b9]
        exact read32_congr _ _ _ (fun x _ _ => hout x (by omega))
      obtain ⟨t1, t2, t3⟩ := tags_reads
        { h1 with mem := fun x =>
          if q ≤ x ∧ x < q + wrap64 (nmemb * size) then 0 else h1.mem x }
        q bsz b2 b3 (by omega) b4 b5 b6 r1 r2
      refine ⟨bsz, t1, t2, t3, by unfold DSIZE; omega, fun x x1 x2 => ?_, hout, ?_⟩
      · dsimp only
        rw [if_pos ⟨x1, x2⟩]
      · intro bs' b H hbq
        obtain ⟨m1, lo1, brk1, cap1, calls1, hl1⟩ := h1
        simp only [HDRP, WSIZE] at hbq
        dsimp only at hbq b8 ⊢
        obtain ⟨c1, c2, c3, c4, c5, c6, -⟩ :=
          block_reads m1 lo1 brk1 cap1 calls1 hl1 bs' (q - 4) b H hbq
        rw [GET_mk _ _ _ _ _ _ _ (by omega) (by omega) (by omega), b8] at c6
        simp only [Option.some.injEq] at c6
        have ht := tag_le b.alloc
        have hsz : b.size = bsz := by omega
        exact HeapAt_payload m1 _ lo1 brk1 cap1 calls1 hl1 bs' (q - 4) b H hbq
          (fun x hx => hout x (by omega))
  · obtain ⟨m, lo, brk, cap, calls, hl0⟩ := h
    dsimp only at hl hg
    subst hl
    obtain ⟨m', brk', calls', q, hm, -, -, hq⟩ :=
      malloc_blocks m lo brk cap calls bs _ H hb hr hg
    refine ⟨_, q, hm, fun hne => ?_⟩
    obtain ⟨bs', bsz, H', hq16, hbq, -⟩ := hq hne
    exact ⟨bs', _, H', hbq⟩

theorem C10_witness :
    (0 < wrap64 (3 * 7) ∧ wrap64 (3 * 7) + 15 < 2 ^ 64 ∧ adjust (wrap64 (3 * 7)) < 2 ^ 32) ∧
    (∀ h1 q, malloc exHeap3 (wrap64 (3 * 7)) = some (h1, q) →
      ∃ h', calloc exHeap3 3 7 = some (h', q) ∧ SameRegion h1 h' ∧
        (q ≠ NULL → ∃ bsz,
          GET h' (HDRP q) = some (PACK bsz 1) ∧
          q + wrap64 (3 * 7) ≤ q + bsz - DSIZE ∧
          (∀ x, q ≤ x → x < q + wrap64 (3 * 7) → h'.mem x = 0))) ∧
    (calloc exHeap3 3 7).map Prod.snd = some 4216 := by
  refine ⟨by decide, fun h1 q e => ?_, by decide⟩
  obtain ⟨h', e1, e2, -, e4⟩ :=
    (C10_calloc_zeroes exHeap3 3 7 (by decide) (by decide) (by decide)).2.1 h1 q e
  refine ⟨h', e1, e2, fun hq => ?_⟩
  obtain ⟨bsz, a1, -, -, a4, a5, -⟩ := e4 hq
  exact ⟨bsz, a1, a4, a5⟩

/-- C7, on the code.  After the code's own `mm_init` on the fresh heap
`exTight` (which returns 0, leaves one free block of 464 bytes, the break at
the provider's limit and the file-scope `heap_listp` null), no free block has
the 1008 bytes that `malloc(1000)` needs and the provider refuses every
request, yet `malloc(1000)` does not return `NULL`: it faults in `find_fit`.
With `heap_listp` at the prologue block, as the specification has it, the
claim holds on every well-formed heap: when no free block has at least the
adjusted size and the provider refuses the request that `malloc` makes,
`malloc(size)` returns `NULL` and the heap is exactly what it was (only the
count of provider calls has moved); likewise `realloc(p, size)` on the growing
path returns `NULL` and leaves the heap, and so the block at `p`, unchanged.
`extend_heap`, in any state, returns `NULL` without writing a word when the
provider refuses. -/
theorem C7_out_of_memory_is_atomic :
    ((mm_init exTight).map (fun r => (r.2, r.1.heap_listp, r.1.brk, r.1.cap, GET r.1 4108)) =
        some (0, NULL, 4576, 4576, some (PACK 464 0)) ∧
      464 < adjust 1000 ∧
      (mm_init exTight).bind (fun r => malloc r.1 1000) = none) ∧
    (∀ (h : Heap) (bs : List Block) (size : Nat), HeapAt h bs → h.heap_listp = h.lo + 8 →
      0 < size → size + 15 < 2 ^ 64 →
      (∀ b ∈ bs, b.alloc = false → b.size < adjust size) →
      Refuses h (MAX (adjust size) CHUNKSIZE) →
      malloc h size = some ({ h with calls := h.calls + 1 }, NULL) ∧
      (∀ p oldsize, h.lo + 16 ≤ p → BlockAt (h.lo + 12) bs (p - 4) ⟨oldsize, true⟩ →
        oldsize < adjust size →
        realloc h p size = some ({ h with calls := h.calls + 1 }, NULL) ∧
        HeapAt { h with calls := h.calls + 1 } bs)) ∧
    (∀ (g : Heap) (words : Nat), Refuses g (extendBytes words) →
      extend_heap g words = some ({ g with calls := g.calls + 1 }, NULL)) := by
  refine ⟨⟨by decide, by decide, by rfl⟩, ?_, ?_⟩
  · intro h bs size hl hp hs hr hnofit hrefuse
    obtain ⟨m, lo, brk, cap, calls, hlp⟩ := h
    dsimp only at hp ⊢
    subst hp
    have hcap : cap < brk + MAX (adjust size) CHUNKSIZE := hrefuse
    have hg : brk + MAX (adjust size) CHUNKSIZE ≤ cap →
        brk + MAX (adjust size) CHUNKSIZE < lo + 2 ^ 32 := fun hroom => by omega
    have hm : malloc ⟨m, lo, brk, cap, calls, lo + 8⟩ size =
        some (⟨m, lo, brk, cap, calls + 1, lo + 8⟩, NULL) := by
      rcases malloc_spec m lo brk cap calls bs size hl hs hr hg with
        ⟨m', pre, tot, post, rfl, htot, -⟩ | ⟨-, -, hm⟩ | ⟨-, hroom, -⟩
      · have := hnofit ⟨tot, false⟩ (by simp) rfl
        dsimp only at this
        omega
      · exact hm
      · omega
    refine ⟨hm, ?_⟩
    intro p oldsize hpl hb hbig
    obtain ⟨m', brk', calls', q, hre, hq0, hq1⟩ :=
      realloc_grow_heap m lo brk cap calls bs p oldsize size hl hpl hb hs hr hbig hg
    refine ⟨?_, HeapAt_calls _ _ _ _ _ _ _ _ _ hl⟩
    by_cases hq : q = NULL
    · obtain ⟨rfl, rfl, rfl, -⟩ := hq0 hq
      rw [hre, hq]
    · obtain ⟨r1, r2, r3, r4, -⟩ := block_reads m lo brk cap calls (lo + 8) bs (p - 4) _ hl hb
      obtain ⟨pre0, post0, ebs, hpa⟩ := (BlockAt_split _ _ _ _).1 hb
      have H0 := hl
      rw [ebs] at H0
      obtain ⟨-, -, -, -, olt, hh, -⟩ := HeapAt_block m lo brk cap calls (lo + 8) pre0 post0 _ H0
      dsimp only at r1 r2 r3 r4 olt hh
      simp only [tag, if_true] at hh
      rw [← hpa] at hh
      have ep : p = p - 4 + 4 := by omega
      have hun := realloc_grow_unfold m lo brk cap calls (lo + 8) (p - 4) oldsize size hl.lo_pos
        (by omega) (by omega) hs hbig r3 r4 olt hh
      rw [← ep] at hun
      rw [hun, hm]
      rfl
  · intro g words hg
    simp only [extend_heap, mem_sbrk_refuses g _ hg, if_true]

theorem C7_witness :
    HeapAt exFull [⟨32, true⟩, ⟨48, true⟩, ⟨24, true⟩, ⟨360, false⟩] ∧
    exFull.heap_listp = exFull.lo + 8 ∧ 0 < 1000 ∧ 1000 + 15 < 2 ^ 64 ∧
    (∀ b ∈ [(⟨32, true⟩ : Block), ⟨48, true⟩, ⟨24, true⟩, ⟨360, false⟩],
      b.alloc = false → b.size < adjust 1000) ∧
    Refuses exFull (MAX (adjust 1000) CHUNKSIZE) ∧
    malloc exFull 1000 = some ({ exFull with calls := exFull.calls + 1 }, NULL) := by
  have hlay : HeapAt exFull [⟨32, true⟩, ⟨48, true⟩, ⟨24, true⟩, ⟨360, false⟩] :=
    ⟨exHeap3_layout.lo_pos, by decide, by decide, by decide, exHeap3_layout.room,
      exHeap3_layout.pro_hdr, exHeap3_layout.pro_ftr, exHeap3_layout.seg, exHeap3_layout.epi⟩
  have hno : ∀ b ∈ [(⟨32, true⟩ : Block), ⟨48, true⟩, ⟨24, true⟩, ⟨360, false⟩],
      b.alloc = false → b.size < adjust 1000 := by decide
  exact ⟨hlay, rfl, by decide, by decide, hno, by decide,
    (C7_out_of_memory_is_atomic.2.1 exFull _ 1000 hlay rfl (by decide) (by decide) hno
      (by decide)).1⟩

theorem exBig_layout : HeapAt exBig [⟨464, false⟩] :=
  ⟨exHeap_layout.lo_pos, by decide, exHeap_layout.brk_lt, by decide, exHeap_layout.room,
    exHeap_layout.pro_hdr, exHeap_layout.pro_ftr, exHeap_layout.seg, exHeap_layout.epi⟩

/-- C18 (as amended).  On a well-formed heap, for a word count `words ≥ 3`
whose byte count `4 * (words + 1)` does not wrap around in a 64-bit `size_t`,
`extend_heap(words)` asks the provider once, for exactly `4 * words` bytes
when `words` is even and `4 * (words + 1)` bytes when it is odd.  When the
provider refuses, it returns `NULL` and writes nothing.  When the provider
succeeds and the grown heap is still below `2^32` bytes, the break has moved
by that byte count, the heap is well formed again with a new epilogue header
in its last word, its last block is free and consists of the new region (which
starts at the old epilogue header) merged with the block `fp` that ended the
old heap when that was free, its size being the sum of the two, and the
pointer returned is the payload address of that block: the old break itself
when the old heap ended in an allocated block. -/
theorem C18_extend_heap (h : Heap) (bs : List Block) (words : Nat)
    (hl : HeapAt h bs) (hw : 3 ≤ words) (hov : 4 * (words + 1) < 2 ^ 64) :
    extendBytes words = (if words % 2 = 0 then 4 * words else 4 * (words + 1)) ∧
    (Refuses h (extendBytes words) →
      extend_heap h words = some ({ h with calls := h.calls + 1 }, NULL)) ∧
    (¬ Refuses h (extendBytes words) → h.brk + extendBytes words < h.lo + 2 ^ 32 →
      ∃ h' pre fp, bs = pre ++ fp ∧
        (fp = [] ∧ lastAlloc bs = true ∨ ∃ s, fp = [⟨s, false⟩]) ∧
        extend_heap h words = some (h', h.brk - total fp) ∧
        h'.lo = h.lo ∧ h'.brk = h.brk + extendBytes words ∧ h'.cap = h.cap ∧
        h'.calls = h.calls + 1 ∧ h'.heap_listp = h.heap_listp ∧
        HeapAt h' (pre ++ [⟨total fp + extendBytes words, false⟩]) ∧
        (∀ x, x < h.brk - 4 - total fp → h'.mem x = h.mem x)) := by
  have hbytes : extendBytes words = (if words % 2 = 0 then 4 * words else 4 * (words + 1)) := by
    unfold extendBytes wrap64 WSIZE
    split
    · rw [Nat.mod_eq_of_lt (by omega)]; omega
    · rw [Nat.mod_eq_of_lt (by omega)]; omega
  have h16 : 16 ≤ extendBytes words := by
    rw [hbytes]; split <;> omega
  obtain ⟨m, lo, brk, cap, calls, hlp⟩ := h
  refine ⟨hbytes, fun hr => ?_, fun hr hlt => ?_⟩
  · exact extend_heap_fail m lo brk cap calls hlp words hr
  · have hroom : brk + extendBytes words ≤ cap := by
      unfold Refuses at hr
      dsimp only at hr
      omega
    obtain ⟨m', pre', fp, e1, hfp, hex, H', hfr⟩ :=
      extend_heap_heap m lo brk cap calls hlp bs words hl h16 hroom hlt
    have hend := Seg_end _ _ _ _ hl.seg
    have hroom' := hl.room
    dsimp only at hend hroom' ⊢
    have et : total bs = total pre' + total fp := by rw [e1, total_append]
    refine ⟨⟨m', lo, brk + extendBytes words, cap, calls + 1, hlp⟩, pre', fp, e1, hfp, ?_, rfl, rfl,
      rfl, rfl, rfl, H', fun x hx => hfr x (by omega)⟩
    rw [hex]
    congr 2
    omega



theorem C18_witness :
    HeapAt exBig [⟨464, false⟩] ∧ 3 ≤ 1024 ∧ 4 * (1024 + 1) < 2 ^ 64 ∧
    extendBytes 1024 = 4096 ∧ ¬ Refuses exBig (extendBytes 1024) ∧
    exBig.brk + extendBytes 1024 < exBig.lo + 2 ^ 32 ∧
    ∃ h', extend_heap exBig 1024 = some (h', 4112) ∧ h'.brk = 4576 + 4096 ∧
      HeapAt h' [⟨464 + 4096, false⟩] := by
  obtain ⟨hb, -, hok⟩ := C18_extend_heap exBig _ 1024 exBig_layout (by decide) (by decide)
  have hb' : extendBytes 1024 = 4096 := by rw [hb]; decide
  refine ⟨exBig_layout, by decide, by decide, hb', by decide, by decide, ?_⟩
  obtain ⟨h', pre, fp, e1, hfp, hex, -, hbrk, -, -, -, H', -⟩ := hok (by decide) (by decide)
  have hfp' : fp = [⟨464, false⟩] ∧ pre = [] := by
    rcases hfp with ⟨-, hla⟩ | ⟨s, rfl⟩
    · exact absurd hla (by decide)
    · cases pre with
      | nil => simp at e1; subst e1; exact ⟨rfl, rfl⟩
      | cons c pre => simp at e1
  obtain ⟨rfl, rfl⟩ := hfp'
  rw [hb'] at hbrk H'
  exact ⟨h', hex, hbrk, H'⟩

/-- C18, counterexample to the claim as stated, which speaks of every word
count.  For `words = 1` behind an allocated block the provider succeeds and
the new block has 8 bytes; its footer, cleared as a link word, is 0 and
differs from its header `PACK(8, 0)`.  For `words = 2^30` on a well-formed
heap of 480 bytes whose provider grants the 4 GiB, the size `2^32` does not
fit the 32-bit header: the word at the old epilogue header, where the new
region starts, is 0 and not `PACK(2^32, 0)`, the footer of the old last block
is overwritten with 0, and the last word of the grown heap is 0, not the
epilogue header `PACK(0, 1)`.  For `words = 2^62 + 4` the byte count wraps
around and the provider is asked for 16 bytes, not for `4 * words`. -/
theorem C18_counterexample :
    (HeapAt exLast [⟨464, true⟩] ∧ ¬ Refuses exLast (extendBytes 1) ∧
      (extend_heap exLast 1).map (fun r => r.2) = some 4576 ∧
      (extend_heap exLast 1).bind (fun r => GET r.1 (HDRP 4576)) = some (PACK 8 0) ∧
      (extend_heap exLast 1).bind (fun r => GET r.1 (4576 + 8 - DSIZE)) = some 0) ∧
    (HeapAt exBig [⟨464, false⟩] ∧ extendBytes (2 ^ 30) = 2 ^ 32 ∧
      ¬ Refuses exBig (extendBytes (2 ^ 30)) ∧
      (extend_heap exBig (2 ^ 30)).map (fun r => (r.2, r.1.brk)) =
        some (4576, 4576 + 2 ^ 32) ∧
      (extend_heap exBig (2 ^ 30)).bind (fun r => GET r.1 (HDRP 4576)) = some 0 ∧
      (extend_heap exBig (2 ^ 30)).bind (fun r => GET r.1 (4576 - DSIZE)) = some 0 ∧
      (extend_heap exBig (2 ^ 30)).bind (fun r => GET r.1 (4576 + 2 ^ 32 - WSIZE)) = some 0) ∧
    (2 ^ 62 + 4 < 2 ^ 64 ∧ extendBytes (2 ^ 62 + 4) = 16 ∧
      (extend_heap exHeap (2 ^ 62 + 4)).map (fun r => r.1.brk) = some (exHeap.brk + 16)) := by
  refine ⟨⟨exLast_layout, ?_, ?_, ?_, ?_⟩, ⟨exBig_layout, ?_, ?_, ?_, ?_, ?_, ?_⟩, ?_, ?_, ?_⟩ <;>
    decide

theorem exBig3_layout :
    HeapAt exBig3 [⟨32, true⟩, ⟨48, true⟩, ⟨24, true⟩, ⟨360, false⟩] :=
  ⟨exHeap3_layout.lo_pos, by decide, exHeap3_layout.brk_lt, by decide, exHeap3_layout.room,
    exHeap3_layout.pro_hdr, exHeap3_layout.pro_ftr, exHeap3_layout.seg, exHeap3_layout.epi⟩

/-- C5 (as amended).  Round-trip content on growth.  Let `p` be an allocated
block of block size `oldsize` in a well-formed heap and `size > 0` a size
whose adjusted size, formed without wrap-around, exceeds `oldsize`.  With the
file-scope `heap_listp` null, as the code's `mm_init` leaves it,
`realloc(p, size)` is a fault and returns nothing.  With `heap_listp` at the
prologue block, and the heap still below `2^32` bytes if `malloc` grows it by
the larger of the adjusted size and 4096, `realloc(p, size)` returns; when the
pointer `q` it returns is not `NULL`, then `q ≠ p`, each of the first
`oldsize - 8` payload bytes at `q` equals the byte at the same offset of the
payload of `p` before the call, `q` is the payload address of an allocated
block of the resulting heap of size at least `size + 8`, and the extent of the
block formerly at `p` lies in a free block of the resulting heap. -/
theorem C5_realloc_grow_keeps_content (h : Heap) (bs : List Block) (p oldsize size : Nat)
    (hl : HeapAt h bs) (hpl : h.lo + 16 ≤ p)
    (hb : BlockAt (h.lo + 12) bs (p - 4) ⟨oldsize, true⟩)
    (hs : 0 < size) (hr : size + 15 < 2 ^ 64) (hbig : oldsize < adjust size) :
    (h.heap_listp = NULL → realloc h p size = none) ∧
    (h.heap_listp = h.lo + 8 →
      (h.brk + MAX (adjust size) CHUNKSIZE ≤ h.cap →
        h.brk + MAX (adjust size) CHUNKSIZE < h.lo + 2 ^ 32) →
      ∃ h' q, realloc h p size = some (h', q) ∧
        (q ≠ NULL → q ≠ p ∧ (∀ i, i < oldsize - 8 → h'.mem (q + i) = h.mem (p + i)) ∧
          ∃ bs' bsz a' s', HeapAt h' bs' ∧
            BlockAt (h'.lo + 12) bs' (q - 4) ⟨bsz, true⟩ ∧ size + 8 ≤ bsz ∧
            BlockAt (h'.lo + 12) bs' a' ⟨s', false⟩ ∧ a' ≤ p - 4 ∧
            p - 4 + oldsize ≤ a' + s')) := by
  obtain ⟨m, lo, brk, cap, calls, hlp⟩ := h
  dsimp only at hpl hb ⊢
  obtain ⟨a8, a16, age, alt⟩ := adjust_spec size hs hr
  constructor
  · intro hn
    obtain ⟨r1, r2, r3, r4, -⟩ := block_reads m lo brk cap calls hlp bs (p - 4) _ hl hb
    obtain ⟨pre0, post0, ebs, hpa⟩ := (BlockAt_split _ _ _ _).1 hb
    have H0 := hl
    rw [ebs] at H0
    obtain ⟨-, -, -, -, olt, hh, -⟩ := HeapAt_block m lo brk cap calls hlp pre0 post0 _ H0
    dsimp only at r1 r2 r3 r4 olt hh
    simp only [tag, if_true] at hh
    rw [← hpa] at hh
    have ep : p = p - 4 + 4 := by omega
    have hun := realloc_grow_unfold m lo brk cap calls hlp (p - 4) oldsize size hl.lo_pos
      (by omega) (by omega) hs hbig r3 r4 olt hh
    rw [← ep] at hun
    rw [hun, malloc_null_listp _ _ hn (by omega)]
    rfl
  · intro hp hg
    subst hp
    obtain ⟨m', brk', calls', q, hre, -, hq⟩ :=
      realloc_grow_heap m lo brk cap calls bs p oldsize size hl hpl hb hs hr hbig hg
    refine ⟨_, q, hre, fun hne => ?_⟩
    obtain ⟨bs', bsz, a', s', H', -, hqp, hbq, hbsz, hfree, h1, h2, hbytes, -⟩ := hq hne
    exact ⟨hqp, hbytes, bs', bsz, a', s', H', hbq, by omega, hfree, h1, h2⟩

theorem C5_witness :
    (HeapAt exHeap3 [⟨32, true⟩, ⟨48, true⟩, ⟨24, true⟩, ⟨360, false⟩] ∧
      exHeap3.lo + 16 ≤ 4112 ∧
      BlockAt (exHeap3.lo + 12) [⟨32, true⟩, ⟨48, true⟩, ⟨24, true⟩, ⟨360, false⟩] (4112 - 4)
        ⟨32, true⟩ ∧ 0 < 100 ∧ 100 + 15 < 2 ^ 64 ∧ 32 < adjust 100) ∧
    ∃ h' q, realloc exHeap3 4112 100 = some (h', q) ∧
      (q ≠ NULL → q ≠ 4112 ∧ (∀ i, i < 32 - 8 → h'.mem (q + i) = exHeap3.mem (4112 + i)) ∧
        ∃ bs' bsz a' s', HeapAt h' bs' ∧
          BlockAt (h'.lo + 12) bs' (q - 4) ⟨bsz, true⟩ ∧ 100 + 8 ≤ bsz ∧
          BlockAt (h'.lo + 12) bs' a' ⟨s', false⟩ ∧ a' ≤ 4112 - 4 ∧ 4112 - 4 + 32 ≤ a' + s') :=
  ⟨⟨exHeap3_layout, by decide, by decide, by decide, by decide, by decide⟩,
    (C5_realloc_grow_keeps_content exHeap3 _ 4112 32 100 exHeap3_layout (by decide)
      (by decide) (by decide) (by decide) (by decide)).2 rfl (fun _ => by decide)⟩

/-- C5, counterexample to the claim as stated, which bounds neither the size
nor the growth of the heap.  In the well-formed heap `exBig3` of 480 bytes,
scanned from the prologue, whose provider grants 4 GiB, the block at 4112 is
allocated with block size 32, and for `size = 2^32 - 8` the adjusted size
`2^32` exceeds 32.  `realloc(4112, size)` returns the pointer 4576, which is
not `NULL`; but the header word of the block at 4576 is 0: the block is not
marked allocated, and no 32-bit header can record a block size of at least
`size + 8 = 2^32`. -/
theorem C5_counterexample :
    HeapAt exBig3 [⟨32, true⟩, ⟨48, true⟩, ⟨24, true⟩, ⟨360, false⟩] ∧
    exBig3.heap_listp = exBig3.lo + 8 ∧
    BlockAt (exBig3.lo + 12) [⟨32, true⟩, ⟨48, true⟩, ⟨24, true⟩, ⟨360, false⟩] (4112 - 4)
      ⟨32, true⟩ ∧
    0 < 2 ^ 32 - 8 ∧ adjust (2 ^ 32 - 8) = 2 ^ 32 ∧ 32 < adjust (2 ^ 32 - 8) ∧
    (realloc exBig3 4112 (2 ^ 32 - 8)).map Prod.snd = some 4576 ∧ 4576 ≠ NULL ∧
    (realloc exBig3 4112 (2 ^ 32 - 8)).bind (fun r => GET r.1 (HDRP r.2)) = some 0 ∧
    (realloc exBig3 4112 (2 ^ 32 - 8)).bind (fun r => GET_ALLOC r.1 (HDRP r.2)) = some 0 ∧
    (∀ w, w < 2 ^ 32 → w &&& 0xFFFFFFF8 < 2 ^ 32 - 8 + 8) := by
  refine ⟨exBig3_layout, rfl, ?_, ?_, ?_, ?_, ?_, ?_, ?_, ?_, ?_⟩
  · decide
  · decide
  · decide
  · decide
  · decide
  · decide
  · decide
  · decide
  · intro w hw
    exact lt_of_le_of_lt Nat.and_le_left hw

/-! ### A heap that outgrows the 32-bit boundary tags -/

end MM
